import Mathlib

/-! # ffc-alerting-utils: sanitizer, message normalizer, alert builder, alert data deriver

A shallow embedding of `app/index.js`.

* JavaScript values are `Val`; objects live in a `Heap` (a list of `Obj`, an
  address is an index), so that reference identity, cycles and shared
  references are explicit.  An object has a class (plain record, array with its
  elements, `Error` instance), its own enumerable properties in property order,
  its own non-enumerable properties (an `Error` keeps `message` and `stack`
  there) and the properties it inherits (an `Error` inherits `name`).
* Records that the code builds itself (`sanitizedObject`, the alert, its
  `data`) are fresh and unshared: they are `Tree`s whose leaves are values.
* The `WeakSet` of visited composites is a list of addresses.
* The copy that `deriveAlertData` builds and returns is a `Record`, a list of
  keys with values.
* The first argument of `sanitizeValue` is the recursion depth that the call
  stack admits; running out of it is the `RangeError` of an exhausted stack.
  `sanitizeValue_isSome` shows that the number of objects of the heap plus one
  is always enough; `sanitize`, the call that `toAlert` makes, is taken on a
  stack of that depth.
* Numbers are NaN, the infinities, negative zero and the integers of magnitude
  below `10^21`, which `String` prints in plain decimal; strings are sequences
  of Unicode scalar values whose JavaScript length is counted in UTF-16 code
  units.

Outside the model: functions and BigInt values, numbers with a fractional part
and integers from `10^21` on (printed with an exponent), accessor properties
and proxies, symbol-keyed properties, sparse arrays, a property named
`__proto__`.
-/

namespace FfcAlerting

/-! ## Values -/

/-- JavaScript numbers: NaN, the two infinities, negative zero, and the integers.
The model is meant for integers of magnitude below `10^21`, which `String`
prints in plain decimal; from `10^21` on JavaScript prints an exponent
(`1e+21`), which `numToString` does not reproduce. -/
inductive Num where
  | nan
  | posInf
  | negInf
  | negZero
  | int (i : Int)
  deriving DecidableEq, Repr

/-- JavaScript values.  `ref a` is a reference to the object at address `a`. -/
inductive Val where
  | undefined
  | null
  | bool (b : Bool)
  | num (n : Num)
  | str (s : String)
  | symbol (description : String)
  | ref (a : Nat)
  deriving DecidableEq, Repr

/-- What `Array.isArray` and `instanceof Error` can tell about an object. -/
inductive Cls where
  | plain
  | array (elems : List Val)
  | error
  deriving DecidableEq, Repr

/-- An object of the heap. -/
structure Obj where
  cls : Cls
  /-- Own enumerable string-keyed properties, in property order. -/
  own : List (String × Val)
  /-- Own non-enumerable properties. -/
  hidden : List (String × Val)
  /-- Properties found on the prototype chain. -/
  proto : List (String × Val)
  deriving DecidableEq, Repr

/-- The heap: the object at address `a` is the `a`-th entry. -/
abbrev Heap := List Obj

/-- The visited set (`WeakSet`) of composite addresses. -/
abbrev Seen := List Nat

/-- A record or array constructed by the code itself; leaves are values. -/
inductive Tree where
  | leaf (v : Val)
  | arr (items : List Tree) (props : List (String × Tree))
  | obj (props : List (String × Tree))

/-- The empty plain object, also what a dangling address reads as. -/
def emptyObj : Obj := { cls := .plain, own := [], hidden := [], proto := [] }

/-- The object at an address. -/
def Heap.obj (h : Heap) (a : Nat) : Obj := h.getD a emptyObj

/-- Lookup in an association list. -/
def lookup (k : String) : List (String × α) → Option α
  | [] => none
  | (k', v) :: rest => if k' = k then some v else lookup k rest

/-- Assignment `o[k] = v` on a property list: overwrite in place, else append. -/
def setProp (k : String) (v : α) : List (String × α) → List (String × α)
  | [] => [(k, v)]
  | (k', v') :: rest => if k' = k then (k, v) :: rest else (k', v') :: setProp k v rest

/-- Property read `object[k]`: own, then inherited, else `undefined`. -/
def Obj.get (o : Obj) (k : String) : Val :=
  match lookup k o.own with
  | some v => v
  | none =>
    match lookup k o.hidden with
    | some v => v
    | none => (lookup k o.proto).getD .undefined

/-- `Object.prototype.hasOwnProperty.call(o, k)` / `Object.hasOwn(o, k)`. -/
def Obj.hasOwn (o : Obj) (k : String) : Bool :=
  (lookup k o.own).isSome || (lookup k o.hidden).isSome

/-- Property read on a value: `undefined` unless the value is an object. -/
def getProp (h : Heap) (v : Val) (k : String) : Val :=
  match v with
  | .ref a => (h.obj a).get k
  | _ => .undefined

/-- Assignment `o.k = v` on the object at address `a`. -/
def Heap.setOwn (h : Heap) (a : Nat) (k : String) (v : Val) : Heap :=
  h.set a (let o := h.obj a
           if (lookup k o.hidden).isSome
           then { o with hidden := setProp k v o.hidden }
           else { o with own := setProp k v o.own })

/-! ## Strings and numbers -/

/-- White space and line terminators, as removed by `String.prototype.trim`. -/
def isJSWhitespace (c : Char) : Bool :=
  let n := c.toNat
  n = 0x09 || n = 0x0A || n = 0x0B || n = 0x0C || n = 0x0D || n = 0x20 || n = 0xA0 ||
  n = 0x1680 || (0x2000 ≤ n && n ≤ 0x200A) || n = 0x2028 || n = 0x2029 || n = 0x202F ||
  n = 0x205F || n = 0x3000 || n = 0xFEFF

/-- The list of characters with trailing white space removed. -/
def dropTrailing : List Char → List Char
  | [] => []
  | c :: cs =>
    match dropTrailing cs with
    | [] => if isJSWhitespace c then [] else [c]
    | r => c :: r

/-- `s.trim()`. -/
def jsTrim (s : String) : String :=
  ⟨dropTrailing (s.data.dropWhile isJSWhitespace)⟩

/-- `s.length`: the number of UTF-16 code units. -/
def jsLength (s : String) : Nat :=
  (s.data.map fun c => if c.toNat < 0x10000 then 1 else 2).sum

/-- Decimal digits of `n`, most significant first, in front of `acc`. -/
def decimalAux : Nat → Nat → List Char → List Char
  | 0, _, acc => acc
  | fuel + 1, n, acc =>
    if n < 10 then Char.ofNat (48 + n) :: acc
    else decimalAux fuel (n / 10) (Char.ofNat (48 + n % 10) :: acc)

/-- Decimal form of a natural number. -/
def natToString (n : Nat) : String := ⟨decimalAux (n + 1) n []⟩

/-- `String(n)` for a number (plain decimal digits, right below `10^21`). -/
def numToString : Num → String
  | .nan => "NaN"
  | .posInf => "Infinity"
  | .negInf => "-Infinity"
  | .negZero => "0"
  | .int (.ofNat n) => natToString n
  | .int (.negSucc n) => "-" ++ natToString (n + 1)

/-- `String(b)` for a boolean. -/
def boolToString (b : Bool) : String := if b then "true" else "false"

/-- Truthiness (`!!v`). -/
def truthy : Val → Bool
  | .undefined => false
  | .null => false
  | .bool b => b
  | .num .nan => false
  | .num .negZero => false
  | .num (.int i) => i ≠ 0
  | .num _ => true
  | .str s => s ≠ ""
  | .symbol _ => true
  | .ref _ => true

/-- The operator `a || b`. -/
def jsOr (a b : Val) : Val := if truthy a then a else b

/-- Strict equality with the number zero, `v === 0`. -/
def isNumberZero : Val → Bool
  | .num .negZero => true
  | .num (.int i) => i = 0
  | _ => false

/-- Test `v == null`. -/
def isNullish : Val → Bool
  | .undefined => true
  | .null => true
  | _ => false

/-! ## Constants -/

def DEFAULT_MESSAGE : String := "An error occurred"
def REDACTED : String := "[REDACTED]"
def CIRCULAR : String := "[Circular]"
def MAX_SANITIZED_LENGTH : Nat := 200

/-- One position of a regular-expression alternative. -/
inductive Atom where
  | chr (c : Char)
  | optOneOf (cs : List Char)

/-- Case folding under the flag `i` (no `u` flag), observed on ASCII patterns. -/
def canon (c : Char) : Nat :=
  let n := c.toNat
  if 97 ≤ n ∧ n ≤ 122 then n - 32 else n

/-- Does the alternative match at the start of the input? -/
def matchHere : List Atom → List Char → Bool
  | [], _ => true
  | .chr _ :: _, [] => false
  | .chr c :: rest, x :: xs => canon x == canon c && matchHere rest xs
  | .optOneOf _ :: rest, [] => matchHere rest []
  | .optOneOf cs :: rest, x :: xs =>
    (cs.any (fun c => canon x == canon c) && matchHere rest xs) || matchHere rest (x :: xs)

/-- The atoms of a literal. -/
def lit (s : String) : List Atom := s.data.map .chr

/-- The pattern `/(password|pass|secret|token|key|credential|auth|api[_-]?key)/i`. -/
def SENSITIVE_KEY_PATTERN : List (List Atom) :=
  [lit "password", lit "pass", lit "secret", lit "token", lit "key", lit "credential",
   lit "auth", lit "api" ++ [.optOneOf ['_', '-']] ++ lit "key"]

/-- All suffixes of the input, the positions where an unanchored match may start. -/
def suffixes : List Char → List (List Char)
  | [] => [[]]
  | c :: cs => (c :: cs) :: suffixes cs

/-- `pattern.test(s)` for an unanchored alternation. -/
def regexTest (pattern : List (List Atom)) (s : String) : Bool :=
  (suffixes s.data).any fun t => pattern.any fun alt => matchHere alt t

/-- `trimString`: trims strings, passes every other value through. -/
def trimString : Val → Val
  | .str s => .str (jsTrim s)
  | v => v

/-! ## The sanitizer -/

/-- `isSensitiveKey`: the key is a non-empty string that the pattern matches. -/
def isSensitiveKey (key : Option String) : Bool :=
  match key with
  | none => false
  | some k => k ≠ "" && regexTest SENSITIVE_KEY_PATTERN k

/-- `isTooLongString`. -/
def isTooLongString : Val → Bool
  | .str s => jsLength s > MAX_SANITIZED_LENGTH
  | _ => false

/-- `isPrimitive`: numbers and booleans. -/
def isPrimitive : Val → Bool
  | .num _ => true
  | .bool _ => true
  | _ => false

/-- `isObject`: `typeof value === 'object' && value !== null`. -/
def isObject : Val → Bool
  | .ref _ => true
  | _ => false

/-- `Array.isArray`. -/
def isArray (h : Heap) : Val → Bool
  | .ref a =>
    match (h.obj a).cls with
    | .array _ => true
    | _ => false
  | _ => false

/-- `instanceof Error`. -/
def isError (h : Heap) : Val → Bool
  | .ref a =>
    match (h.obj a).cls with
    | .error => true
    | _ => false
  | _ => false

/-- The elements of the array at an address. -/
def Heap.elems (h : Heap) (a : Nat) : List Val :=
  match (h.obj a).cls with
  | .array elems => elems
  | _ => []

/-- `seen.has(value)`. -/
def seenHas (seen : Seen) : Val → Bool
  | .ref a => seen.contains a
  | _ => false

/-- The redaction marker as a result. -/
def redactedTree : Tree := .leaf (.str REDACTED)

/-- The circular marker as a result. -/
def circularTree : Tree := .leaf (.str CIRCULAR)

/-- The type of `sanitizeValue` at one recursion depth: the result (`none` within
is `undefined`) and the visited set afterwards; the outer `none` is the
`RangeError` of an exhausted call stack. -/
abbrev Sanitizer := Val → Option String → Seen → Option (Option Tree × Seen)

/-- The `forEach` over `Object.entries(object)` in `sanitizeObject`, threading
`sanitizedObject` and the visited set. -/
def forEachEntry (rec : Sanitizer) :
    List (String × Val) → List (String × Tree) → Seen → Option (List (String × Tree) × Seen)
  | [], sanitizedObject, seen => some (sanitizedObject, seen)
  | (key, value) :: rest, sanitizedObject, seen =>
    match rec value (some key) seen with
    | none => none
    | some (none, seen') => forEachEntry rec rest sanitizedObject seen'
    | some (some sanitized, seen') =>
      forEachEntry rec rest (setProp key sanitized sanitizedObject) seen'

/-- `sanitizeObject(object, seen)` for the object at address `a`. -/
def sanitizeObject (rec : Sanitizer) (h : Heap) (a : Nat) (seen : Seen) :
    Option (Option Tree × Seen) :=
  if seen.contains a then some (some circularTree, seen)
  else
    match forEachEntry rec (h.obj a).own [] (a :: seen) with
    | none => none
    | some (sanitizedObject, seen') =>
      some (if sanitizedObject.length ≠ 0 then some (.obj sanitizedObject) else none, seen')

/-- The `map` over the items in `sanitizeArray`, threading the visited set. -/
def mapItems (rec : Sanitizer) (key : Option String) :
    List Val → Seen → Option (List (Option Tree) × Seen)
  | [], seen => some ([], seen)
  | item :: rest, seen =>
    match rec item key seen with
    | none => none
    | some (r, seen') =>
      match mapItems rec key rest seen' with
      | none => none
      | some (rs, seen'') => some (r :: rs, seen'')

/-- The predicate of the `filter` in `sanitizeArray`. -/
def keepItem : Option Tree → Bool
  | none => false
  | some (.leaf .undefined) => false
  | some (.leaf .null) => false
  | some (.leaf (.str s)) => jsTrim s ≠ ""
  | some _ => true

/-- The items that the `filter` keeps. -/
def filterItems : List (Option Tree) → List Tree
  | [] => []
  | none :: rest => filterItems rest
  | some t :: rest => if keepItem (some t) then t :: filterItems rest else filterItems rest

/-- `sanitizeArray(array, key, seen)` for the array at address `a`. -/
def sanitizeArray (rec : Sanitizer) (h : Heap) (a : Nat) (key : Option String) (seen : Seen) :
    Option (Option Tree × Seen) :=
  if seen.contains a then some (some circularTree, seen)
  else
    match mapItems rec key (h.elems a) (a :: seen) with
    | none => none
    | some (mapped, seen') =>
      let sanitizedArray := filterItems mapped
      some (if sanitizedArray.length ≠ 0 then some (.arr sanitizedArray []) else none, seen')

/-- `sanitizeValue(value, key, seen)`.  The first argument is the number of nested
calls of `sanitizeValue` that the call stack still admits: the code recurses
without a bound of its own, and a call on an exhausted stack raises `RangeError`,
which nothing catches.  The outer `none` is that error. -/
def sanitizeValue : Nat → Heap → Sanitizer
  | 0, _, _, _, _ => none
  | fuel + 1, h, value, key, seen =>
    if isSensitiveKey key then some (some redactedTree, seen)
    else if isObject value && seenHas seen value then some (some circularTree, seen)
    else if isNullish value then some (none, seen)
    else if isTooLongString value then some (some redactedTree, seen)
    else if isPrimitive value then some (some (.leaf value), seen)
    else
      match value with
      | .ref a =>
        if isArray h value then sanitizeArray (sanitizeValue fuel h) h a key seen
        else sanitizeObject (sanitizeValue fuel h) h a seen
      | _ => some (some (.leaf value), seen)

/-- The call `sanitizeValue(value)`: no key, a fresh visited set, on a call stack
that admits the depth `h.length + 1`.  That depth is always enough
(`sanitizeValue_isSome`), so the last case of the match does not occur. -/
def sanitize (h : Heap) (value : Val) : Option Tree :=
  match sanitizeValue (h.length + 1) h value none [] with
  | some (r, _) => r
  | none => none

/-! ## The message normalizer -/

/-- The operator `typeof`. -/
def typeOf : Val → String
  | .undefined => "undefined"
  | .null => "object"
  | .bool _ => "boolean"
  | .num _ => "number"
  | .str _ => "string"
  | .symbol _ => "symbol"
  | .ref _ => "object"

/-- `String(v)` for a number or a boolean (the only values the normalizer converts). -/
def scalarToString : Val → String
  | .num n => numToString n
  | .bool b => boolToString b
  | _ => ""

/-- `getPropertyMessage(object, propertyName)`. -/
def getPropertyMessage (h : Heap) (object : Val) (propertyName : String) : Val :=
  if !truthy object || typeOf object ≠ "object" then .undefined
  else
    let propertyValue := getProp h object propertyName
    if isNullish propertyValue then .undefined
    else if typeOf propertyValue = "string" then jsOr (trimString propertyValue) .undefined
    else if typeOf propertyValue = "number" ∨ typeOf propertyValue = "boolean" then
      .str (scalarToString propertyValue)
    else .undefined

/-- `normalizeMessage(input)`. -/
def normalizeMessage (h : Heap) (input : Val) : Val :=
  if isError h input then jsOr (trimString (getProp h input "message")) (.str DEFAULT_MESSAGE)
  else if isNullish input then .str DEFAULT_MESSAGE
  else if typeOf input = "string" then jsOr (trimString input) (.str DEFAULT_MESSAGE)
  else if typeOf input = "number" ∨ typeOf input = "boolean" then .str (scalarToString input)
  else if typeOf input = "object" then
    jsOr (jsOr (getPropertyMessage h input "msg") (getPropertyMessage h input "message"))
      (.str DEFAULT_MESSAGE)
  else .str DEFAULT_MESSAGE

/-! ## The error summary -/

/-- `s.split('\n')` on the characters of a string. -/
def splitLines : List Char → List (List Char)
  | [] => [[]]
  | c :: cs =>
    match splitLines cs with
    | [] => [[c]]
    | l :: ls => if c = '\n' then [] :: l :: ls else (c :: l) :: ls

/-- `lines.join('\n')`. -/
def joinLines : List String → String
  | [] => ""
  | [l] => l
  | l :: ls => l ++ "\n" ++ joinLines ls

/-- `String(v)`; what an object prints as is decided by its `toString`, code that
is not part of this module, so it is the parameter `objectToString`. -/
def jsString (objectToString : Nat → String) : Val → String
  | .undefined => "undefined"
  | .null => "null"
  | .bool b => boolToString b
  | .num n => numToString n
  | .str s => s
  | .symbol d => "Symbol(" ++ d ++ ")"
  | .ref a => objectToString a

/-- `truncateStack(stack, maxLines)`. -/
def truncateStack (objectToString : Nat → String) (stack : Val) (maxLines : Nat) : String :=
  if !truthy stack then ""
  else
    let lines := ((splitLines (jsString objectToString stack).data).map
      fun line => jsTrim ⟨line⟩).filter fun line => line ≠ ""
    if lines.length ≠ 0 then joinLines (lines.take maxLines) else ""

/-- `buildErrorData(error)`. -/
def buildErrorData (objectToString : Nat → String) (h : Heap) (error : Val) : Tree :=
  if !truthy error || typeOf error ≠ "object" then .obj []
  else
    .obj [("name", .leaf (getProp h error "name")),
          ("message", .leaf (normalizeMessage h error)),
          ("stack", .leaf (.str (truncateStack objectToString (getProp h error "stack") 5)))]

/-! ## The alert builder -/

/-- What `toAlert` reads from its surroundings. -/
structure Env where
  /-- The option `options.source`. -/
  optionsSource : Val
  /-- The module variable `configuredSource`. -/
  configuredSource : Val
  /-- The environment variable `process.env.ALERT_SOURCE`. -/
  envAlertSource : Val
  /-- What `String(object)` gives for the object at an address. -/
  objectToString : Nat → String

/-- The alert record. -/
structure Alert where
  source : Val
  type : Val
  data : Tree

/-- `looksLikeAlert(obj)`. -/
def looksLikeAlert (h : Heap) (obj : Val) : Bool :=
  match obj with
  | .ref a =>
    (h.obj a).hasOwn "source" || (h.obj a).hasOwn "type" || (h.obj a).hasOwn "data"
  | _ => false

/-- Truthiness of a constructed value. -/
def Tree.truthy : Tree → Bool
  | .leaf v => FfcAlerting.truthy v
  | _ => true

/-- `typeof t === 'object'` for a constructed value. -/
def Tree.isObjectType : Tree → Bool
  | .leaf v => typeOf v = "object"
  | _ => true

/-- `hasOwnProperty.call(t, k)` for a constructed value. -/
def Tree.hasOwn (h : Heap) (t : Tree) (k : String) : Bool :=
  match t with
  | .leaf (.ref a) => (h.obj a).hasOwn k
  | .leaf _ => false
  | .arr _ props => (lookup k props).isSome
  | .obj props => (lookup k props).isSome

/-- The assignment `t.message = v`: on a fresh record it sets the field, on a
reference it writes to the heap object, on a primitive it has no effect (the
module is not in strict mode). -/
def assignMessage (h : Heap) (t : Tree) (v : Val) : Tree × Heap :=
  match t with
  | .leaf (.ref a) => (t, h.setOwn a "message" v)
  | .leaf _ => (t, h)
  | .arr items props => (.arr items (setProp "message" (.leaf v) props), h)
  | .obj props => (.obj (setProp "message" (.leaf v) props), h)

/-- The source that `toAlert` falls back to:
`options.source || configuredSource || process.env.ALERT_SOURCE || 'ffc-doc-alerting'`. -/
def resolveSource (env : Env) : Val :=
  jsOr (jsOr (jsOr env.optionsSource env.configuredSource) env.envAlertSource)
    (.str "ffc-doc-alerting")

/-- `toAlert(input, defaultType, options)`: the alert (`none` is `null`) and the
heap afterwards. -/
def toAlert (env : Env) (h : Heap) (input : Val) (defaultType : Val) : Option Alert × Heap :=
  let defaultSource := resolveSource env
  if !truthy input && !isNumberZero input then (none, h)
  else if looksLikeAlert h input then
    let source := jsOr (getProp h input "source") defaultSource
    let type := jsOr (getProp h input "type") defaultType
    let data : Option Tree :=
      if getProp h input "data" ≠ .undefined then some (.leaf (getProp h input "data"))
      else sanitize h input
    match data with
    | none => (some ⟨source, type, .obj [("message", .leaf (normalizeMessage h input))]⟩, h)
    | some d =>
      if !d.truthy then
        (some ⟨source, type, .obj [("message", .leaf (normalizeMessage h input))]⟩, h)
      else if d.isObjectType then
        if !d.hasOwn h "message" then
          let r := assignMessage h d (normalizeMessage h input)
          (some ⟨source, type, r.1⟩, r.2)
        else (some ⟨source, type, d⟩, h)
      else (some ⟨source, type, d⟩, h)
  else if isError h input then
    (some ⟨defaultSource, defaultType, buildErrorData env.objectToString h input⟩, h)
  else
    let message := normalizeMessage h input
    let data : Tree :=
      match sanitize h input with
      | none => .obj []
      | some t => if t.truthy then t else .obj []
    let r := assignMessage h data message
    (some ⟨defaultSource, defaultType, r.1⟩, r.2)

/-! ## The alert data deriver -/

/-- A fresh record whose fields hold values: its own enumerable properties in order. -/
abbrev Record := List (String × Val)

/-- The index properties `"0"`, `"1"`, ... of array elements, counted from `i`. -/
def indexEntries : Nat → List Val → List (String × Val)
  | _, [] => []
  | i, v :: vs => (natToString i, v) :: indexEntries (i + 1) vs

/-- The properties that the spread `{ ...payload }` copies from the object at
address `payload`: its own enumerable ones (for an array its elements first). -/
def spreadEntries (h : Heap) (payload : Nat) : Record :=
  indexEntries 0 (h.elems payload) ++ (h.obj payload).own

/-- Property read on a fresh record. -/
def recordGet (r : Record) (k : String) : Val := (lookup k r).getD .undefined

/-- `needsMessage(alertData)`. -/
def needsMessage (alertData : Record) : Bool :=
  !(lookup "message" alertData).isSome ||
  isNullish (recordGet alertData "message") ||
  (typeOf (recordGet alertData "message") = "string" &&
    match recordGet alertData "message" with
    | .str s => jsLength (jsTrim s) = 0
    | _ => false)

/-- `extractMessage(maybeError, processName)`: the message and the flag `clearError`. -/
def extractMessage (h : Heap) (maybeError : Val) (processName : String) : Val × Bool :=
  if isError h maybeError then
    (jsOr (getProp h maybeError "message") (.str ("Failed processing " ++ processName)), false)
  else if typeOf maybeError = "object" ∧ isNullish maybeError = false ∧
      typeOf (getProp h maybeError "message") = "string" then
    (getProp h maybeError "message", false)
  else if typeOf maybeError = "string" then (maybeError, true)
  else (.str ("Failed processing " ++ processName), false)

/-- `deriveAlertData(payload, processName)` for an object payload (the address
`payload`) and a string `processName`.  All writes go to the fresh copy
`alertData`, so the heap is only read. -/
def deriveAlertData (h : Heap) (payload : Nat) (processName : String) : Record :=
  let alertData := setProp "process" (.str processName) (spreadEntries h payload)
  if !needsMessage alertData then alertData
  else
    let maybeError := recordGet alertData "error"
    let r := extractMessage h maybeError processName
    let alertData := setProp "message" r.1 alertData
    if r.2 then setProp "error" .null alertData else alertData

/-! ## Specification-side definitions -/

/-- A relation between the visited set before and after a step that every
traversal respects: it is reflexive, transitive, and holds when a composite that
is not yet in the set is entered. -/
structure SeenRel (R : Seen → Seen → Prop) : Prop where
  refl : ∀ s, R s s
  trans : ∀ a b c, R a b → R b c → R a c
  enter : ∀ a s, a ∉ s → R s (a :: s)

/-- The number of heap addresses that are not in the visited set. -/
def unvisited (h : Heap) (seen : Seen) : Nat :=
  (List.range h.length).countP fun a => !seen.contains a

/-- The usable form of a property, in the words of the specification: the
trimmed value of a string that is non-empty after trimming, the string form of a
number or boolean, nothing otherwise. -/
def usableForm : Val → Option String
  | .str s => if jsTrim s = "" then none else some (jsTrim s)
  | .num n => some (numToString n)
  | .bool b => some (boolToString b)
  | _ => none

/-- The message of a record, in the words of the specification: the usable form
of `msg` if there is one, else the usable form of `message`, else the default. -/
def specObjectMessage (msg message : Val) : String :=
  match usableForm msg with
  | some s => s
  | none =>
    match usableForm message with
    | some s => s
    | none => "An error occurred"

/-- Somewhere in the value, at any depth and also behind a reference into the
heap, there is a field whose key matches the sensitive-key pattern and which does
not hold the redaction marker. -/
inductive Exposes (h : Heap) : Tree → Prop where
  | objField (props : List (String × Tree)) (k : String) (t : Tree) :
      (k, t) ∈ props → isSensitiveKey (some k) = true → t ≠ redactedTree →
      Exposes h (.obj props)
  | objBelow (props : List (String × Tree)) (k : String) (t : Tree) :
      (k, t) ∈ props → Exposes h t → Exposes h (.obj props)
  | arrField (items : List Tree) (props : List (String × Tree)) (k : String) (t : Tree) :
      (k, t) ∈ props → isSensitiveKey (some k) = true → t ≠ redactedTree →
      Exposes h (.arr items props)
  | arrBelow (items : List Tree) (props : List (String × Tree)) (k : String) (t : Tree) :
      (k, t) ∈ props → Exposes h t → Exposes h (.arr items props)
  | arrItem (items : List Tree) (props : List (String × Tree)) (t : Tree) :
      t ∈ items → Exposes h t → Exposes h (.arr items props)
  | refField (a : Nat) (k : String) (v : Val) :
      (k, v) ∈ (h.obj a).own ++ (h.obj a).hidden → isSensitiveKey (some k) = true →
      v ≠ .str REDACTED → Exposes h (.leaf (.ref a))
  | refBelow (a : Nat) (k : String) (v : Val) :
      (k, v) ∈ (h.obj a).own ++ (h.obj a).hidden → Exposes h (.leaf v) →
      Exposes h (.leaf (.ref a))
  | refItem (a : Nat) (v : Val) :
      v ∈ h.elems a → Exposes h (.leaf v) → Exposes h (.leaf (.ref a))

/-- A constructed value that is redacted throughout: no leaf is a reference into
the heap, and every field with a sensitive key holds the redaction marker. -/
inductive Sanitized : Tree → Prop where
  | leaf (v : Val) : isObject v = false → Sanitized (.leaf v)
  | arr (items : List Tree) (props : List (String × Tree)) :
      (∀ t, t ∈ items → Sanitized t) →
      (∀ k t, (k, t) ∈ props → isSensitiveKey (some k) = true → t = redactedTree) →
      (∀ k t, (k, t) ∈ props → Sanitized t) →
      Sanitized (.arr items props)
  | obj (props : List (String × Tree)) :
      (∀ k t, (k, t) ∈ props → isSensitiveKey (some k) = true → t = redactedTree) →
      (∀ k t, (k, t) ∈ props → Sanitized t) →
      Sanitized (.obj props)

/-- In the words of the specification, an array element is dropped when its
sanitized form is undefined, null, or an empty or whitespace-only string. -/
def specDropped : Option Tree → Bool
  | none => true
  | some (.leaf .undefined) => true
  | some (.leaf .null) => true
  | some (.leaf (.str s)) => s.data.all isJSWhitespace
  | some _ => false

/-- The sanitized array, in the words of the specification: the sanitized forms
in their order without the dropped ones, and `undefined` when none remains. -/
def specArray (forms : List (Option Tree)) : Option Tree :=
  match forms.filterMap fun form => if specDropped form then none else form with
  | [] => none
  | kept => some (.arr kept [])

/-- The sanitized forms of the elements of an array, in order: each element is
sanitized under the array's key with the visited set its predecessor left. -/
inductive SanitizedForms (rec : Sanitizer) (key : Option String) :
    List Val → Seen → List (Option Tree) → Seen → Prop where
  | nil (seen : Seen) : SanitizedForms rec key [] seen [] seen
  | cons (item : Val) (rest : List Val) (seen seen1 seen2 : Seen) (form : Option Tree)
      (forms : List (Option Tree)) :
      rec item key seen = some (form, seen1) →
      SanitizedForms rec key rest seen1 forms seen2 →
      SanitizedForms rec key (item :: rest) seen (form :: forms) seen2

/-- The lines of a string: its parts between line feeds. -/
def stackLines (stack : String) : List String := (splitLines stack.data).map String.mk

/-- The number of lines of a string. -/
def lineCount (s : String) : Nat := (splitLines s.data).length

/-- A line that is not blank: some character of it is not white space. -/
def nonBlank (line : String) : Bool := !line.data.all isJSWhitespace

/-- The kept lines of a stack, in the words of the specification: the first five
(at most) of the lines that are not blank, each trimmed, in their order. -/
def specStackLines (stack : String) : List String :=
  (((stackLines stack).filter nonBlank).take 5).map jsTrim

/-- The truncated stack, in the words of the specification: the kept lines
joined by line feeds. -/
def specTruncateStack (stack : String) : String := joinLines (specStackLines stack)

/-- Neither the first nor the last character of the string is white space. -/
def noOuterWhitespace (s : String) : Bool :=
  (match s.data.head? with
   | some c => !isJSWhitespace c
   | none => true) &&
  (match s.data.getLast? with
   | some c => !isJSWhitespace c
   | none => true)

/-- The value `lines` of `truncateStack`: the lines of the text, each trimmed,
without the empty ones. -/
def trimmedLines (text : String) : List String :=
  ((splitLines text.data).map fun line => jsTrim ⟨line⟩).filter fun line => line ≠ ""

/-- ASCII lower-casing of a character, as a character code. -/
def asciiLower (c : Char) : Nat :=
  let n := c.toNat
  if 65 ≤ n ∧ n ≤ 90 then n + 32 else n

/-- The text contains the word somewhere, compared ASCII-case-insensitively. -/
def containsIgnoreCase (text word : String) : Bool :=
  text.data.tails.any fun t => (word.data.map asciiLower).isPrefixOf (t.map asciiLower)

/-- The six substrings that make a key sensitive. -/
def specSensitiveWords : List String := ["pass", "secret", "token", "key", "credential", "auth"]

/-- The six-substring test: the key contains one of the six words. -/
def specSensitive (key : String) : Bool := specSensitiveWords.any (containsIgnoreCase key)

/-- The value contains, at no depth, an empty mapping, an empty sequence, or a
null or undefined field or element. -/
inductive Dense : Tree → Prop where
  | leaf (v : Val) : isNullish v = false → Dense (.leaf v)
  | arr (items : List Tree) (props : List (String × Tree)) :
      items ≠ [] → (∀ t, t ∈ items → Dense t) → (∀ k t, (k, t) ∈ props → Dense t) →
      Dense (.arr items props)
  | obj (props : List (String × Tree)) :
      props ≠ [] → (∀ k t, (k, t) ∈ props → Dense t) → Dense (.obj props)

/-- The normal form that the sanitizer produces: leaves are values that it
returns as they are (no object, not null or undefined, no string above the
length limit); an array has no named properties, is not empty and holds normal
items that its filter keeps; a record is not empty, has distinct keys, holds the
redaction marker under every sensitive key and normal values throughout. -/
inductive Normal : Tree → Prop where
  | leaf (v : Val) :
      isObject v = false → isNullish v = false → isTooLongString v = false →
      Normal (.leaf v)
  | arr (items : List Tree) :
      items ≠ [] → (∀ t, t ∈ items → Normal t) →
      (∀ t, t ∈ items → keepItem (some t) = true) → Normal (.arr items [])
  | obj (props : List (String × Tree)) :
      props ≠ [] → (props.map Prod.fst).Nodup →
      (∀ k t, (k, t) ∈ props → isSensitiveKey (some k) = true → t = redactedTree) →
      (∀ k t, (k, t) ∈ props → Normal t) → Normal (.obj props)

/-- Reading the fields of a record back, with the addresses used. -/
def readEntries (rec : Val → Option (Tree × List Nat)) :
    List (String × Val) → Option (List (String × Tree) × List Nat)
  | [] => some ([], [])
  | (k, v) :: rest =>
    match rec v with
    | none => none
    | some (t, as) =>
      match readEntries rec rest with
      | none => none
      | some (props, bs) => some ((k, t) :: props, as ++ bs)

/-- Reading the elements of an array back, with the addresses used. -/
def readItems (rec : Val → Option (Tree × List Nat)) :
    List Val → Option (List Tree × List Nat)
  | [] => some ([], [])
  | v :: rest =>
    match rec v with
    | none => none
    | some (t, as) =>
      match readItems rec rest with
      | none => none
      | some (items, bs) => some (t :: items, as ++ bs)

/-- Reading a heap value back as a constructed value: the tree that the value
unfolds to (a plain record to `obj`, an array to `arr`, anything that is not an
object to a leaf) and the addresses of the objects met on the way, one entry per
visit.  The value is a tree-shaped copy, without shared or cyclic composites,
when that list has no repetition.  The first argument bounds the depth. -/
def readBack : Nat → Heap → Val → Option (Tree × List Nat)
  | 0, _, _ => none
  | fuel + 1, h, v =>
    match v with
    | .ref a =>
      match (h.obj a).cls with
      | .plain =>
        match readEntries (readBack fuel h) (h.obj a).own with
        | none => none
        | some (props, as) => some (.obj props, a :: as)
      | .array elems =>
        match readItems (readBack fuel h) elems with
        | none => none
        | some (items, as) =>
          match readEntries (readBack fuel h) (h.obj a).own with
          | none => none
          | some (props, bs) => some (.arr items props, a :: (as ++ bs))
      | .error => none
    | _ => some (.leaf v, [])

/-- The composite `d` is a child of the composite `c` that the traversal of `c`
goes into: an element of the array `c`, or the value of a field of the record `c`
whose key is not sensitive. -/
def Child (h : Heap) (c d : Nat) : Prop :=
  Val.ref d ∈ h.elems c ∨
  (isArray h (.ref c) = false ∧
    ∃ k, (k, Val.ref d) ∈ (h.obj c).own ∧ isSensitiveKey (some k) = false)

/-- The composite `a` is reached from the composite `c` going from child to child
through composites that are not in the set `visited` (`c` and `a` included). -/
inductive Reaches (h : Heap) (visited : Seen) : Nat → Nat → Prop where
  | here (c : Nat) : c ∉ visited → Reaches h visited c c
  | step (c d a : Nat) :
      c ∉ visited → Child h c d → Reaches h visited d a → Reaches h visited c a

/-- The composites entered while `sanitizeObject` walks the entries, in the order
of entry; `ent` tells what one call enters, `rec` what it leaves as visited set. -/
def enteredEntries (rec : Sanitizer) (ent : Val → Option String → Seen → List Nat) :
    List (String × Val) → Seen → List Nat
  | [], _ => []
  | (key, value) :: rest, seen =>
    ent value (some key) seen ++
      match rec value (some key) seen with
      | some (_, seen') => enteredEntries rec ent rest seen'
      | none => []

/-- The composites entered while `sanitizeArray` maps the items, in the order of entry. -/
def enteredItems (rec : Sanitizer) (ent : Val → Option String → Seen → List Nat)
    (key : Option String) : List Val → Seen → List Nat
  | [], _ => []
  | item :: rest, seen =>
    ent item key seen ++
      match rec item key seen with
      | some (_, seen') => enteredItems rec ent key rest seen'
      | none => []

/-- The composites that a call of `sanitizeValue` enters, one entry for each time
the body of `sanitizeObject` or `sanitizeArray` gets past its visited test and
runs `seen.add`, in the order of entry. -/
def enteredBy : Nat → Heap → Val → Option String → Seen → List Nat
  | 0, _, _, _, _ => []
  | fuel + 1, h, value, key, seen =>
    if isSensitiveKey key then []
    else
      match value with
      | .ref a =>
        if seen.contains a then []
        else if isArray h value then
          a :: enteredItems (sanitizeValue fuel h) (enteredBy fuel h) key (h.elems a) (a :: seen)
        else
          a :: enteredEntries (sanitizeValue fuel h) (enteredBy fuel h) (h.obj a).own (a :: seen)
      | _ => []

/-! ## Concrete inputs used to exercise the theorems -/

/-- A string of `n` letters. -/
def lettersString (n : Nat) : String := ⟨List.replicate n 'a'⟩

/-- A plain record with the given own enumerable properties. -/
def record (own : List (String × Val)) : Obj :=
  { cls := .plain, own := own, hidden := [], proto := [] }

/-- An array with the given elements. -/
def arrayOf (elems : List Val) : Obj :=
  { cls := .array elems, own := [], hidden := [], proto := [] }

/-- An `Error` instance: `message` and `stack` are own and non-enumerable, `name` is inherited. -/
def errorObj (message stack : Val) : Obj :=
  { cls := .error, own := [], hidden := [("message", message), ("stack", stack)],
    proto := [("name", .str "Error")] }

/-- No options, nothing configured, no environment variable. -/
def plainEnv : Env :=
  { optionsSource := .undefined, configuredSource := .null, envAlertSource := .undefined,
    objectToString := fun _ => "[object Object]" }

/-- The heap of `o.self = o`: a record whose field refers to the record itself. -/
def selfHeap : Heap := [record [("self", .ref 0)]]

/-- The heap of `{a: x, b: x}` with `x = {n: 1}`: two sibling fields share one record. -/
def sharedHeap : Heap := [record [("a", .ref 1), ("b", .ref 1)], record [("n", .num (.int 1))]]

/-- The heap of `{source: "svc", data: {foo: "bar"}}`. -/
def prebuiltHeap : Heap :=
  [record [("source", .str "svc"), ("data", .ref 1)], record [("foo", .str "bar")]]

/-- An `Error` instance whose `message` was set to the number 42, and one whose
`message` is a record. -/
def oddErrorHeap : Heap :=
  [errorObj (.num (.int 42)) (.str "Error\n    at f"),
   errorObj (.ref 2) (.str "Error\n    at g"),
   record [("token", .str "abc")]]

/-- The heap of `{source: "svc", data: {password: "hunter2"}}`. -/
def secretDataHeap : Heap :=
  [record [("source", .str "svc"), ("data", .ref 1)], record [("password", .str "hunter2")]]

/-- The heap of `{source: "svc", password: "hunter2"}`: alert-shaped, no `data`. -/
def secretAlertHeap : Heap := [record [("source", .str "svc"), ("password", .str "hunter2")]]

/-- The heap of the array `['', null, undefined, 'ok']`. -/
def blanksHeap : Heap := [arrayOf [.str "", .null, .undefined, .str "ok"]]

/-- The heap of the payload `{process: 'p', error: 'oops'}`. -/
def oopsHeap : Heap := [record [("process", .str "p"), ("error", .str "oops")]]

/-- Payloads whose `error` carries no usable text: `{process: 'p', error: ''}`,
`{process: 'p', error: {message: ''}}` and `{process: 'p', error: new Error('  ')}`. -/
def blankErrorHeap : Heap :=
  [record [("process", .str "p"), ("error", .str "")],
   record [("process", .str "p"), ("error", .ref 2)],
   record [("message", .str "")],
   record [("process", .str "p"), ("error", .ref 4)],
   errorObj (.str "  ") (.str "Error:   \n    at f")]

/-- The heap of `new Error('boom')` with a stack of seven lines, one of them blank. -/
def boomHeap : Heap :=
  [errorObj (.str "boom")
    (.str "Error: boom\n    at a (a.js:1:1)\n\n    at b\n    at c\n    at d\n    at e")]

/-- The heap of `{a: null, b: [''], c: {}, d: {x: 1}}`, at address 0, and of `{a:
null}` and `{a: {}}` at the addresses 4 and 5. -/
def sparseHeap : Heap :=
  [record [("a", .null), ("b", .ref 1), ("c", .ref 2), ("d", .ref 3)],
   arrayOf [.str ""],
   record [],
   record [("x", .num (.int 1))],
   record [("a", .null)],
   record [("a", .ref 2)]]

/-- The result of sanitizing `{a: x, b: x}` as a heap of its own:
`{a: {n: 1}, b: '[Circular]'}`. -/
def sharedResultHeap : Heap :=
  [record [("a", .ref 1), ("b", .str "[Circular]")], record [("n", .num (.int 1))]]

/-- A chain of `n + 1` records, each the only field of the one before:
`{next: {next: ... {value: 1}}}`, without any cycle. -/
def chainHeap (n : Nat) : Heap :=
  (List.range n).map (fun i => record [("next", .ref (i + 1))]) ++
    [record [("value", .num (.int 1))]]

/-- The heap of `{a: {inner: [x]}, b: x}` with `x = {n: 1}`: the second field
refers to a record that the first field reaches two levels down. -/
def deepSharedHeap : Heap :=
  [record [("a", .ref 1), ("b", .ref 3)], record [("inner", .ref 2)], arrayOf [.ref 3],
   record [("n", .num (.int 1))]]

/-! # Theorems -/

/-! ## Redaction by key and by length -/

theorem sanitizeValue_of_sensitive (fuel : Nat) (h : Heap) (value : Val) (key : Option String)
    (seen : Seen) (hk : isSensitiveKey key = true) :
    sanitizeValue (fuel + 1) h value key seen = some (some redactedTree, seen) := by
  simp [sanitizeValue, hk]

/-- C1: under a key that matches the sensitive-key pattern, `sanitizeValue` returns
exactly the marker `[REDACTED]` for every value and every visited set (so the key
check comes before the circular, null and length checks), and in `sanitizeObject`
such a field is stored as the marker. -/
theorem sanitizeValue_sensitive_key_redacted (fuel : Nat) (h : Heap) (value : Val)
    (key : String) (seen : Seen) (hk : isSensitiveKey (some key) = true) :
    sanitizeValue (fuel + 1) h value (some key) seen
        = some (some (.leaf (.str "[REDACTED]")), seen) ∧
    ∀ (rest : List (String × Val)) (sanitizedObject : List (String × Tree)),
      forEachEntry (sanitizeValue (fuel + 1) h) ((key, value) :: rest) sanitizedObject seen =
        forEachEntry (sanitizeValue (fuel + 1) h) rest
          (setProp key (.leaf (.str "[REDACTED]")) sanitizedObject) seen := by
  have h1 := sanitizeValue_of_sensitive fuel h value (some key) seen hk
  refine ⟨h1, fun rest acc => ?_⟩
  simp only [forEachEntry, h1]
  rfl

/-- Witness for C1: a composite that is already in the visited set, under the key
`password`, is redacted and not reported as circular. -/
theorem sanitizeValue_sensitive_key_redacted_witness :
    isSensitiveKey (some "password") = true ∧
    sanitizeValue 1 [record [("self", .ref 0)]] (.ref 0) (some "password") [0]
      = some (some (.leaf (.str "[REDACTED]")), [0]) :=
  ⟨by decide,
   (sanitizeValue_sensitive_key_redacted 0 [record [("self", .ref 0)]] (.ref 0) "password" [0]
      (by decide)).1⟩

/-- C4: a string of more than 200 UTF-16 code units is replaced by the marker
`[REDACTED]` whatever the key and the visited set; a string of exactly 200 under a
key that is not sensitive is returned as it is, and is not the marker. -/
theorem sanitizeValue_long_string_redacted (fuel : Nat) (h : Heap) (s : String)
    (key : Option String) (seen : Seen) :
    (jsLength s > 200 →
      sanitizeValue (fuel + 1) h (.str s) key seen
        = some (some (.leaf (.str "[REDACTED]")), seen)) ∧
    (jsLength s = 200 → isSensitiveKey key = false →
      sanitizeValue (fuel + 1) h (.str s) key seen = some (some (.leaf (.str s)), seen) ∧
      s ≠ "[REDACTED]") := by
  constructor
  · intro hlen
    by_cases hk : isSensitiveKey key = true
    · exact sanitizeValue_of_sensitive fuel h _ key seen hk
    · simp [sanitizeValue, hk, isObject, isNullish, isTooLongString, MAX_SANITIZED_LENGTH, hlen,
        redactedTree, REDACTED]
  · intro hlen hk
    constructor
    · simp [sanitizeValue, hk, isObject, isNullish, isTooLongString, MAX_SANITIZED_LENGTH, hlen,
        isPrimitive]
    · intro hs
      rw [hs] at hlen
      revert hlen
      decide

set_option maxRecDepth 100000 in
/-- Witness for C4: 201 letters are redacted under the key `note` and without a
key; 200 letters under the key `note` are kept. -/
theorem sanitizeValue_long_string_redacted_witness :
    (jsLength (lettersString 201) > 200 ∧
      sanitizeValue 1 [] (.str (lettersString 201)) (some "note") []
        = some (some (.leaf (.str "[REDACTED]")), [])) ∧
    (jsLength (lettersString 200) = 200 ∧ isSensitiveKey (some "note") = false ∧
      sanitizeValue 1 [] (.str (lettersString 200)) (some "note") []
        = some (some (.leaf (.str (lettersString 200))), [])) :=
  ⟨⟨by decide,
    (sanitizeValue_long_string_redacted 0 [] (lettersString 201) (some "note") []).1
      (by decide)⟩,
   ⟨by decide, by decide,
    ((sanitizeValue_long_string_redacted 0 [] (lettersString 200) (some "note") []).2
      (by decide) (by decide)).1⟩⟩

/-! ## Property lists -/

theorem lookup_setProp_self {α : Type} (k : String) (v : α) (l : List (String × α)) :
    lookup k (setProp k v l) = some v := by
  induction l with
  | nil => simp [setProp, lookup]
  | cons p rest ih =>
    obtain ⟨k', v'⟩ := p
    by_cases hk : k' = k
    · simp [setProp, lookup, hk]
    · simp [setProp, lookup, hk, ih]

theorem lookup_setProp_ne {α : Type} (k k' : String) (v : α) (l : List (String × α))
    (hne : k' ≠ k) : lookup k (setProp k' v l) = lookup k l := by
  induction l with
  | nil => simp [setProp, lookup, hne]
  | cons p rest ih =>
    obtain ⟨k'', v''⟩ := p
    by_cases hk : k'' = k'
    · subst hk
      simp [setProp, lookup, hne]
    · by_cases hk2 : k'' = k
      · subst hk2
        simp [setProp, lookup, hk]
      · simp [setProp, lookup, hk, hk2, ih]

/-! ## Unfolding one call -/

theorem sanitizeValue_ref_seen (fuel : Nat) (h : Heap) (a : Nat) (key : Option String)
    (seen : Seen) (hk : isSensitiveKey key = false) (hs : a ∈ seen) :
    sanitizeValue (fuel + 1) h (.ref a) key seen = some (some circularTree, seen) := by
  simp [sanitizeValue, hk, isObject, seenHas, hs]

theorem sanitizeValue_ref_fresh (fuel : Nat) (h : Heap) (a : Nat) (key : Option String)
    (seen : Seen) (hk : isSensitiveKey key = false) (hs : a ∉ seen) :
    sanitizeValue (fuel + 1) h (.ref a) key seen =
      if isArray h (.ref a) then sanitizeArray (sanitizeValue fuel h) h a key seen
      else sanitizeObject (sanitizeValue fuel h) h a seen := by
  simp [sanitizeValue, hk, isObject, seenHas, hs, isNullish, isTooLongString, isPrimitive]

theorem sanitizeValue_succ (fuel : Nat) (h : Heap) (value : Val) (key : Option String)
    (seen : Seen) :
    (∃ r, sanitizeValue (fuel + 1) h value key seen = some (r, seen) ∧
      (∀ a, value = .ref a → isSensitiveKey key = false → a ∈ seen)) ∨
    (∃ a, value = .ref a ∧ isSensitiveKey key = false ∧ a ∉ seen ∧
      sanitizeValue (fuel + 1) h value key seen =
        if isArray h value then sanitizeArray (sanitizeValue fuel h) h a key seen
        else sanitizeObject (sanitizeValue fuel h) h a seen) := by
  by_cases hk : isSensitiveKey key = true
  · exact Or.inl ⟨_, sanitizeValue_of_sensitive fuel h value key seen hk, by simp [hk]⟩
  · have hk' : isSensitiveKey key = false := by simpa using hk
    cases value with
    | ref a =>
      by_cases hs : a ∈ seen
      · exact Or.inl ⟨some circularTree, sanitizeValue_ref_seen fuel h a key seen hk' hs,
          fun b hb _ => by cases hb; exact hs⟩
      · exact Or.inr ⟨a, rfl, hk', hs, sanitizeValue_ref_fresh fuel h a key seen hk' hs⟩
    | undefined => exact Or.inl ⟨none, by simp [sanitizeValue, hk, isObject, isNullish], by simp⟩
    | null => exact Or.inl ⟨none, by simp [sanitizeValue, hk, isObject, isNullish], by simp⟩
    | bool b =>
      exact Or.inl ⟨some (.leaf (.bool b)), by simp [sanitizeValue, hk, isObject, isNullish,
        isTooLongString, isPrimitive], by simp⟩
    | num n =>
      exact Or.inl ⟨some (.leaf (.num n)), by simp [sanitizeValue, hk, isObject, isNullish,
        isTooLongString, isPrimitive], by simp⟩
    | symbol d =>
      exact Or.inl ⟨some (.leaf (.symbol d)), by simp [sanitizeValue, hk, isObject, isNullish,
        isTooLongString, isPrimitive], by simp⟩
    | str s =>
      by_cases hl : isTooLongString (.str s) = true
      · exact Or.inl ⟨some redactedTree, by simp [sanitizeValue, hk, isObject, isNullish, hl],
          by simp⟩
      · exact Or.inl ⟨some (.leaf (.str s)), by simp [sanitizeValue, hk, isObject, isNullish,
          hl, isPrimitive], by simp⟩

/-! ## The visited set along a traversal -/

theorem forEachEntry_rel {R : Seen → Seen → Prop} (hR : SeenRel R) (rec : Sanitizer)
    (hrec : ∀ v k s r s', rec v k s = some (r, s') → R s s') :
    ∀ es acc s props s', forEachEntry rec es acc s = some (props, s') → R s s' := by
  intro es
  induction es with
  | nil =>
    intro acc s props s' hres
    simp only [forEachEntry, Option.some.injEq, Prod.mk.injEq] at hres
    rw [← hres.2]
    exact hR.refl s
  | cons e rest ih =>
    obtain ⟨key, value⟩ := e
    intro acc s props s' hres
    cases hrv : rec value (some key) s with
    | none => simp [forEachEntry, hrv] at hres
    | some p =>
      obtain ⟨r, s1⟩ := p
      have h1 := hrec _ _ _ _ _ hrv
      cases r with
      | none =>
        simp only [forEachEntry, hrv] at hres
        exact hR.trans _ _ _ h1 (ih _ _ _ _ hres)
      | some t =>
        simp only [forEachEntry, hrv] at hres
        exact hR.trans _ _ _ h1 (ih _ _ _ _ hres)

theorem mapItems_rel {R : Seen → Seen → Prop} (hR : SeenRel R) (rec : Sanitizer)
    (key : Option String) (hrec : ∀ v k s r s', rec v k s = some (r, s') → R s s') :
    ∀ items s mapped s', mapItems rec key items s = some (mapped, s') → R s s' := by
  intro items
  induction items with
  | nil =>
    intro s mapped s' hres
    simp only [mapItems, Option.some.injEq, Prod.mk.injEq] at hres
    rw [← hres.2]
    exact hR.refl s
  | cons item rest ih =>
    intro s mapped s' hres
    cases hrv : rec item key s with
    | none => simp [mapItems, hrv] at hres
    | some p =>
      obtain ⟨r, s1⟩ := p
      have h1 := hrec _ _ _ _ _ hrv
      cases hrest : mapItems rec key rest s1 with
      | none => simp [mapItems, hrv, hrest] at hres
      | some q =>
        obtain ⟨rs, s2⟩ := q
        simp only [mapItems, hrv, hrest, Option.some.injEq, Prod.mk.injEq] at hres
        rw [← hres.2]
        exact hR.trans _ _ _ h1 (ih _ _ _ hrest)

theorem sanitizeObject_seen (rec : Sanitizer) (h : Heap) (a : Nat) (s : Seen) (hs : a ∈ s) :
    sanitizeObject rec h a s = some (some circularTree, s) := by
  simp [sanitizeObject, hs]

theorem sanitizeObject_fresh (rec : Sanitizer) (h : Heap) (a : Nat) (s : Seen) (hs : a ∉ s) :
    sanitizeObject rec h a s =
      match forEachEntry rec (h.obj a).own [] (a :: s) with
      | none => none
      | some (sanitizedObject, seen') =>
        some (if sanitizedObject.length ≠ 0 then some (.obj sanitizedObject) else none, seen') := by
  simp [sanitizeObject, hs]

theorem sanitizeArray_seen (rec : Sanitizer) (h : Heap) (a : Nat) (key : Option String)
    (s : Seen) (hs : a ∈ s) :
    sanitizeArray rec h a key s = some (some circularTree, s) := by
  simp [sanitizeArray, hs]

theorem sanitizeArray_fresh (rec : Sanitizer) (h : Heap) (a : Nat) (key : Option String)
    (s : Seen) (hs : a ∉ s) :
    sanitizeArray rec h a key s =
      match mapItems rec key (h.elems a) (a :: s) with
      | none => none
      | some (mapped, seen') =>
        some (if (filterItems mapped).length ≠ 0 then some (.arr (filterItems mapped) [])
              else none, seen') := by
  simp [sanitizeArray, hs]

theorem sanitizeObject_rel {R : Seen → Seen → Prop} (hR : SeenRel R) (rec : Sanitizer)
    (hrec : ∀ v k s r s', rec v k s = some (r, s') → R s s') (h : Heap) (a : Nat) (s : Seen)
    (r : Option Tree) (s' : Seen) (hres : sanitizeObject rec h a s = some (r, s')) : R s s' := by
  by_cases hs : a ∈ s
  · rw [sanitizeObject_seen rec h a s hs] at hres
    simp only [Option.some.injEq, Prod.mk.injEq] at hres
    rw [← hres.2]
    exact hR.refl s
  · rw [sanitizeObject_fresh rec h a s hs] at hres
    cases hf : forEachEntry rec (h.obj a).own [] (a :: s) with
    | none => simp [hf] at hres
    | some p =>
      obtain ⟨props, s1⟩ := p
      simp only [hf, Option.some.injEq, Prod.mk.injEq] at hres
      rw [← hres.2]
      exact hR.trans _ _ _ (hR.enter a s hs) (forEachEntry_rel hR rec hrec _ _ _ _ _ hf)

theorem sanitizeArray_rel {R : Seen → Seen → Prop} (hR : SeenRel R) (rec : Sanitizer)
    (hrec : ∀ v k s r s', rec v k s = some (r, s') → R s s') (h : Heap) (a : Nat)
    (key : Option String) (s : Seen)
    (r : Option Tree) (s' : Seen) (hres : sanitizeArray rec h a key s = some (r, s')) :
    R s s' := by
  by_cases hs : a ∈ s
  · rw [sanitizeArray_seen rec h a key s hs] at hres
    simp only [Option.some.injEq, Prod.mk.injEq] at hres
    rw [← hres.2]
    exact hR.refl s
  · rw [sanitizeArray_fresh rec h a key s hs] at hres
    cases hf : mapItems rec key (h.elems a) (a :: s) with
    | none => simp [hf] at hres
    | some p =>
      obtain ⟨mapped, s1⟩ := p
      simp only [hf, Option.some.injEq, Prod.mk.injEq] at hres
      rw [← hres.2]
      exact hR.trans _ _ _ (hR.enter a s hs) (mapItems_rel hR rec key hrec _ _ _ _ hf)

theorem sanitizeValue_rel {R : Seen → Seen → Prop} (hR : SeenRel R) (h : Heap) :
    ∀ fuel v k s r s', sanitizeValue fuel h v k s = some (r, s') → R s s' := by
  intro fuel
  induction fuel with
  | zero => intro v k s r s' hres; simp [sanitizeValue] at hres
  | succ fuel ih =>
    intro v k s r s' hres
    rcases sanitizeValue_succ fuel h v k s with ⟨r0, h0, _⟩ | ⟨a, _, _, _, h1⟩
    · rw [h0] at hres
      simp only [Option.some.injEq, Prod.mk.injEq] at hres
      rw [← hres.2]
      exact hR.refl s
    · rw [h1] at hres
      split at hres
      · exact sanitizeArray_rel hR _ ih h a k s r s' hres
      · exact sanitizeObject_rel hR _ ih h a s r s' hres

theorem seenRel_subset : SeenRel fun s s' => s ⊆ s' :=
  ⟨fun _ => List.Subset.refl _, fun _ _ _ h1 h2 => List.Subset.trans h1 h2,
   fun a s _ => List.subset_cons_self a s⟩

theorem seenRel_nodup : SeenRel fun s s' => s.Nodup → s'.Nodup :=
  ⟨fun _ hs => hs, fun _ _ _ h1 h2 hs => h2 (h1 hs),
   fun _ _ ha hs => List.nodup_cons.mpr ⟨ha, hs⟩⟩

/-! ## Termination: enough fuel for every heap -/

theorem sanitizeValue_subset (h : Heap) (fuel : Nat) (v : Val) (k : Option String) (s : Seen)
    (r : Option Tree) (s' : Seen) (hres : sanitizeValue fuel h v k s = some (r, s')) : s ⊆ s' :=
  sanitizeValue_rel seenRel_subset h fuel v k s r s' hres

theorem unvisited_mono (h : Heap) {s s' : Seen} (hss : s ⊆ s') :
    unvisited h s' ≤ unvisited h s := by
  unfold unvisited
  apply List.countP_mono_left
  intro x _ hx
  simp only [Bool.not_eq_true', List.contains_eq_any_beq, List.any_eq_false, beq_iff_eq] at hx ⊢
  intro y hy
  exact hx y (hss hy)

theorem countP_lt_of_mem {l : List Nat} {p q : Nat → Bool} (hpq : ∀ x, p x = true → q x = true)
    {a : Nat} (ha : a ∈ l) (hq : q a = true) (hp : p a = false) :
    l.countP p < l.countP q := by
  induction l with
  | nil => simp at ha
  | cons x rest ih =>
    have hle : rest.countP p ≤ rest.countP q := List.countP_mono_left fun y _ hy => hpq y hy
    rcases List.mem_cons.mp ha with hax | har
    · subst hax
      rw [List.countP_cons_of_pos _ _ hq, List.countP_cons_of_neg _ _ (by simp [hp])]
      omega
    · have := ih har
      by_cases hpx : p x = true
      · rw [List.countP_cons_of_pos _ _ hpx, List.countP_cons_of_pos _ _ (hpq x hpx)]
        omega
      · rw [List.countP_cons_of_neg _ _ hpx]
        by_cases hqx : q x = true
        · rw [List.countP_cons_of_pos _ _ hqx]
          omega
        · rw [List.countP_cons_of_neg _ _ hqx]
          exact this

theorem unvisited_enter (h : Heap) {a : Nat} {s : Seen} (ha : a < h.length) (hs : a ∉ s) :
    unvisited h (a :: s) < unvisited h s := by
  unfold unvisited
  apply countP_lt_of_mem (a := a)
  · intro x hx
    simp only [Bool.not_eq_true', List.contains_eq_any_beq, List.any_eq_false, beq_iff_eq,
      List.mem_cons] at hx ⊢
    intro y hy
    exact hx y (Or.inr hy)
  · exact List.mem_range.mpr ha
  · simpa using hs
  · simp

theorem obj_of_dangling (h : Heap) (a : Nat) (ha : h.length ≤ a) : h.obj a = emptyObj := by
  unfold Heap.obj
  exact List.getD_eq_default _ _ ha

theorem forEachEntry_isSome (rec : Sanitizer) (S : Seen)
    (hgrow : ∀ v k s r s', rec v k s = some (r, s') → s ⊆ s')
    (hsome : ∀ v k s, S ⊆ s → (rec v k s).isSome = true) :
    ∀ es acc s, S ⊆ s → (forEachEntry rec es acc s).isSome = true := by
  intro es
  induction es with
  | nil => intro acc s _; simp [forEachEntry]
  | cons e rest ih =>
    obtain ⟨key, value⟩ := e
    intro acc s hs
    cases hrv : rec value (some key) s with
    | none =>
      have := hsome value (some key) s hs
      simp [hrv] at this
    | some p =>
      obtain ⟨r, s1⟩ := p
      have h1 : S ⊆ s1 := List.Subset.trans hs (hgrow _ _ _ _ _ hrv)
      cases r with
      | none =>
        simp only [forEachEntry, hrv]
        exact ih _ _ h1
      | some t =>
        simp only [forEachEntry, hrv]
        exact ih _ _ h1

theorem mapItems_isSome (rec : Sanitizer) (key : Option String) (S : Seen)
    (hgrow : ∀ v k s r s', rec v k s = some (r, s') → s ⊆ s')
    (hsome : ∀ v k s, S ⊆ s → (rec v k s).isSome = true) :
    ∀ items s, S ⊆ s → (mapItems rec key items s).isSome = true := by
  intro items
  induction items with
  | nil => intro s _; simp [mapItems]
  | cons item rest ih =>
    intro s hs
    cases hrv : rec item key s with
    | none =>
      have := hsome item key s hs
      simp [hrv] at this
    | some p =>
      obtain ⟨r, s1⟩ := p
      have h1 : S ⊆ s1 := List.Subset.trans hs (hgrow _ _ _ _ _ hrv)
      have h2 := ih s1 h1
      cases hrest : mapItems rec key rest s1 with
      | none => simp [hrest] at h2
      | some q =>
        obtain ⟨rs, s2⟩ := q
        simp [mapItems, hrv, hrest]

theorem sanitizeValue_isSome (h : Heap) :
    ∀ fuel v k s, unvisited h s < fuel → (sanitizeValue fuel h v k s).isSome = true := by
  intro fuel
  induction fuel with
  | zero => intro v k s hlt; omega
  | succ fuel ih =>
    intro v k s hlt
    rcases sanitizeValue_succ fuel h v k s with ⟨r0, h0, _⟩ | ⟨a, _, _, hs, h1⟩
    · simp [h0]
    · rw [h1]
      have hgrow := sanitizeValue_subset h fuel
      by_cases ha : a < h.length
      · have hsome : ∀ v k s1, a :: s ⊆ s1 → (sanitizeValue fuel h v k s1).isSome = true := by
          intro v k s1 hs1
          apply ih
          have := unvisited_mono h hs1
          have := unvisited_enter h ha hs
          omega
        split
        · rw [sanitizeArray_fresh _ h a k s hs]
          have := mapItems_isSome _ k (a :: s) hgrow hsome (h.elems a) (a :: s)
            (List.Subset.refl _)
          cases hm : mapItems (sanitizeValue fuel h) k (h.elems a) (a :: s) with
          | none => simp [hm] at this
          | some q => simp
        · rw [sanitizeObject_fresh _ h a s hs]
          have := forEachEntry_isSome _ (a :: s) hgrow hsome (h.obj a).own [] (a :: s)
            (List.Subset.refl _)
          cases hm : forEachEntry (sanitizeValue fuel h) (h.obj a).own [] (a :: s) with
          | none => simp [hm] at this
          | some q => simp
      · have hobj := obj_of_dangling h a (by omega)
        split
        · rw [sanitizeArray_fresh _ h a k s hs]
          simp [Heap.elems, hobj, emptyObj, mapItems]
        · rw [sanitizeObject_fresh _ h a s hs]
          simp [hobj, emptyObj, forEachEntry]

theorem unvisited_le (h : Heap) (s : Seen) : unvisited h s ≤ h.length := by
  unfold unvisited
  calc (List.range h.length).countP _ ≤ (List.range h.length).length := List.countP_le_length _
    _ = h.length := List.length_range _

/-! ## More fuel does not change a result -/

theorem forEachEntry_extend (rec rec' : Sanitizer)
    (hext : ∀ v k s p, rec v k s = some p → rec' v k s = some p) :
    ∀ es acc s p, forEachEntry rec es acc s = some p → forEachEntry rec' es acc s = some p := by
  intro es
  induction es with
  | nil => intro acc s p hres; simpa [forEachEntry] using hres
  | cons e rest ih =>
    obtain ⟨key, value⟩ := e
    intro acc s p hres
    cases hrv : rec value (some key) s with
    | none => simp [forEachEntry, hrv] at hres
    | some q =>
      obtain ⟨r, s1⟩ := q
      have h1 := hext _ _ _ _ hrv
      cases r with
      | none =>
        simp only [forEachEntry, hrv] at hres
        simp only [forEachEntry, h1]
        exact ih _ _ _ hres
      | some t =>
        simp only [forEachEntry, hrv] at hres
        simp only [forEachEntry, h1]
        exact ih _ _ _ hres

theorem mapItems_extend (rec rec' : Sanitizer) (key : Option String)
    (hext : ∀ v k s p, rec v k s = some p → rec' v k s = some p) :
    ∀ items s p, mapItems rec key items s = some p → mapItems rec' key items s = some p := by
  intro items
  induction items with
  | nil => intro s p hres; simpa [mapItems] using hres
  | cons item rest ih =>
    intro s p hres
    cases hrv : rec item key s with
    | none => simp [mapItems, hrv] at hres
    | some q =>
      obtain ⟨r, s1⟩ := q
      have h1 := hext _ _ _ _ hrv
      cases hrest : mapItems rec key rest s1 with
      | none => simp [mapItems, hrv, hrest] at hres
      | some q2 =>
        have h2 := ih _ _ hrest
        simp only [mapItems, hrv, hrest] at hres
        simp only [mapItems, h1, h2]
        exact hres

theorem sanitizeValue_fuel_succ (h : Heap) :
    ∀ fuel v k s p, sanitizeValue fuel h v k s = some p →
      sanitizeValue (fuel + 1) h v k s = some p := by
  intro fuel
  induction fuel with
  | zero => intro v k s p hres; simp [sanitizeValue] at hres
  | succ fuel ih =>
    intro v k s p hres
    by_cases hk : isSensitiveKey k = true
    · rw [sanitizeValue_of_sensitive fuel h v k s hk] at hres
      rw [sanitizeValue_of_sensitive (fuel + 1) h v k s hk]
      exact hres
    · have hk' : isSensitiveKey k = false := by simpa using hk
      cases v with
      | ref a =>
        by_cases hs : a ∈ s
        · rw [sanitizeValue_ref_seen fuel h a k s hk' hs] at hres
          rw [sanitizeValue_ref_seen (fuel + 1) h a k s hk' hs]
          exact hres
        · rw [sanitizeValue_ref_fresh fuel h a k s hk' hs] at hres
          rw [sanitizeValue_ref_fresh (fuel + 1) h a k s hk' hs]
          split
          · rename_i harr
            rw [if_pos harr, sanitizeArray_fresh _ h a k s hs] at hres
            rw [sanitizeArray_fresh _ h a k s hs]
            cases hm : mapItems (sanitizeValue fuel h) k (h.elems a) (a :: s) with
            | none => simp [hm] at hres
            | some q =>
              rw [mapItems_extend _ (sanitizeValue (fuel + 1) h) k ih _ _ _ hm]
              rw [hm] at hres
              exact hres
          · rename_i harr
            rw [if_neg harr, sanitizeObject_fresh _ h a s hs] at hres
            rw [sanitizeObject_fresh _ h a s hs]
            cases hm : forEachEntry (sanitizeValue fuel h) (h.obj a).own [] (a :: s) with
            | none => simp [hm] at hres
            | some q =>
              rw [forEachEntry_extend _ (sanitizeValue (fuel + 1) h) ih _ _ _ _ hm]
              rw [hm] at hres
              exact hres
      | undefined => simpa [sanitizeValue, hk, isObject, isNullish] using hres
      | null => simpa [sanitizeValue, hk, isObject, isNullish] using hres
      | bool b =>
        simpa [sanitizeValue, hk, isObject, isNullish, isTooLongString, isPrimitive] using hres
      | num n =>
        simpa [sanitizeValue, hk, isObject, isNullish, isTooLongString, isPrimitive] using hres
      | symbol d =>
        simpa [sanitizeValue, hk, isObject, isNullish, isTooLongString, isPrimitive] using hres
      | str x =>
        simpa [sanitizeValue, hk, isObject, isNullish, isPrimitive] using hres

theorem sanitizeValue_fuel_add (h : Heap) (fuel : Nat) (v : Val) (k : Option String) (s : Seen)
    (p : Option Tree × Seen) (hres : sanitizeValue fuel h v k s = some p) (extra : Nat) :
    sanitizeValue (fuel + extra) h v k s = some p := by
  induction extra with
  | zero => exact hres
  | succ n ih => exact sanitizeValue_fuel_succ h _ _ _ _ _ ih

/-! ## Each composite is entered once -/

theorem forEachEntry_entered (rec : Sanitizer) (ent : Val → Option String → Seen → List Nat)
    (hrec : ∀ v k s r s', rec v k s = some (r, s') → s' = (ent v k s).reverse ++ s) :
    ∀ es acc s props s', forEachEntry rec es acc s = some (props, s') →
      s' = (enteredEntries rec ent es s).reverse ++ s := by
  intro es
  induction es with
  | nil =>
    intro acc s props s' hres
    simp only [forEachEntry, Option.some.injEq, Prod.mk.injEq] at hres
    simp [enteredEntries, hres.2]
  | cons e rest ih =>
    obtain ⟨key, value⟩ := e
    intro acc s props s' hres
    cases hrv : rec value (some key) s with
    | none => simp [forEachEntry, hrv] at hres
    | some p =>
      obtain ⟨r, s1⟩ := p
      have h1 := hrec _ _ _ _ _ hrv
      have hrest : ∃ acc1, forEachEntry rec rest acc1 s1 = some (props, s') := by
        cases r with
        | none => exact ⟨acc, by simpa only [forEachEntry, hrv] using hres⟩
        | some t => exact ⟨setProp key t acc, by simpa only [forEachEntry, hrv] using hres⟩
      obtain ⟨acc1, hrest⟩ := hrest
      have h2 := ih _ _ _ _ hrest
      simp only [enteredEntries, hrv, List.reverse_append, List.append_assoc]
      rw [h2, h1]

theorem mapItems_entered (rec : Sanitizer) (ent : Val → Option String → Seen → List Nat)
    (key : Option String)
    (hrec : ∀ v k s r s', rec v k s = some (r, s') → s' = (ent v k s).reverse ++ s) :
    ∀ items s mapped s', mapItems rec key items s = some (mapped, s') →
      s' = (enteredItems rec ent key items s).reverse ++ s := by
  intro items
  induction items with
  | nil =>
    intro s mapped s' hres
    simp only [mapItems, Option.some.injEq, Prod.mk.injEq] at hres
    simp [enteredItems, hres.2]
  | cons item rest ih =>
    intro s mapped s' hres
    cases hrv : rec item key s with
    | none => simp [mapItems, hrv] at hres
    | some p =>
      obtain ⟨r, s1⟩ := p
      have h1 := hrec _ _ _ _ _ hrv
      cases hrest : mapItems rec key rest s1 with
      | none => simp [mapItems, hrv, hrest] at hres
      | some q =>
        obtain ⟨rs, s2⟩ := q
        simp only [mapItems, hrv, hrest, Option.some.injEq, Prod.mk.injEq] at hres
        have h2 := ih _ _ _ hrest
        simp only [enteredItems, hrv, List.reverse_append, List.append_assoc]
        rw [← hres.2, h2, h1]

theorem enteredBy_fresh (fuel : Nat) (h : Heap) (a : Nat) (key : Option String) (seen : Seen)
    (hk : isSensitiveKey key = false) (hs : a ∉ seen) :
    enteredBy (fuel + 1) h (.ref a) key seen =
      if isArray h (.ref a) then
        a :: enteredItems (sanitizeValue fuel h) (enteredBy fuel h) key (h.elems a) (a :: seen)
      else
        a :: enteredEntries (sanitizeValue fuel h) (enteredBy fuel h) (h.obj a).own
          (a :: seen) := by
  simp [enteredBy, hk, hs]

/-- The visited set after a call is the one before it with the entered
composites put in front, the last one first. -/
theorem sanitizeValue_entered (h : Heap) :
    ∀ fuel v k s r s', sanitizeValue fuel h v k s = some (r, s') →
      s' = (enteredBy fuel h v k s).reverse ++ s := by
  intro fuel
  induction fuel with
  | zero => intro v k s r s' hres; simp [sanitizeValue] at hres
  | succ fuel ih =>
    intro v k s r s' hres
    rcases sanitizeValue_succ fuel h v k s with ⟨r0, h0, hin⟩ | ⟨a, hv, hk, hs, h1⟩
    · rw [h0] at hres
      simp only [Option.some.injEq, Prod.mk.injEq] at hres
      have hent : enteredBy (fuel + 1) h v k s = [] := by
        by_cases hk : isSensitiveKey k = true
        · simp [enteredBy, hk]
        · have hk' : isSensitiveKey k = false := by simpa using hk
          cases v with
          | ref a => simp [enteredBy, hk', hin a rfl hk']
          | undefined => simp [enteredBy, hk']
          | null => simp [enteredBy, hk']
          | bool b => simp [enteredBy, hk']
          | num n => simp [enteredBy, hk']
          | str x => simp [enteredBy, hk']
          | symbol d => simp [enteredBy, hk']
      rw [hent, ← hres.2]
      rfl
    · rw [h1] at hres
      subst hv
      by_cases harr : isArray h (.ref a) = true
      · rw [if_pos harr, sanitizeArray_fresh _ h a k s hs] at hres
        cases hm : mapItems (sanitizeValue fuel h) k (h.elems a) (a :: s) with
        | none => simp [hm] at hres
        | some q =>
          obtain ⟨mapped, s1⟩ := q
          simp only [hm, Option.some.injEq, Prod.mk.injEq] at hres
          have h2 := mapItems_entered _ (enteredBy fuel h) k ih _ _ _ _ hm
          rw [enteredBy_fresh fuel h a k s hk hs, if_pos harr, ← hres.2, h2]
          simp
      · rw [if_neg harr, sanitizeObject_fresh _ h a s hs] at hres
        cases hm : forEachEntry (sanitizeValue fuel h) (h.obj a).own [] (a :: s) with
        | none => simp [hm] at hres
        | some q =>
          obtain ⟨props, s1⟩ := q
          simp only [hm, Option.some.injEq, Prod.mk.injEq] at hres
          have h2 := forEachEntry_entered _ (enteredBy fuel h) ih _ _ _ _ _ hm
          rw [enteredBy_fresh fuel h a k s hk hs, if_neg harr, ← hres.2, h2]
          simp

theorem seenRel_fresh :
    SeenRel fun s s' => ∃ l : List Nat, s' = l ++ s ∧ l.Nodup ∧ ∀ x, x ∈ l → x ∉ s := by
  refine ⟨fun s => ⟨[], rfl, List.nodup_nil, fun x hx => by simp at hx⟩, ?_, ?_⟩
  · rintro a b c ⟨l1, h1, hn1, hd1⟩ ⟨l2, h2, hn2, hd2⟩
    refine ⟨l2 ++ l1, by rw [h2, h1, List.append_assoc], ?_, ?_⟩
    · rw [List.nodup_append]
      refine ⟨hn2, hn1, ?_⟩
      intro x hx2 hx1
      exact hd2 x hx2 (by rw [h1]; exact List.mem_append_left _ hx1)
    · intro x hx
      rcases List.mem_append.mp hx with hx2 | hx1
      · intro hxa
        exact hd2 x hx2 (by rw [h1]; exact List.mem_append_right _ hxa)
      · exact hd1 x hx1
  · intro a s ha
    exact ⟨[a], rfl, List.nodup_singleton a, fun x hx => by
      simp only [List.mem_singleton] at hx
      rw [hx]; exact ha⟩

theorem enteredBy_nodup (h : Heap) (fuel : Nat) (v : Val) (k : Option String) (s : Seen)
    (r : Option Tree) (s' : Seen) (hres : sanitizeValue fuel h v k s = some (r, s')) :
    (enteredBy fuel h v k s).Nodup ∧ ∀ a, a ∈ enteredBy fuel h v k s → a ∉ s := by
  obtain ⟨l, hl, hnd, hdisj⟩ := sanitizeValue_rel seenRel_fresh h fuel v k s r s' hres
  have hent := sanitizeValue_entered h fuel v k s r s' hres
  have heq : l = (enteredBy fuel h v k s).reverse :=
    List.append_cancel_right (hl.symm.trans hent)
  constructor
  · rw [← List.nodup_reverse, ← heq]
    exact hnd
  · intro a ha
    exact hdisj a (by rw [heq]; exact List.mem_reverse.mpr ha)

/-! ## A chain deeper than the call stack -/

theorem chainHeap_obj_lt (n i : Nat) (hi : i < n) :
    (chainHeap n).obj i = record [("next", .ref (i + 1))] := by
  simp [Heap.obj, chainHeap, List.getD_eq_getElem?_getD, List.getElem?_append, hi]

theorem chainHeap_obj_last (n : Nat) :
    (chainHeap n).obj n = record [("value", .num (.int 1))] := by
  simp [Heap.obj, chainHeap, List.getD_eq_getElem?_getD, List.getElem?_append]

theorem chainHeap_raises (n : Nat) :
    ∀ depth i seen key, i ≤ n → depth + i ≤ n + 1 → isSensitiveKey key = false →
      (∀ x, x ∈ seen → x < i) →
      sanitizeValue depth (chainHeap n) (.ref i) key seen = none := by
  intro depth
  induction depth with
  | zero => intro i seen key _ _ _ _; rfl
  | succ d ih =>
    intro i seen key hi hd hk hseen
    have hs : i ∉ seen := fun hmem => Nat.lt_irrefl i (hseen i hmem)
    rw [sanitizeValue_ref_fresh d _ i key seen hk hs]
    by_cases hlt : i < n
    · have hobj := chainHeap_obj_lt n i hlt
      have harr : ¬ (isArray (chainHeap n) (.ref i) = true) := by
        simp [isArray, hobj, record]
      rw [if_neg harr, sanitizeObject_fresh _ _ i seen hs, hobj]
      have hrec := ih (i + 1) (i :: seen) (some "next") (by omega) (by omega) (by decide)
        (fun x hx => by
          rcases List.mem_cons.mp hx with h1 | h1
          · omega
          · have := hseen x h1
            omega)
      simp [record, forEachEntry, hrec]
    · have hin : i = n := by omega
      subst hin
      have hd0 : d = 0 := by omega
      subst hd0
      have hobj := chainHeap_obj_last i
      have harr : ¬ (isArray (chainHeap i) (.ref i) = true) := by
        simp [isArray, hobj, record]
      rw [if_neg harr, sanitizeObject_fresh _ _ i seen hs, hobj]
      simp [record, forEachEntry, sanitizeValue]

/-! ## Termination within the depth of the call stack -/

/-- C3 as stated fails: on the chain of 10001 nested records, a finite graph
without any cycle, a call stack that admits a recursion depth of 10000 is
exhausted and the call raises `RangeError` instead of returning; so it is for
every depth of the stack on the chain of that length, although each of these
chains is sanitized when the stack is two calls deeper. -/
theorem sanitizeValue_deep_chain_raises :
    (chainHeap 10000).length = 10001 ∧
    sanitizeValue 10000 (chainHeap 10000) (.ref 0) none [] = none ∧
    (∀ depth, sanitizeValue depth (chainHeap depth) (.ref 0) none [] = none) ∧
    (∀ depth, ∃ r seen',
      sanitizeValue (depth + 2) (chainHeap depth) (.ref 0) none [] = some (r, seen')) := by
  have hraise : ∀ depth, sanitizeValue depth (chainHeap depth) (.ref 0) none [] = none :=
    fun depth => chainHeap_raises depth depth 0 [] none (Nat.zero_le _) (by omega) rfl
      (fun x hx => by simp at hx)
  have hlen : ∀ n, (chainHeap n).length = n + 1 := fun n => by simp [chainHeap]
  refine ⟨hlen 10000, hraise 10000, hraise, fun depth => ?_⟩
  have hs := sanitizeValue_isSome (chainHeap depth) (depth + 2) (.ref 0) none []
    (by have := unvisited_le (chainHeap depth) []; rw [hlen] at this; omega)
  cases hres : sanitizeValue (depth + 2) (chainHeap depth) (.ref 0) none [] with
  | none => simp [hres] at hs
  | some p => exact ⟨p.1, p.2, rfl⟩

/-- C3 (amended): on every heap (a finite object graph, cycles through records
and arrays included), for every value, key and visited set, the recursion of
`sanitizeValue` is never deeper than the number of objects plus one: whenever the
call stack admits that depth the call returns a result (a value or `undefined`,
with the visited set afterwards) without raising, the same result for every such
depth.  Each composite is entered at most once: the composites entered, one
entry for each time a body gets past its visited test, are without repetition,
none was in the visited set before, and the visited set afterwards is exactly
the one before with them added. -/
theorem sanitizeValue_returns_within_depth (h : Heap) (value : Val) (key : Option String)
    (seen : Seen) (depth : Nat) (hdepth : h.length < depth) :
    ∃ r seen', sanitizeValue depth h value key seen = some (r, seen') ∧
      sanitizeValue (h.length + 1) h value key seen = some (r, seen') ∧
      seen ⊆ seen' ∧
      seen' = (enteredBy depth h value key seen).reverse ++ seen ∧
      (enteredBy depth h value key seen).Nodup ∧
      (∀ a, a ∈ enteredBy depth h value key seen → a ∉ seen) := by
  have hs := sanitizeValue_isSome h (h.length + 1) value key seen
    (by have := unvisited_le h seen; omega)
  cases hres : sanitizeValue (h.length + 1) h value key seen with
  | none => simp [hres] at hs
  | some p =>
    obtain ⟨r, seen'⟩ := p
    have hd : depth = h.length + 1 + (depth - (h.length + 1)) := by omega
    have hres' : sanitizeValue depth h value key seen = some (r, seen') := by
      rw [hd]
      exact sanitizeValue_fuel_add h _ _ _ _ _ hres _
    have hnd := enteredBy_nodup h depth value key seen r seen' hres'
    exact ⟨r, seen', hres', rfl, sanitizeValue_subset h _ _ _ _ _ _ hres',
      sanitizeValue_entered h depth value key seen r seen' hres', hnd.1, hnd.2⟩

/-- Witness for C3 (amended): `{a: x, b: x}`, two objects, is sanitized at depth 3;
the composites entered are the record and `x`, each once. -/
theorem sanitizeValue_returns_within_depth_witness :
    sharedHeap.length < 3 ∧
    sanitizeValue 3 sharedHeap (.ref 0) none []
      = some (some (.obj [("a", .obj [("n", .leaf (.num (.int 1)))]),
                          ("b", .leaf (.str "[Circular]"))]), [1, 0]) ∧
    enteredBy 3 sharedHeap (.ref 0) none [] = [0, 1] ∧
    ∃ r seen', sanitizeValue 3 sharedHeap (.ref 0) none [] = some (r, seen') ∧
      sanitizeValue (sharedHeap.length + 1) sharedHeap (.ref 0) none [] = some (r, seen') ∧
      [] ⊆ seen' ∧
      seen' = (enteredBy 3 sharedHeap (.ref 0) none []).reverse ++ [] ∧
      (enteredBy 3 sharedHeap (.ref 0) none []).Nodup ∧
      (∀ a, a ∈ enteredBy 3 sharedHeap (.ref 0) none [] → a ∉ ([] : Seen)) :=
  ⟨by decide, rfl, rfl,
   sanitizeValue_returns_within_depth sharedHeap (.ref 0) none [] 3 (by decide)⟩

/-! ## Visited anywhere -/

theorem forEachEntry_append (rec : Sanitizer) :
    ∀ (pre post : List (String × Val)) acc s acc1 s1,
      forEachEntry rec pre acc s = some (acc1, s1) →
      forEachEntry rec (pre ++ post) acc s = forEachEntry rec post acc1 s1 := by
  intro pre
  induction pre with
  | nil =>
    intro post acc s acc1 s1 hpre
    simp only [forEachEntry, Option.some.injEq, Prod.mk.injEq] at hpre
    rw [hpre.1, hpre.2]
    rfl
  | cons e rest ih =>
    obtain ⟨key, value⟩ := e
    intro post acc s acc1 s1 hpre
    cases hrv : rec value (some key) s with
    | none => simp [forEachEntry, hrv] at hpre
    | some q =>
      obtain ⟨r, s2⟩ := q
      cases r with
      | none =>
        simp only [forEachEntry, hrv] at hpre
        simp only [List.cons_append, forEachEntry, hrv]
        exact ih _ _ _ _ _ hpre
      | some t =>
        simp only [forEachEntry, hrv] at hpre
        simp only [List.cons_append, forEachEntry, hrv]
        exact ih _ _ _ _ _ hpre

theorem forEachEntry_lookup (rec : Sanitizer) (k : String) :
    ∀ (es : List (String × Val)) acc s props s', k ∉ es.map Prod.fst →
      forEachEntry rec es acc s = some (props, s') → lookup k props = lookup k acc := by
  intro es
  induction es with
  | nil =>
    intro acc s props s' _ hres
    simp only [forEachEntry, Option.some.injEq, Prod.mk.injEq] at hres
    rw [hres.1]
  | cons e rest ih =>
    obtain ⟨key, value⟩ := e
    intro acc s props s' hk hres
    simp only [List.map_cons, List.mem_cons, not_or] at hk
    cases hrv : rec value (some key) s with
    | none => simp [forEachEntry, hrv] at hres
    | some q =>
      obtain ⟨r, s2⟩ := q
      cases r with
      | none =>
        simp only [forEachEntry, hrv] at hres
        exact ih _ _ _ _ hk.2 hres
      | some t =>
        simp only [forEachEntry, hrv] at hres
        rw [ih _ _ _ _ hk.2 hres]
        exact lookup_setProp_ne k key t acc (fun hkk => hk.1 hkk.symm)

/-! ## What a traversal leaves in the visited set -/

theorem forEachEntry_closed (h : Heap) (rec : Sanitizer)
    (hrec : ∀ v key s r s', rec v key s = some (r, s') →
      s ⊆ s' ∧ (∀ c, c ∈ s' → c ∉ s → ∀ d, Child h c d → d ∈ s') ∧
      (∀ a, v = .ref a → isSensitiveKey key = false → a ∈ s')) :
    ∀ es acc s props s', forEachEntry rec es acc s = some (props, s') →
      s ⊆ s' ∧ (∀ c, c ∈ s' → c ∉ s → ∀ d, Child h c d → d ∈ s') ∧
      (∀ k d, (k, Val.ref d) ∈ es → isSensitiveKey (some k) = false → d ∈ s') := by
  intro es
  induction es with
  | nil =>
    intro acc s props s' hres
    simp only [forEachEntry, Option.some.injEq, Prod.mk.injEq] at hres
    rw [← hres.2]
    exact ⟨List.Subset.refl _, fun c hc hnc => absurd hc hnc,
      fun k d hmem => by simp at hmem⟩
  | cons e rest ih =>
    obtain ⟨key, value⟩ := e
    intro acc s props s' hres
    cases hrv : rec value (some key) s with
    | none => simp [forEachEntry, hrv] at hres
    | some p =>
      obtain ⟨r, s1⟩ := p
      obtain ⟨hsub1, hcl1, hroot1⟩ := hrec _ _ _ _ _ hrv
      have hrest : ∃ acc1, forEachEntry rec rest acc1 s1 = some (props, s') := by
        cases r with
        | none => exact ⟨acc, by simpa only [forEachEntry, hrv] using hres⟩
        | some t => exact ⟨setProp key t acc, by simpa only [forEachEntry, hrv] using hres⟩
      obtain ⟨acc1, hrest⟩ := hrest
      obtain ⟨hsub2, hcl2, hroot2⟩ := ih _ _ _ _ hrest
      refine ⟨List.Subset.trans hsub1 hsub2, ?_, ?_⟩
      · intro c hc hnc d hd
        by_cases hc1 : c ∈ s1
        · exact hsub2 (hcl1 c hc1 hnc d hd)
        · exact hcl2 c hc hc1 d hd
      · intro k d hmem hk
        rcases List.mem_cons.mp hmem with heq | hin
        · simp only [Prod.mk.injEq] at heq
          exact hsub2 (hroot1 d heq.2.symm (by rw [← heq.1]; exact hk))
        · exact hroot2 k d hin hk

theorem mapItems_closed (h : Heap) (rec : Sanitizer) (key : Option String)
    (hkey : isSensitiveKey key = false)
    (hrec : ∀ v key s r s', rec v key s = some (r, s') →
      s ⊆ s' ∧ (∀ c, c ∈ s' → c ∉ s → ∀ d, Child h c d → d ∈ s') ∧
      (∀ a, v = .ref a → isSensitiveKey key = false → a ∈ s')) :
    ∀ items s mapped s', mapItems rec key items s = some (mapped, s') →
      s ⊆ s' ∧ (∀ c, c ∈ s' → c ∉ s → ∀ d, Child h c d → d ∈ s') ∧
      (∀ d, Val.ref d ∈ items → d ∈ s') := by
  intro items
  induction items with
  | nil =>
    intro s mapped s' hres
    simp only [mapItems, Option.some.injEq, Prod.mk.injEq] at hres
    rw [← hres.2]
    exact ⟨List.Subset.refl _, fun c hc hnc => absurd hc hnc, fun d hmem => by simp at hmem⟩
  | cons item rest ih =>
    intro s mapped s' hres
    cases hrv : rec item key s with
    | none => simp [mapItems, hrv] at hres
    | some p =>
      obtain ⟨r, s1⟩ := p
      obtain ⟨hsub1, hcl1, hroot1⟩ := hrec _ _ _ _ _ hrv
      cases hrest : mapItems rec key rest s1 with
      | none => simp [mapItems, hrv, hrest] at hres
      | some q =>
        obtain ⟨rs, s2⟩ := q
        simp only [mapItems, hrv, hrest, Option.some.injEq, Prod.mk.injEq] at hres
        obtain ⟨hsub2, hcl2, hroot2⟩ := ih _ _ _ hrest
        rw [← hres.2]
        refine ⟨List.Subset.trans hsub1 hsub2, ?_, ?_⟩
        · intro c hc hnc d hd
          by_cases hc1 : c ∈ s1
          · exact hsub2 (hcl1 c hc1 hnc d hd)
          · exact hcl2 c hc hc1 d hd
        · intro d hmem
          rcases List.mem_cons.mp hmem with heq | hin
          · exact hsub2 (hroot1 d heq.symm hkey)
          · exact hroot2 d hin

theorem elems_of_not_array (h : Heap) (a : Nat) (ha : ¬ (isArray h (.ref a) = true)) :
    h.elems a = [] := by
  unfold isArray at ha
  unfold Heap.elems
  cases hc : (h.obj a).cls with
  | plain => rfl
  | error => rfl
  | array elems => simp [hc] at ha

/-- After a call every composite that the call added to the visited set has all
its children in the visited set, and so has the value itself when it is a
composite under a key that is not sensitive. -/
theorem sanitizeValue_closed (h : Heap) :
    ∀ fuel v key s r s', sanitizeValue fuel h v key s = some (r, s') →
      s ⊆ s' ∧ (∀ c, c ∈ s' → c ∉ s → ∀ d, Child h c d → d ∈ s') ∧
      (∀ a, v = .ref a → isSensitiveKey key = false → a ∈ s') := by
  intro fuel
  induction fuel with
  | zero => intro v key s r s' hres; simp [sanitizeValue] at hres
  | succ fuel ih =>
    intro v key s r s' hres
    rcases sanitizeValue_succ fuel h v key s with ⟨r0, h0, hin⟩ | ⟨a, hv, hk, hs, h1⟩
    · rw [h0] at hres
      simp only [Option.some.injEq, Prod.mk.injEq] at hres
      rw [← hres.2]
      exact ⟨List.Subset.refl _, fun c hc hnc => absurd hc hnc, hin⟩
    · rw [h1] at hres
      subst hv
      split at hres
      · rename_i harr
        rw [sanitizeArray_fresh _ h a key s hs] at hres
        cases hm : mapItems (sanitizeValue fuel h) key (h.elems a) (a :: s) with
        | none => simp [hm] at hres
        | some q =>
          obtain ⟨mapped, s1⟩ := q
          simp only [hm, Option.some.injEq, Prod.mk.injEq] at hres
          obtain ⟨hsub, hcl, hroot⟩ := mapItems_closed h _ key hk ih _ _ _ _ hm
          rw [← hres.2]
          have ha1 : a ∈ s1 := hsub (List.mem_cons_self _ _)
          refine ⟨fun x hx => hsub (List.mem_cons_of_mem _ hx), ?_,
            fun b hb _ => by cases hb; exact ha1⟩
          intro c hc hnc d hd
          by_cases hca : c = a
          · subst hca
            rcases hd with hd | ⟨hna, _⟩
            · exact hroot d hd
            · rw [harr] at hna
              exact absurd hna (by simp)
          · exact hcl c hc (fun hmem => by
              rcases List.mem_cons.mp hmem with h2 | h2
              · exact hca h2
              · exact hnc h2) d hd
      · rename_i harr
        rw [sanitizeObject_fresh _ h a s hs] at hres
        cases hm : forEachEntry (sanitizeValue fuel h) (h.obj a).own [] (a :: s) with
        | none => simp [hm] at hres
        | some q =>
          obtain ⟨props, s1⟩ := q
          simp only [hm, Option.some.injEq, Prod.mk.injEq] at hres
          obtain ⟨hsub, hcl, hroot⟩ := forEachEntry_closed h _ ih _ _ _ _ _ hm
          rw [← hres.2]
          have ha1 : a ∈ s1 := hsub (List.mem_cons_self _ _)
          refine ⟨fun x hx => hsub (List.mem_cons_of_mem _ hx), ?_,
            fun b hb _ => by cases hb; exact ha1⟩
          intro c hc hnc d hd
          by_cases hca : c = a
          · subst hca
            rcases hd with hd | ⟨_, k, hmem, hks⟩
            · rw [elems_of_not_array h c harr] at hd
              simp at hd
            · exact hroot k d hmem hks
          · exact hcl c hc (fun hmem => by
              rcases List.mem_cons.mp hmem with h2 | h2
              · exact hca h2
              · exact hnc h2) d hd

theorem mem_of_reaches (h : Heap) (visited s1 : Seen)
    (hcl : ∀ c, c ∈ s1 → c ∉ visited → ∀ d, Child h c d → d ∈ s1)
    (c a : Nat) (hr : Reaches h visited c a) (hc : c ∈ s1) : a ∈ s1 := by
  induction hr with
  | here c _ => exact hc
  | step c d a hnc hd _ ih => exact ih (hcl c hc hnc d hd)

theorem forEachEntry_append_eq (rec : Sanitizer) :
    ∀ (pre post : List (String × Val)) acc s,
      forEachEntry rec (pre ++ post) acc s =
        match forEachEntry rec pre acc s with
        | none => none
        | some (acc1, s1) => forEachEntry rec post acc1 s1 := by
  intro pre
  induction pre with
  | nil => intro post acc s; rfl
  | cons e rest ih =>
    obtain ⟨key, value⟩ := e
    intro post acc s
    cases hrv : rec value (some key) s with
    | none => simp [forEachEntry, hrv]
    | some q =>
      obtain ⟨r, s2⟩ := q
      cases r with
      | none =>
        simp only [List.cons_append, forEachEntry, hrv]
        exact ih post _ _
      | some t =>
        simp only [List.cons_append, forEachEntry, hrv]
        exact ih post _ _

/-- C2: visited-anywhere semantics.  While `sanitizeObject` walks the fields of a
record `o` that it has just entered, take a field `k` with a key that is not
sensitive whose value is a composite `a` entered earlier in the traversal: `a` is
`o` itself or was in the visited set when `o` was entered (an ancestor, a true
cycle), or `a` is reached from the value of an earlier sibling field of `o`, at
any depth, through records and arrays that were not yet visited (a shared
reference, no ancestor).  Then the field `k` is `[Circular]` in the result,
whatever the fields after it do.  A first encounter (`a` not yet in the visited
set) takes the normal path through `sanitizeArray` or `sanitizeObject`, its
result is not the circular marker, and it leaves `a` in the visited set for the
rest of the traversal. -/
theorem visited_anywhere_circular (fuel : Nat) (h : Heap) (o a : Nat) (seen : Seen) (k : String)
    (hk : isSensitiveKey (some k) = false) :
    (∀ (pre post : List (String × Val)) (r : Option Tree) (seen' : Seen),
      (h.obj o).own = pre ++ (k, .ref a) :: post →
      k ∉ post.map Prod.fst →
      o ∉ seen →
      (a ∈ o :: seen ∨
        ∃ k1 c, (k1, Val.ref c) ∈ pre ∧ isSensitiveKey (some k1) = false ∧
          Reaches h (o :: seen) c a) →
      sanitizeObject (sanitizeValue fuel h) h o seen = some (r, seen') →
      ∃ props, r = some (.obj props) ∧ lookup k props = some (.leaf (.str "[Circular]"))) ∧
    (a ∉ seen →
      sanitizeValue (fuel + 1) h (.ref a) (some k) seen =
        (if isArray h (.ref a) then sanitizeArray (sanitizeValue fuel h) h a (some k) seen
         else sanitizeObject (sanitizeValue fuel h) h a seen) ∧
      ∀ r seen', sanitizeValue (fuel + 1) h (.ref a) (some k) seen = some (r, seen') →
        r ≠ some (.leaf (.str "[Circular]")) ∧ a ∈ seen' ∧ seen ⊆ seen') := by
  constructor
  · intro pre post r seen' hown hpost ho hearlier hres
    rw [sanitizeObject_fresh _ h o seen ho, hown, forEachEntry_append_eq] at hres
    cases hpre : forEachEntry (sanitizeValue fuel h) pre [] (o :: seen) with
    | none => simp [hpre] at hres
    | some p =>
      obtain ⟨acc1, seen1⟩ := p
      obtain ⟨hsub, hcl, hroot⟩ :=
        forEachEntry_closed h _ (sanitizeValue_closed h fuel) _ _ _ _ _ hpre
      have ha : a ∈ seen1 := by
        rcases hearlier with hin | ⟨k1, c, hmem, hk1, hreach⟩
        · exact hsub hin
        · exact mem_of_reaches h (o :: seen) seen1 hcl c a hreach (hroot k1 c hmem hk1)
      simp only [hpre] at hres
      cases fuel with
      | zero => simp [forEachEntry, sanitizeValue] at hres
      | succ fuel =>
        simp only [forEachEntry, sanitizeValue_ref_seen fuel h a (some k) seen1 hk ha] at hres
        cases hf : forEachEntry (sanitizeValue (fuel + 1) h) post
            (setProp k circularTree acc1) seen1 with
        | none => simp [hf] at hres
        | some q =>
          obtain ⟨props, s2⟩ := q
          have hl : lookup k props = some circularTree := by
            rw [forEachEntry_lookup _ k post _ _ _ _ hpost hf]
            exact lookup_setProp_self k circularTree acc1
          have hne : props.length ≠ 0 := by
            intro h0
            have : props = [] := List.length_eq_zero.mp h0
            rw [this] at hl
            simp [lookup] at hl
          simp only [hf, hne, ne_eq, not_false_eq_true, if_true, Option.some.injEq,
            Prod.mk.injEq] at hres
          exact ⟨props, hres.1.symm, hl⟩
  · intro ha
    have hfresh := sanitizeValue_ref_fresh fuel h a (some k) seen hk ha
    refine ⟨hfresh, fun r seen' hres => ?_⟩
    have hsub := sanitizeValue_subset h _ _ _ _ _ _ hres
    rw [hfresh] at hres
    split at hres
    · rw [sanitizeArray_fresh _ h a (some k) seen ha] at hres
      cases hm : mapItems (sanitizeValue fuel h) (some k) (h.elems a) (a :: seen) with
      | none => simp [hm] at hres
      | some q =>
        obtain ⟨mapped, s1⟩ := q
        have hs1 := mapItems_rel seenRel_subset _ (some k) (sanitizeValue_subset h fuel) _ _ _ _ hm
        simp only [hm, Option.some.injEq, Prod.mk.injEq] at hres
        refine ⟨?_, ?_, hsub⟩
        · rw [← hres.1]
          split <;> simp
        · rw [← hres.2]
          exact hs1 (List.mem_cons_self a seen)
    · rw [sanitizeObject_fresh _ h a seen ha] at hres
      cases hm : forEachEntry (sanitizeValue fuel h) (h.obj a).own [] (a :: seen) with
      | none => simp [hm] at hres
      | some q =>
        obtain ⟨props, s1⟩ := q
        have hs1 := forEachEntry_rel seenRel_subset _ (sanitizeValue_subset h fuel) _ _ _ _ _ hm
        simp only [hm, Option.some.injEq, Prod.mk.injEq] at hres
        refine ⟨?_, ?_, hsub⟩
        · rw [← hres.1]
          split <;> simp
        · rw [← hres.2]
          exact hs1 (List.mem_cons_self a seen)

/-- Witness for C2: in `{a: x, b: x}` the field `b` holds `[Circular]` although `x`
is no ancestor of `b`; so it does in `{a: {inner: [x]}, b: x}`, where `x` lies two
levels below the field `a`; in `o.self = o` the field `self` holds `[Circular]`;
the first encounter of `x` is not circular and puts `x` into the visited set. -/
theorem visited_anywhere_circular_witness :
    (isSensitiveKey (some "b") = false ∧
      sanitize sharedHeap (.ref 0)
        = some (.obj [("a", .obj [("n", .leaf (.num (.int 1)))]),
                      ("b", .leaf (.str "[Circular]"))]) ∧
      ∃ props, sanitize sharedHeap (.ref 0) = some (.obj props) ∧
        lookup "b" props = some (.leaf (.str "[Circular]"))) ∧
    (Reaches deepSharedHeap [0] 1 3 ∧
      ∃ props, sanitize deepSharedHeap (.ref 0) = some (.obj props) ∧
        lookup "b" props = some (.leaf (.str "[Circular]"))) ∧
    (isSensitiveKey (some "self") = false ∧
      ∃ props, sanitize selfHeap (.ref 0) = some (.obj props) ∧
        lookup "self" props = some (.leaf (.str "[Circular]"))) ∧
    (sanitizeValue 2 sharedHeap (.ref 1) (some "b") [0]
        = some (some (.obj [("n", .leaf (.num (.int 1)))]), [1, 0]) ∧
      some (Tree.obj [("n", .leaf (.num (.int 1)))]) ≠ some (.leaf (.str "[Circular]")) ∧
      1 ∈ [1, 0]) := by
  have hdeep : Reaches deepSharedHeap [0] 1 3 :=
    .step 1 2 3 (by decide) (Or.inr ⟨by decide, "inner", by decide, by decide⟩)
      (.step 2 3 3 (by decide) (Or.inl (by decide)) (.here 3 (by decide)))
  refine ⟨⟨by decide, rfl, ?_⟩, ⟨hdeep, ?_⟩, ⟨by decide, ?_⟩, ⟨rfl, ?_⟩⟩
  · exact (visited_anywhere_circular 2 sharedHeap 0 1 [] "b" (by decide)).1
      [("a", .ref 1)] [] (sanitize sharedHeap (.ref 0)) [1, 0] rfl (by simp) (by simp)
      (Or.inr ⟨"a", 1, by decide, by decide, .here 1 (by decide)⟩) rfl
  · exact (visited_anywhere_circular 4 deepSharedHeap 0 3 [] "b" (by decide)).1
      [("a", .ref 1)] [] (sanitize deepSharedHeap (.ref 0)) [3, 2, 1, 0] rfl (by simp) (by simp)
      (Or.inr ⟨"a", 1, by decide, by decide, hdeep⟩) rfl
  · exact (visited_anywhere_circular 1 selfHeap 0 0 [] "self" (by decide)).1
      [] [] (sanitize selfHeap (.ref 0)) [0] rfl (by simp) (by simp)
      (Or.inl (by decide)) rfl
  · have hw := ((visited_anywhere_circular 1 sharedHeap 0 1 [0] "b" (by decide)).2
      (by simp)).2 (some (.obj [("n", .leaf (.num (.int 1)))])) [1, 0] rfl
    exact ⟨hw.1, hw.2.1⟩

/-! ## The alert builder -/

theorem toAlert_of_rejected (env : Env) (h : Heap) (input defaultType : Val)
    (hr : (!truthy input && !isNumberZero input) = true) :
    toAlert env h input defaultType = (none, h) := by
  simp only [toAlert, hr, if_true]

theorem toAlert_isSome_of_accepted (env : Env) (h : Heap) (input defaultType : Val)
    (hr : (!truthy input && !isNumberZero input) = false) :
    ((toAlert env h input defaultType).1).isSome = true := by
  simp only [toAlert, hr]
  simp only [Bool.false_eq_true, if_false]
  split
  · split
    · rfl
    · split
      · rfl
      · split
        · split <;> rfl
        · rfl
  · split <;> rfl

theorem rejected_iff (input : Val) :
    (!truthy input && !isNumberZero input) = true ↔
      input = .undefined ∨ input = .null ∨ input = .str "" ∨ input = .bool false ∨
        input = .num .nan := by
  cases input with
  | undefined => simp [truthy, isNumberZero]
  | null => simp [truthy, isNumberZero]
  | bool b => cases b <;> simp [truthy, isNumberZero]
  | num n => cases n <;> simp [truthy, isNumberZero]
  | str s => simp [truthy, isNumberZero]
  | symbol d => simp [truthy, isNumberZero]
  | ref a => simp [truthy, isNumberZero]

/-- C7: `toAlert` returns `null` exactly when the input is falsy and not the number
zero, that is exactly for `undefined`, `null`, the empty string, `false` and NaN;
for every other input it returns an alert, and for the number 0 (and -0) the alert
is `{source: <default>, type, data: {message: '0'}}`. -/
theorem toAlert_null_iff (env : Env) (h : Heap) (input defaultType : Val) :
    ((toAlert env h input defaultType).1 = none ↔
      (truthy input = false ∧ isNumberZero input = false)) ∧
    ((toAlert env h input defaultType).1 = none ↔
      (input = .undefined ∨ input = .null ∨ input = .str "" ∨ input = .bool false ∨
        input = .num .nan)) ∧
    ((toAlert env h input defaultType).1 = none ∨
      ∃ alert, (toAlert env h input defaultType).1 = some alert) ∧
    toAlert env h (.num (.int 0)) defaultType
      = (some ⟨resolveSource env, defaultType, .obj [("message", .leaf (.str "0"))]⟩, h) ∧
    toAlert env h (.num .negZero) defaultType
      = (some ⟨resolveSource env, defaultType, .obj [("message", .leaf (.str "0"))]⟩, h) := by
  have hmain : (toAlert env h input defaultType).1 = none ↔
      (!truthy input && !isNumberZero input) = true := by
    constructor
    · intro hn
      by_contra hc
      have := toAlert_isSome_of_accepted env h input defaultType (by simpa using hc)
      rw [hn] at this
      simp at this
    · intro hr
      rw [toAlert_of_rejected env h input defaultType hr]
  refine ⟨?_, ?_, ?_, ?_, ?_⟩
  · rw [hmain]
    simp
  · rw [hmain]
    exact rejected_iff input
  · cases hres : (toAlert env h input defaultType).1 with
    | none => exact Or.inl rfl
    | some alert => exact Or.inr ⟨alert, rfl⟩
  · simp [toAlert, truthy, isNumberZero, looksLikeAlert, isError, sanitize, sanitizeValue,
      isSensitiveKey, isObject, isNullish, isTooLongString, isPrimitive, Tree.truthy,
      assignMessage, setProp, normalizeMessage, typeOf, scalarToString]
    rfl
  · simp [toAlert, truthy, isNumberZero, looksLikeAlert, isError, sanitize, sanitizeValue,
      isSensitiveKey, isObject, isNullish, isTooLongString, isPrimitive, Tree.truthy,
      assignMessage, setProp, normalizeMessage, typeOf, scalarToString]
    rfl

/-- C6 (the code differs): for the generic inputs `'boom'`, `5` and `true` the alert's
`data` is the primitive itself; the assignment `data.message = message` has no
effect on it, so `data` has no `message` field. -/
theorem toAlert_primitive_data_has_no_message :
    toAlert plainEnv [] (.str "boom") (.str "t")
      = (some ⟨.str "ffc-doc-alerting", .str "t", .leaf (.str "boom")⟩, []) ∧
    toAlert plainEnv [] (.num (.int 5)) (.str "t")
      = (some ⟨.str "ffc-doc-alerting", .str "t", .leaf (.num (.int 5))⟩, []) ∧
    toAlert plainEnv [] (.bool true) (.str "t")
      = (some ⟨.str "ffc-doc-alerting", .str "t", .leaf (.bool true)⟩, []) ∧
    normalizeMessage [] (.str "boom") = .str "boom" ∧
    Tree.hasOwn [] (.leaf (.str "boom")) "message" = false :=
  ⟨rfl, rfl, rfl, rfl, rfl⟩

theorem lookup_append_of_none {α : Type} (k : String) (l l' : List (String × α))
    (hl : lookup k l = none) : lookup k (l ++ l') = lookup k l' := by
  induction l with
  | nil => rfl
  | cons p rest ih =>
    obtain ⟨k', v'⟩ := p
    by_cases hk : k' = k
    · simp [lookup, hk] at hl
    · simp only [lookup, hk, if_false] at hl
      simp only [List.cons_append, lookup, hk, if_false]
      exact ih hl

theorem lookup_append_of_ne {α : Type} (k k' : String) (v : α) (l : List (String × α))
    (hne : k' ≠ k) : lookup k (l ++ [(k', v)]) = lookup k l := by
  induction l with
  | nil => simp [lookup, hne]
  | cons p rest ih =>
    obtain ⟨k'', v''⟩ := p
    by_cases hk : k'' = k
    · simp [lookup, hk]
    · simp only [List.cons_append, lookup, hk, if_false]
      exact ih

theorem setProp_of_lookup_none {α : Type} (k : String) (v : α) (l : List (String × α))
    (hl : lookup k l = none) : setProp k v l = l ++ [(k, v)] := by
  induction l with
  | nil => rfl
  | cons p rest ih =>
    obtain ⟨k', v'⟩ := p
    by_cases hk : k' = k
    · simp [lookup, hk] at hl
    · simp only [lookup, hk, if_false] at hl
      simp only [setProp, hk, if_false, List.cons_append, ih hl]

theorem obj_set_self (h : Heap) (d : Nat) (o : Obj) (hd : d < h.length) :
    Heap.obj (h.set d o) d = o := by
  simp [Heap.obj, List.getD_eq_getElem?_getD, hd]

theorem obj_set_other (h : Heap) (d b : Nat) (o : Obj) (hb : b ≠ d) :
    Heap.obj (h.set d o) b = h.obj b := by
  simp [Heap.obj, List.getD_eq_getElem?_getD, List.getElem?_set, Ne.symm hb]

/-- C5: for an alert-shaped input whose `data` is an object without an own
`message` field, `toAlert` returns an alert whose `data` is that very object (not
sanitized, not replaced); the object keeps its class and every property with its
value and gains one own property, `message`, equal to `normalizeMessage` of the
whole input as it was before the call; no other object changes. -/
theorem toAlert_prebuilt_data_backfill (env : Env) (h : Heap) (a d : Nat) (defaultType : Val)
    (halert : looksLikeAlert h (.ref a) = true)
    (hdata : getProp h (.ref a) "data" = .ref d)
    (hd : d < h.length)
    (hmsg : (h.obj d).hasOwn "message" = false) :
    ∃ alert h', toAlert env h (.ref a) defaultType = (some alert, h') ∧
      alert.data = .leaf (.ref d) ∧
      h'.obj d = { h.obj d with
        own := (h.obj d).own ++ [("message", normalizeMessage h (.ref a))] } ∧
      getProp h' (.ref d) "message" = normalizeMessage h (.ref a) ∧
      (∀ k, k ≠ "message" → getProp h' (.ref d) k = getProp h (.ref d) k) ∧
      (∀ b, b ≠ d → h'.obj b = h.obj b) := by
  have hown : lookup "message" (h.obj d).own = none := by
    simp only [Obj.hasOwn, Bool.or_eq_false_iff] at hmsg
    simpa using hmsg.1
  have hhid : lookup "message" (h.obj d).hidden = none := by
    simp only [Obj.hasOwn, Bool.or_eq_false_iff] at hmsg
    simpa using hmsg.2
  have hset : h.setOwn d "message" (normalizeMessage h (.ref a)) =
      h.set d { h.obj d with
        own := (h.obj d).own ++ [("message", normalizeMessage h (.ref a))] } := by
    simp only [Heap.setOwn, hhid, Option.isSome_none, Bool.false_eq_true, if_false,
      setProp_of_lookup_none _ _ _ hown]
  refine ⟨⟨jsOr (getProp h (.ref a) "source") (resolveSource env),
    jsOr (getProp h (.ref a) "type") defaultType, .leaf (.ref d)⟩,
    h.set d { h.obj d with
      own := (h.obj d).own ++ [("message", normalizeMessage h (.ref a))] }, ?_, rfl, ?_, ?_, ?_, ?_⟩
  · simp [toAlert, truthy, isNumberZero, halert, hdata, Tree.truthy, Tree.isObjectType, typeOf,
      Tree.hasOwn, hmsg, assignMessage, hset]
  · exact obj_set_self h d _ hd
  · simp only [getProp, obj_set_self h d _ hd, Obj.get]
    rw [lookup_append_of_none _ _ _ hown]
    simp [lookup]
  · intro k hk
    simp only [getProp, obj_set_self h d _ hd, Obj.get]
    rw [lookup_append_of_ne k "message" _ _ (Ne.symm hk)]
  · intro b hb
    exact obj_set_other h d b _ hb

/-- Witness for C5: `{source: "svc", data: {foo: "bar"}}` keeps `data.foo` and
gets `data.message` from the outer input. -/
theorem toAlert_prebuilt_data_backfill_witness :
    looksLikeAlert prebuiltHeap (.ref 0) = true ∧
    getProp prebuiltHeap (.ref 0) "data" = .ref 1 ∧
    1 < prebuiltHeap.length ∧
    (prebuiltHeap.obj 1).hasOwn "message" = false ∧
    ∃ alert h', toAlert plainEnv prebuiltHeap (.ref 0) (.str "t") = (some alert, h') ∧
      alert.data = .leaf (.ref 1) ∧
      h'.obj 1 = { prebuiltHeap.obj 1 with
        own := (prebuiltHeap.obj 1).own ++
          [("message", normalizeMessage prebuiltHeap (.ref 0))] } ∧
      getProp h' (.ref 1) "message" = normalizeMessage prebuiltHeap (.ref 0) ∧
      (∀ k, k ≠ "message" → getProp h' (.ref 1) k = getProp prebuiltHeap (.ref 1) k) ∧
      (∀ b, b ≠ 1 → h'.obj b = prebuiltHeap.obj b) :=
  ⟨by decide, by decide, by decide, by decide,
   toAlert_prebuilt_data_backfill plainEnv prebuiltHeap 0 1 (.str "t")
     (by decide) (by decide) (by decide) (by decide)⟩

/-! ## The message normalizer -/

/-- C9 (the code differs): for an `Error` instance whose `message` is not a string
`normalizeMessage` returns that value as it is: the number 42, or a reference to a
record, not a string. -/
theorem normalizeMessage_error_non_string :
    isError oddErrorHeap (.ref 0) = true ∧
    normalizeMessage oddErrorHeap (.ref 0) = .num (.int 42) ∧
    typeOf (normalizeMessage oddErrorHeap (.ref 0)) = "number" ∧
    isError oddErrorHeap (.ref 1) = true ∧
    normalizeMessage oddErrorHeap (.ref 1) = .ref 2 :=
  ⟨rfl, rfl, rfl, rfl, rfl⟩

theorem decimalAux_ne_nil (fuel n : Nat) (acc : List Char) (hacc : acc ≠ []) :
    decimalAux fuel n acc ≠ [] := by
  induction fuel generalizing n acc with
  | zero => simpa [decimalAux] using hacc
  | succ fuel ih =>
    simp only [decimalAux]
    split
    · simp
    · exact ih _ _ (by simp)

theorem natToString_ne_empty (n : Nat) : natToString n ≠ "" := by
  intro hs
  have hd : (natToString n).data = [] := by rw [hs]
  simp only [natToString, decimalAux] at hd
  split at hd
  · simp at hd
  · exact decimalAux_ne_nil _ _ _ (by simp) hd

theorem numToString_ne_empty (n : Num) : numToString n ≠ "" := by
  cases n with
  | nan => decide
  | posInf => decide
  | negInf => decide
  | negZero => decide
  | int i =>
    cases i with
    | ofNat m => exact natToString_ne_empty m
    | negSucc m =>
      intro hs
      have hd : (numToString (.int (.negSucc m))).data = [] := by rw [hs]
      simp [numToString] at hd

theorem boolToString_ne_empty (b : Bool) : boolToString b ≠ "" := by
  cases b <;> decide

theorem usableForm_ne_empty (v : Val) (s : String) (hs : usableForm v = some s) : s ≠ "" := by
  cases v with
  | str x =>
    simp only [usableForm] at hs
    split at hs
    · simp at hs
    · rename_i hne
      simp only [Option.some.injEq] at hs
      rw [← hs]
      exact hne
  | num n =>
    simp only [usableForm, Option.some.injEq] at hs
    rw [← hs]
    exact numToString_ne_empty n
  | bool b =>
    simp only [usableForm, Option.some.injEq] at hs
    rw [← hs]
    exact boolToString_ne_empty b
  | undefined => simp [usableForm] at hs
  | null => simp [usableForm] at hs
  | symbol d => simp [usableForm] at hs
  | ref a => simp [usableForm] at hs

theorem getPropertyMessage_eq (h : Heap) (a : Nat) (k : String) :
    getPropertyMessage h (.ref a) k =
      match usableForm (getProp h (.ref a) k) with
      | some s => .str s
      | none => .undefined := by
  simp only [getPropertyMessage, truthy, typeOf]
  cases hv : getProp h (.ref a) k with
  | str x =>
    by_cases hx : jsTrim x = ""
    · simp [isNullish, typeOf, trimString, jsOr, truthy, usableForm, hx]
    · simp [isNullish, typeOf, trimString, jsOr, truthy, usableForm, hx]
  | num n => simp [isNullish, typeOf, scalarToString, usableForm]
  | bool b => simp [isNullish, typeOf, scalarToString, usableForm]
  | undefined => simp [isNullish, usableForm]
  | null => simp [isNullish, usableForm]
  | symbol d => simp [isNullish, typeOf, usableForm]
  | ref b => simp [isNullish, typeOf, usableForm]

/-- C10: for an object that is not an `Error` instance, `normalizeMessage` returns
the usable form of its `msg` property if there is one, else the usable form of its
`message` property, else `An error occurred`, where the usable form is the one the
specification describes (`usableForm`). -/
theorem normalizeMessage_object (h : Heap) (a : Nat) (hne : isError h (.ref a) = false) :
    normalizeMessage h (.ref a) =
      .str (specObjectMessage (getProp h (.ref a) "msg") (getProp h (.ref a) "message")) := by
  simp only [normalizeMessage, hne, isNullish, typeOf, getPropertyMessage_eq, specObjectMessage,
    DEFAULT_MESSAGE]
  cases h1 : usableForm (getProp h (.ref a) "msg") with
  | some s =>
    have := usableForm_ne_empty _ _ h1
    simp [jsOr, truthy, this]
  | none =>
    cases h2 : usableForm (getProp h (.ref a) "message") with
    | some s =>
      have := usableForm_ne_empty _ _ h2
      simp [jsOr, truthy, this]
    | none => simp [jsOr, truthy]


/-- Witness for C10: `{msg: 'x'}` gives `'x'`, `{message: 42}` gives `'42'`, and
`{msg: '  ', message: 'b'}` gives `'b'`. -/
theorem normalizeMessage_object_witness :
    (isError [record [("msg", .str "x")]] (.ref 0) = false ∧
      normalizeMessage [record [("msg", .str "x")]] (.ref 0) = .str "x") ∧
    (isError [record [("message", .num (.int 42))]] (.ref 0) = false ∧
      normalizeMessage [record [("message", .num (.int 42))]] (.ref 0) = .str "42") ∧
    (isError [record [("msg", .str "  "), ("message", .str "b")]] (.ref 0) = false ∧
      normalizeMessage [record [("msg", .str "  "), ("message", .str "b")]] (.ref 0)
        = .str "b") :=
  ⟨⟨by decide, normalizeMessage_object [record [("msg", .str "x")]] 0 (by decide)⟩,
   ⟨by decide, normalizeMessage_object [record [("message", .num (.int 42))]] 0 (by decide)⟩,
   ⟨by decide,
    normalizeMessage_object [record [("msg", .str "  "), ("message", .str "b")]] 0
      (by decide)⟩⟩

/-! ## Redaction of the alert's data -/

theorem sanitized_not_exposes (h : Heap) (t : Tree) (hx : Exposes h t) : ¬ Sanitized t := by
  induction hx with
  | objField props k t hmem hk hne =>
    intro hs
    cases hs with
    | obj _ hp _ => exact hne (hp k t hmem hk)
  | objBelow props k t hmem _ ih =>
    intro hs
    cases hs with
    | obj _ _ hp => exact ih (hp k t hmem)
  | arrField items props k t hmem hk hne =>
    intro hs
    cases hs with
    | arr _ _ _ hp _ => exact hne (hp k t hmem hk)
  | arrBelow items props k t hmem _ ih =>
    intro hs
    cases hs with
    | arr _ _ _ _ hp => exact ih (hp k t hmem)
  | arrItem items props t hmem _ ih =>
    intro hs
    cases hs with
    | arr _ _ hi _ _ => exact ih (hi t hmem)
  | refField a k v _ _ _ =>
    intro hs
    cases hs with
    | leaf _ hv => simp [isObject] at hv
  | refBelow a k v _ _ _ =>
    intro hs
    cases hs with
    | leaf _ hv => simp [isObject] at hv
  | refItem a v _ _ _ =>
    intro hs
    cases hs with
    | leaf _ hv => simp [isObject] at hv

theorem mem_setProp {α : Type} (k : String) (v : α) (l : List (String × α)) (p : String × α)
    (hp : p ∈ setProp k v l) : p = (k, v) ∨ p ∈ l := by
  induction l with
  | nil => simpa [setProp] using hp
  | cons q rest ih =>
    obtain ⟨k', v'⟩ := q
    by_cases hk : k' = k
    · simp only [setProp, hk, if_true, List.mem_cons] at hp
      rcases hp with hp | hp
      · exact Or.inl hp
      · exact Or.inr (List.mem_cons_of_mem _ hp)
    · simp only [setProp, hk, if_false, List.mem_cons] at hp
      rcases hp with hp | hp
      · exact Or.inr (by rw [hp]; exact List.mem_cons_self _ _)
      · rcases ih hp with h1 | h1
        · exact Or.inl h1
        · exact Or.inr (List.mem_cons_of_mem _ h1)

/-- What the fields of a sanitized record satisfy. -/
theorem forEachEntry_sanitized (rec : Sanitizer)
    (hrec : ∀ v k s t s', rec v k s = some (some t, s') →
      Sanitized t ∧ (isSensitiveKey k = true → t = redactedTree)) :
    ∀ es acc s props s', forEachEntry rec es acc s = some (props, s') →
      (∀ k t, (k, t) ∈ acc →
        (isSensitiveKey (some k) = true → t = redactedTree) ∧ Sanitized t) →
      ∀ k t, (k, t) ∈ props →
        (isSensitiveKey (some k) = true → t = redactedTree) ∧ Sanitized t := by
  intro es
  induction es with
  | nil =>
    intro acc s props s' hres hacc
    simp only [forEachEntry, Option.some.injEq, Prod.mk.injEq] at hres
    rw [← hres.1]
    exact hacc
  | cons e rest ih =>
    obtain ⟨key, value⟩ := e
    intro acc s props s' hres hacc
    cases hrv : rec value (some key) s with
    | none => simp [forEachEntry, hrv] at hres
    | some q =>
      obtain ⟨r, s1⟩ := q
      cases r with
      | none =>
        simp only [forEachEntry, hrv] at hres
        exact ih _ _ _ _ hres hacc
      | some t0 =>
        simp only [forEachEntry, hrv] at hres
        have h0 := hrec _ _ _ _ _ hrv
        refine ih _ _ _ _ hres ?_
        intro k t hmem
        rcases mem_setProp key t0 acc (k, t) hmem with heq | hold
        · simp only [Prod.mk.injEq] at heq
          rw [heq.1, heq.2]
          exact ⟨h0.2, h0.1⟩
        · exact hacc k t hold

theorem mapItems_sanitized (rec : Sanitizer) (key : Option String)
    (hrec : ∀ v k s t s', rec v k s = some (some t, s') →
      Sanitized t ∧ (isSensitiveKey k = true → t = redactedTree)) :
    ∀ items s mapped s', mapItems rec key items s = some (mapped, s') →
      ∀ t, some t ∈ mapped → Sanitized t := by
  intro items
  induction items with
  | nil =>
    intro s mapped s' hres t ht
    simp only [mapItems, Option.some.injEq, Prod.mk.injEq] at hres
    rw [← hres.1] at ht
    simp at ht
  | cons item rest ih =>
    intro s mapped s' hres t ht
    cases hrv : rec item key s with
    | none => simp [mapItems, hrv] at hres
    | some q =>
      obtain ⟨r, s1⟩ := q
      cases hrest : mapItems rec key rest s1 with
      | none => simp [mapItems, hrv, hrest] at hres
      | some q2 =>
        obtain ⟨rs, s2⟩ := q2
        simp only [mapItems, hrv, hrest, Option.some.injEq, Prod.mk.injEq] at hres
        rw [← hres.1] at ht
        rcases List.mem_cons.mp ht with h1 | h1
        · rw [← h1] at hrv
          exact (hrec _ _ _ _ _ hrv).1
        · exact ih _ _ _ hrest t h1

theorem mem_filterItems (mapped : List (Option Tree)) (t : Tree)
    (ht : t ∈ filterItems mapped) : some t ∈ mapped := by
  induction mapped with
  | nil => simp [filterItems] at ht
  | cons r rest ih =>
    cases r with
    | none =>
      simp only [filterItems] at ht
      exact List.mem_cons_of_mem _ (ih ht)
    | some t0 =>
      simp only [filterItems] at ht
      split at ht
      · rcases List.mem_cons.mp ht with h1 | h1
        · rw [h1]; exact List.mem_cons_self _ _
        · exact List.mem_cons_of_mem _ (ih h1)
      · exact List.mem_cons_of_mem _ (ih ht)

theorem sanitized_redactedTree : Sanitized redactedTree := .leaf _ rfl

theorem sanitized_circularTree : Sanitized circularTree := .leaf _ rfl

theorem sanitizeValue_sanitized (h : Heap) :
    ∀ fuel v k s t s', sanitizeValue fuel h v k s = some (some t, s') →
      Sanitized t ∧ (isSensitiveKey k = true → t = redactedTree) := by
  intro fuel
  induction fuel with
  | zero => intro v k s t s' hres; simp [sanitizeValue] at hres
  | succ fuel ih =>
    intro v k s t s' hres
    by_cases hk : isSensitiveKey k = true
    · rw [sanitizeValue_of_sensitive fuel h v k s hk] at hres
      simp only [Option.some.injEq, Prod.mk.injEq] at hres
      rw [← hres.1]
      exact ⟨sanitized_redactedTree, fun _ => rfl⟩
    · have hk' : isSensitiveKey k = false := by simpa using hk
      refine ⟨?_, fun hc => absurd hc hk⟩
      cases v with
      | ref a =>
        by_cases hs : a ∈ s
        · rw [sanitizeValue_ref_seen fuel h a k s hk' hs] at hres
          simp only [Option.some.injEq, Prod.mk.injEq] at hres
          rw [← hres.1]
          exact sanitized_circularTree
        · rw [sanitizeValue_ref_fresh fuel h a k s hk' hs] at hres
          split at hres
          · rw [sanitizeArray_fresh _ h a k s hs] at hres
            cases hm : mapItems (sanitizeValue fuel h) k (h.elems a) (a :: s) with
            | none => simp [hm] at hres
            | some q =>
              obtain ⟨mapped, s1⟩ := q
              simp only [hm, Option.some.injEq, Prod.mk.injEq] at hres
              obtain ⟨hr, _⟩ := hres
              split at hr
              · simp only [Option.some.injEq] at hr
                rw [← hr]
                refine .arr _ _ (fun t0 ht0 => ?_) (fun k0 t0 hmem => by simp at hmem)
                  (fun k0 t0 hmem => by simp at hmem)
                exact mapItems_sanitized _ k ih _ _ _ _ hm t0 (mem_filterItems _ _ ht0)
              · simp at hr
          · rw [sanitizeObject_fresh _ h a s hs] at hres
            cases hm : forEachEntry (sanitizeValue fuel h) (h.obj a).own [] (a :: s) with
            | none => simp [hm] at hres
            | some q =>
              obtain ⟨props, s1⟩ := q
              simp only [hm, Option.some.injEq, Prod.mk.injEq] at hres
              obtain ⟨hr, _⟩ := hres
              split at hr
              · simp only [Option.some.injEq] at hr
                rw [← hr]
                have hp := forEachEntry_sanitized _ ih _ _ _ _ _ hm
                  (fun k0 t0 hmem => by simp at hmem)
                exact .obj _ (fun k0 t0 hmem => (hp k0 t0 hmem).1)
                  (fun k0 t0 hmem => (hp k0 t0 hmem).2)
              · simp at hr
      | undefined => simp [sanitizeValue, hk, isObject, isNullish] at hres
      | null => simp [sanitizeValue, hk, isObject, isNullish] at hres
      | bool b =>
        simp [sanitizeValue, hk, isObject, isNullish, isTooLongString, isPrimitive] at hres
        rw [← hres.1]
        exact .leaf _ rfl
      | num n =>
        simp [sanitizeValue, hk, isObject, isNullish, isTooLongString, isPrimitive] at hres
        rw [← hres.1]
        exact .leaf _ rfl
      | symbol d =>
        simp [sanitizeValue, hk, isObject, isNullish, isTooLongString, isPrimitive] at hres
        rw [← hres.1]
        exact .leaf _ rfl
      | str x =>
        simp only [sanitizeValue, hk, isObject, isNullish, isPrimitive, Bool.false_and,
          Bool.false_eq_true, if_false] at hres
        split at hres
        · simp only [Option.some.injEq, Prod.mk.injEq] at hres
          rw [← hres.1]
          exact sanitized_redactedTree
        · simp only [Option.some.injEq, Prod.mk.injEq] at hres
          rw [← hres.1]
          exact .leaf _ rfl

theorem sanitize_sanitized (h : Heap) (v : Val) (t : Tree) (hres : sanitize h v = some t) :
    Sanitized t := by
  unfold sanitize at hres
  cases hm : sanitizeValue (h.length + 1) h v none [] with
  | none => simp [hm] at hres
  | some q =>
    obtain ⟨r, s1⟩ := q
    simp only [hm] at hres
    rw [hres] at hm
    exact (sanitizeValue_sanitized h _ _ _ _ _ _ hm).1

theorem isObject_jsOr (a b : Val) (ha : isObject a = false) (hb : isObject b = false) :
    isObject (jsOr a b) = false := by
  unfold jsOr
  split
  · exact ha
  · exact hb

theorem isObject_trimString (v : Val) (hv : isObject v = false) :
    isObject (trimString v) = false := by
  cases v <;> simp_all [trimString, isObject]

theorem isObject_getPropertyMessage (h : Heap) (v : Val) (k : String) :
    isObject (getPropertyMessage h v k) = false := by
  cases v with
  | ref a =>
    rw [getPropertyMessage_eq]
    split <;> rfl
  | undefined => simp [getPropertyMessage, truthy, isObject]
  | null => simp [getPropertyMessage, truthy, isObject]
  | bool b => simp [getPropertyMessage, typeOf, isObject]
  | num n => simp [getPropertyMessage, typeOf, isObject]
  | str s => simp [getPropertyMessage, typeOf, isObject]
  | symbol d => simp [getPropertyMessage, typeOf, isObject]

theorem isObject_normalizeMessage (h : Heap) (v : Val)
    (herr : isError h v = true → isObject (getProp h v "message") = false) :
    isObject (normalizeMessage h v) = false := by
  unfold normalizeMessage
  split
  · rename_i he
    exact isObject_jsOr _ _ (isObject_trimString _ (herr he)) rfl
  · split
    · rfl
    · split
      · exact isObject_jsOr _ _ (isObject_trimString _ (by cases v <;> simp_all [typeOf, isObject])) rfl
      · split
        · rfl
        · split
          · exact isObject_jsOr _ _
              (isObject_jsOr _ _ (isObject_getPropertyMessage _ _ _)
                (isObject_getPropertyMessage _ _ _)) rfl
          · rfl

theorem sanitized_message_record (m : Val) (hm : isObject m = false) :
    Sanitized (.obj [("message", .leaf m)]) := by
  refine .obj _ (fun k t hmem hk => ?_) (fun k t hmem => ?_)
  · simp only [List.mem_singleton, Prod.mk.injEq] at hmem
    rw [hmem.1] at hk
    exact absurd hk (by decide)
  · simp only [List.mem_singleton, Prod.mk.injEq] at hmem
    rw [hmem.2]
    exact .leaf _ hm

theorem sanitized_setProp_message (props : List (String × Tree)) (m : Val)
    (hm : isObject m = false)
    (h1 : ∀ k t, (k, t) ∈ props → isSensitiveKey (some k) = true → t = redactedTree)
    (h2 : ∀ k t, (k, t) ∈ props → Sanitized t) :
    (∀ k t, (k, t) ∈ setProp "message" (.leaf m) props →
      isSensitiveKey (some k) = true → t = redactedTree) ∧
    (∀ k t, (k, t) ∈ setProp "message" (.leaf m) props → Sanitized t) := by
  constructor
  · intro k t hmem hk
    rcases mem_setProp _ _ _ _ hmem with heq | hold
    · simp only [Prod.mk.injEq] at heq
      rw [heq.1] at hk
      exact absurd hk (by decide)
    · exact h1 k t hold hk
  · intro k t hmem
    rcases mem_setProp _ _ _ _ hmem with heq | hold
    · simp only [Prod.mk.injEq] at heq
      rw [heq.2]
      exact .leaf _ hm
    · exact h2 k t hold

theorem sanitized_assignMessage (h : Heap) (t : Tree) (m : Val) (ht : Sanitized t)
    (hm : isObject m = false) : Sanitized (assignMessage h t m).1 := by
  cases ht with
  | leaf v hv =>
    cases v with
    | ref a => simp [isObject] at hv
    | undefined => exact .leaf _ rfl
    | null => exact .leaf _ rfl
    | bool b => exact .leaf _ rfl
    | num n => exact .leaf _ rfl
    | str s => exact .leaf _ rfl
    | symbol d => exact .leaf _ rfl
  | arr items props hi h1 h2 =>
    have hp := sanitized_setProp_message props m hm h1 h2
    exact .arr _ _ hi hp.1 hp.2
  | obj props h1 h2 =>
    have hp := sanitized_setProp_message props m hm h1 h2
    exact .obj _ hp.1 hp.2

theorem sanitized_buildErrorData (f : Nat → String) (h : Heap) (v : Val)
    (hname : isObject (getProp h v "name") = false)
    (hmsg : isObject (normalizeMessage h v) = false) :
    Sanitized (buildErrorData f h v) := by
  unfold buildErrorData
  split
  · exact .obj _ (fun k t hmem => by simp at hmem) (fun k t hmem => by simp at hmem)
  · refine .obj _ (fun k t hmem hk => ?_) (fun k t hmem => ?_)
    · simp only [List.mem_cons, Prod.mk.injEq, List.mem_singleton, List.not_mem_nil,
        or_false] at hmem
      rcases hmem with hh | hh | hh <;>
      · rw [hh.1] at hk
        exact absurd hk (by decide)
    · simp only [List.mem_cons, Prod.mk.injEq, List.mem_singleton, List.not_mem_nil,
        or_false] at hmem
      rcases hmem with hh | hh | hh
      · rw [hh.2]; exact .leaf _ hname
      · rw [hh.2]; exact .leaf _ hmsg
      · rw [hh.2]; exact .leaf _ rfl

theorem toAlert_sanitized (env : Env) (h : Heap) (input defaultType : Val) (alert : Alert)
    (h' : Heap) (hres : toAlert env h input defaultType = (some alert, h'))
    (hdata : looksLikeAlert h input = true → getProp h input "data" = .undefined)
    (herr : isError h input = true →
      isObject (getProp h input "name") = false ∧
      isObject (getProp h input "message") = false) :
    Sanitized alert.data := by
  have hmsg : isObject (normalizeMessage h input) = false :=
    isObject_normalizeMessage h input fun he => (herr he).2
  unfold toAlert at hres
  simp only at hres
  split at hres
  · simp at hres
  · split at hres
    · rename_i hla
      simp only [hdata hla, ne_eq, not_true_eq_false, if_false] at hres
      split at hres
      · simp only [Prod.mk.injEq, Option.some.injEq] at hres
        rw [← hres.1]
        exact sanitized_message_record _ hmsg
      · rename_i d hd
        have hsd := sanitize_sanitized h input d hd
        split at hres
        · simp only [Prod.mk.injEq, Option.some.injEq] at hres
          rw [← hres.1]
          exact sanitized_message_record _ hmsg
        · split at hres
          · split at hres
            · simp only [Prod.mk.injEq, Option.some.injEq] at hres
              rw [← hres.1]
              exact sanitized_assignMessage h d _ hsd hmsg
            · simp only [Prod.mk.injEq, Option.some.injEq] at hres
              rw [← hres.1]
              exact hsd
          · simp only [Prod.mk.injEq, Option.some.injEq] at hres
            rw [← hres.1]
            exact hsd
    · split at hres
      · rename_i he
        simp only [Prod.mk.injEq, Option.some.injEq] at hres
        rw [← hres.1]
        exact sanitized_buildErrorData _ h input (herr he).1 hmsg
      · simp only [Prod.mk.injEq, Option.some.injEq] at hres
        rw [← hres.1]
        apply sanitized_assignMessage _ _ _ _ hmsg
        split
        · exact .obj _ (fun k t hmem => by simp at hmem) (fun k t hmem => by simp at hmem)
        · rename_i t ht
          split
          · exact sanitize_sanitized h input t ht
          · exact .obj _ (fun k t hmem => by simp at hmem) (fun k t hmem => by simp at hmem)

/-- C8 as stated fails: for the pre-built alert `{source: "svc", data: {password:
"hunter2"}}` the alert's `data` is the input's own `data` object, in which the
field `password` still holds `hunter2`; and for an `Error` whose `message` is the
record `{token: "abc"}` the alert's `data.message` is that record. -/
theorem toAlert_prebuilt_data_exposed :
    ((toAlert plainEnv secretDataHeap (.ref 0) (.str "t")).1
        = some ⟨.str "svc", .str "t", .leaf (.ref 1)⟩ ∧
      Exposes (toAlert plainEnv secretDataHeap (.ref 0) (.str "t")).2 (.leaf (.ref 1))) ∧
    ((toAlert plainEnv oddErrorHeap (.ref 1) (.str "t")).1
        = some ⟨.str "ffc-doc-alerting", .str "t",
            .obj [("name", .leaf (.str "Error")), ("message", .leaf (.ref 2)),
                  ("stack", .leaf (.str "Error\nat g"))]⟩ ∧
      Exposes (toAlert plainEnv oddErrorHeap (.ref 1) (.str "t")).2
        (.obj [("name", .leaf (.str "Error")), ("message", .leaf (.ref 2)),
               ("stack", .leaf (.str "Error\nat g"))])) := by
  refine ⟨⟨rfl, ?_⟩, ⟨rfl, ?_⟩⟩
  · exact .refField 1 "password" (.str "hunter2") (by decide) (by decide) (by decide)
  · refine .objBelow _ "message" (.leaf (.ref 2))
      (List.mem_cons_of_mem _ (List.mem_cons_self _ _)) ?_
    exact .refField 2 "token" (.str "abc") (by decide) (by decide) (by decide)

/-- C8 (amended): when `toAlert` returns an alert for an input that is not a
pre-built alert carrying its own defined `data`, and that is not an `Error` whose
`name` or `message` is itself an object, then at every depth of the alert's `data`
every field whose key matches the sensitive-key pattern holds `[REDACTED]`, and
`data` contains no reference to an object of the input. -/
theorem toAlert_data_redacted (env : Env) (h : Heap) (input defaultType : Val) (alert : Alert)
    (h' : Heap) (hres : toAlert env h input defaultType = (some alert, h'))
    (hdata : looksLikeAlert h input = true → getProp h input "data" = .undefined)
    (herr : isError h input = true →
      isObject (getProp h input "name") = false ∧
      isObject (getProp h input "message") = false) :
    ¬ Exposes h' alert.data ∧ Sanitized alert.data := by
  have hs := toAlert_sanitized env h input defaultType alert h' hres hdata herr
  exact ⟨fun hx => sanitized_not_exposes h' alert.data hx hs, hs⟩

/-- Witness for C8 (amended): `{source: "svc", password: "hunter2"}` yields the data
`{source: "svc", password: "[REDACTED]", message: "An error occurred"}`. -/
theorem toAlert_data_redacted_witness :
    toAlert plainEnv secretAlertHeap (.ref 0) (.str "t")
      = (some ⟨.str "svc", .str "t",
          .obj [("source", .leaf (.str "svc")), ("password", .leaf (.str "[REDACTED]")),
                ("message", .leaf (.str "An error occurred"))]⟩, secretAlertHeap) ∧
    (looksLikeAlert secretAlertHeap (.ref 0) = true →
      getProp secretAlertHeap (.ref 0) "data" = .undefined) ∧
    (isError secretAlertHeap (.ref 0) = true →
      isObject (getProp secretAlertHeap (.ref 0) "name") = false ∧
      isObject (getProp secretAlertHeap (.ref 0) "message") = false) ∧
    ¬ Exposes secretAlertHeap
      (.obj [("source", .leaf (.str "svc")), ("password", .leaf (.str "[REDACTED]")),
             ("message", .leaf (.str "An error occurred"))]) :=
  ⟨rfl, by decide, by decide,
   (toAlert_data_redacted plainEnv secretAlertHeap (.ref 0) (.str "t")
      ⟨.str "svc", .str "t",
        .obj [("source", .leaf (.str "svc")), ("password", .leaf (.str "[REDACTED]")),
              ("message", .leaf (.str "An error occurred"))]⟩ secretAlertHeap rfl
      (by decide) (by decide)).1⟩

/-! ## Trimming -/

theorem dropTrailing_eq_nil_iff (l : List Char) :
    dropTrailing l = [] ↔ l.all isJSWhitespace = true := by
  induction l with
  | nil => simp [dropTrailing]
  | cons c cs ih =>
    simp only [dropTrailing, List.all_cons, Bool.and_eq_true]
    cases hd : dropTrailing cs with
    | nil =>
      have hall := ih.mp hd
      by_cases hc : isJSWhitespace c = true
      · simp [hc, hall]
      · simp [hc]
    | cons x xs =>
      have hnot : ¬ (cs.all isJSWhitespace = true) := fun hall => by
        have := ih.mpr hall
        rw [hd] at this
        exact List.cons_ne_nil _ _ this
      simp [hnot]

theorem dropWhile_all (l : List Char) :
    (l.dropWhile isJSWhitespace).all isJSWhitespace = l.all isJSWhitespace := by
  induction l with
  | nil => rfl
  | cons c cs ih =>
    by_cases hc : isJSWhitespace c = true
    · simp [List.dropWhile, hc, ih]
    · simp [List.dropWhile, hc]

theorem jsTrim_eq_empty_iff (s : String) :
    jsTrim s = "" ↔ s.data.all isJSWhitespace = true := by
  rw [← dropWhile_all, ← dropTrailing_eq_nil_iff]
  constructor
  · intro h
    have := congrArg String.data h
    simpa [jsTrim] using this
  · intro h
    simp [jsTrim, h]

/-! ## Strings and arrays in the sanitizer -/

theorem sanitizeValue_short_string (fuel : Nat) (h : Heap) (s : String) (key : Option String)
    (seen : Seen) (hlen : jsLength s ≤ 200) (hk : isSensitiveKey key = false) :
    sanitizeValue (fuel + 1) h (.str s) key seen = some (some (.leaf (.str s)), seen) := by
  have hl : ¬ (200 < jsLength s) := by omega
  simp [sanitizeValue, hk, isObject, isNullish, isTooLongString, MAX_SANITIZED_LENGTH, hl,
    isPrimitive]

/-- C12 as stated fails: the string `'  hi  '` comes back with its spaces, not as
the trimmed `'hi'`, at the top level and as the value of the field `note`. -/
theorem sanitizeValue_string_not_trimmed :
    jsLength "  hi  " ≤ 200 ∧ jsTrim "  hi  " = "hi" ∧
    sanitizeValue 1 [] (.str "  hi  ") none [] = some (some (.leaf (.str "  hi  ")), []) ∧
    sanitizeValue 1 [] (.str "  hi  ") none []
      ≠ some (some (.leaf (.str (jsTrim "  hi  "))), []) ∧
    sanitize [record [("note", .str "  hi  ")]] (.ref 0)
      = some (.obj [("note", .leaf (.str "  hi  "))]) := by
  refine ⟨by decide, by decide, rfl, ?_, rfl⟩
  intro hc
  have hc1 : sanitizeValue 1 [] (.str "  hi  ") none [] = some (some (.leaf (.str "  hi  ")), []) :=
    rfl
  rw [hc1] at hc
  simp only [Option.some.injEq, Prod.mk.injEq, Tree.leaf.injEq, Val.str.injEq, and_true] at hc
  revert hc
  decide

/-- C12 (amended): a string of at most 200 UTF-16 code units under an absent or
non-sensitive key is returned by `sanitizeValue` as it is, white space included,
at the top level and as the value of a mapping field. -/
theorem sanitizeValue_short_string_unchanged (fuel : Nat) (h : Heap) (s : String)
    (key : Option String) (seen : Seen) (hlen : jsLength s ≤ 200)
    (hk : isSensitiveKey key = false) :
    sanitizeValue (fuel + 1) h (.str s) key seen = some (some (.leaf (.str s)), seen) ∧
    ∀ (k : String) (rest : List (String × Val)) (sanitizedObject : List (String × Tree)),
      isSensitiveKey (some k) = false →
      forEachEntry (sanitizeValue (fuel + 1) h) ((k, .str s) :: rest) sanitizedObject seen =
        forEachEntry (sanitizeValue (fuel + 1) h) rest
          (setProp k (.leaf (.str s)) sanitizedObject) seen := by
  refine ⟨sanitizeValue_short_string fuel h s key seen hlen hk, fun k rest acc hk' => ?_⟩
  simp only [forEachEntry, sanitizeValue_short_string fuel h s (some k) seen hlen hk']

/-- Witness for C12 (amended): `'  hi  '` stays `'  hi  '` without a key. -/
theorem sanitizeValue_short_string_unchanged_witness :
    jsLength "  hi  " ≤ 200 ∧ isSensitiveKey none = false ∧
    sanitizeValue 1 [] (.str "  hi  ") none [] = some (some (.leaf (.str "  hi  ")), []) :=
  ⟨by decide, by decide,
   (sanitizeValue_short_string_unchanged 0 [] "  hi  " none [] (by decide) (by decide)).1⟩

theorem keepItem_eq_not_specDropped (form : Option Tree) :
    keepItem form = !specDropped form := by
  cases form with
  | none => rfl
  | some t =>
    cases t with
    | leaf v =>
      cases v with
      | str s =>
        simp only [keepItem, specDropped]
        by_cases hs : s.data.all isJSWhitespace = true
        · simp [hs, (jsTrim_eq_empty_iff s).mpr hs]
        · have : jsTrim s ≠ "" := fun hc => hs ((jsTrim_eq_empty_iff s).mp hc)
          simp [hs, this]
      | undefined => rfl
      | null => rfl
      | bool b => rfl
      | num n => rfl
      | symbol d => rfl
      | ref a => rfl
    | arr items props => rfl
    | obj props => rfl

theorem filterItems_eq_filterMap (mapped : List (Option Tree)) :
    filterItems mapped = mapped.filterMap fun form => if specDropped form then none else form := by
  induction mapped with
  | nil => rfl
  | cons r rest ih =>
    cases r with
    | none => simp [filterItems, specDropped, ih]
    | some t =>
      simp only [filterItems, keepItem_eq_not_specDropped, ih]
      by_cases hd : specDropped (some t) = true
      · simp [hd, List.filterMap_cons]
      · simp [hd, List.filterMap_cons]

theorem mapItems_iff_sanitizedForms (rec : Sanitizer) (key : Option String) :
    ∀ items seen forms seen',
      mapItems rec key items seen = some (forms, seen') ↔
        SanitizedForms rec key items seen forms seen' := by
  intro items
  induction items with
  | nil =>
    intro seen forms seen'
    constructor
    · intro hres
      simp only [mapItems, Option.some.injEq, Prod.mk.injEq] at hres
      rw [← hres.1, ← hres.2]
      exact .nil seen
    · intro hf
      cases hf
      rfl
  | cons item rest ih =>
    intro seen forms seen'
    constructor
    · intro hres
      cases hrv : rec item key seen with
      | none => simp [mapItems, hrv] at hres
      | some p =>
        obtain ⟨r, s1⟩ := p
        cases hrest : mapItems rec key rest s1 with
        | none => simp [mapItems, hrv, hrest] at hres
        | some q =>
          obtain ⟨rs, s2⟩ := q
          simp only [mapItems, hrv, hrest, Option.some.injEq, Prod.mk.injEq] at hres
          rw [← hres.1, ← hres.2]
          exact .cons item rest seen s1 s2 r rs hrv ((ih _ _ _).mp hrest)
    · intro hf
      cases hf with
      | cons _ _ _ s1 _ r rs hrv hrest =>
        simp only [mapItems, hrv, (ih _ _ _).mpr hrest]

/-- C11: for an array that is not yet in the visited set, under an absent or
non-sensitive key, `sanitizeValue` returns exactly this: the sanitized forms of
the elements in their order (each sanitized under the array's key, the visited
set, with the array added, threaded from one element to the next), without
those that are undefined, null or an empty or whitespace-only string, as a new
array, or `undefined` when nothing remains. -/
theorem sanitizeValue_array_drops_blank (fuel : Nat) (h : Heap) (a : Nat)
    (key : Option String) (seen : Seen) (hk : isSensitiveKey key = false) (ha : a ∉ seen)
    (harr : isArray h (.ref a) = true) (r : Option Tree) (seen' : Seen) :
    sanitizeValue (fuel + 1) h (.ref a) key seen = some (r, seen') ↔
      ∃ forms, SanitizedForms (sanitizeValue fuel h) key (h.elems a) (a :: seen) forms seen' ∧
        r = specArray forms := by
  rw [sanitizeValue_ref_fresh fuel h a key seen hk ha, if_pos harr,
    sanitizeArray_fresh _ h a key seen ha]
  have hspec : ∀ forms : List (Option Tree),
      (if (filterItems forms).length ≠ 0 then some (Tree.arr (filterItems forms) []) else none)
        = specArray forms := by
    intro forms
    rw [filterItems_eq_filterMap]
    unfold specArray
    cases (forms.filterMap fun form => if specDropped form then none else form) with
    | nil => simp
    | cons x xs => simp
  constructor
  · intro hres
    cases hm : mapItems (sanitizeValue fuel h) key (h.elems a) (a :: seen) with
    | none => simp [hm] at hres
    | some q =>
      obtain ⟨forms, s1⟩ := q
      simp only [hm, Option.some.injEq, Prod.mk.injEq] at hres
      refine ⟨forms, ?_, ?_⟩
      · rw [← hres.2]
        exact (mapItems_iff_sanitizedForms _ key _ _ _ _).mp hm
      · rw [← hres.1]
        exact hspec forms
  · rintro ⟨forms, hf, hr⟩
    rw [(mapItems_iff_sanitizedForms _ key _ _ _ _).mpr hf, hr]
    simp only [hspec]

/-- Witness for C11: `['', null, undefined, 'ok']` yields `['ok']`. -/
theorem sanitizeValue_array_drops_blank_witness :
    isSensitiveKey none = false ∧ 0 ∉ ([] : Seen) ∧ isArray blanksHeap (.ref 0) = true ∧
    sanitizeValue 2 blanksHeap (.ref 0) none [] = some (some (.arr [.leaf (.str "ok")] []), [0]) ∧
    ∃ forms, SanitizedForms (sanitizeValue 1 blanksHeap) none (blanksHeap.elems 0) [0] forms [0] ∧
      some (Tree.arr [.leaf (.str "ok")] []) = specArray forms :=
  ⟨by decide, by simp, by decide, rfl,
   (sanitizeValue_array_drops_blank 1 blanksHeap 0 none [] (by decide) (by simp) (by decide)
      (some (.arr [.leaf (.str "ok")] [])) [0]).mp rfl⟩

/-! ## The alert data deriver -/

/-- C13 (the code differs): when the payload's `error` is the empty string, a record
whose `message` is the empty string, or an `Error` whose message is two spaces,
`deriveAlertData` sets `message` to that empty or whitespace-only string. -/
theorem deriveAlertData_blank_message :
    deriveAlertData blankErrorHeap 0 "p"
      = [("process", .str "p"), ("error", .null), ("message", .str "")] ∧
    deriveAlertData blankErrorHeap 1 "p"
      = [("process", .str "p"), ("error", .ref 2), ("message", .str "")] ∧
    deriveAlertData blankErrorHeap 3 "p"
      = [("process", .str "p"), ("error", .ref 4), ("message", .str "  ")] ∧
    needsMessage (deriveAlertData blankErrorHeap 0 "p") = true :=
  ⟨rfl, rfl, rfl, rfl⟩

theorem needsMessage_of_lookup (alertData : Record)
    (hmsg : lookup "message" alertData = none ∨ lookup "message" alertData = some .null ∨
      ∃ m, lookup "message" alertData = some (.str m) ∧ m.data.all isJSWhitespace = true) :
    needsMessage alertData = true := by
  rcases hmsg with hm | hm | ⟨m, hm, hall⟩
  · simp [needsMessage, hm]
  · simp [needsMessage, recordGet, hm, isNullish]
  · have : jsTrim m = "" := (jsTrim_eq_empty_iff m).mpr hall
    simp [needsMessage, recordGet, hm, isNullish, typeOf, this, jsLength]

theorem extractMessage_string (h : Heap) (s processName : String) :
    extractMessage h (.str s) processName = (.str s, true) := by
  simp [extractMessage, isError, typeOf]

/-- C14: when the payload's own `message` is absent, null or a whitespace-only
string and its own `error` is a string `s`, `deriveAlertData` returns the copy of
the payload's own enumerable properties with `process` set to `processName`,
`message` set to `s` and `error` set to null; every other property is carried
over with its value.  The function writes only to that copy. -/
theorem deriveAlertData_string_error (h : Heap) (payload : Nat) (processName s : String)
    (hmsg : lookup "message" (spreadEntries h payload) = none ∨
      lookup "message" (spreadEntries h payload) = some .null ∨
      ∃ m, lookup "message" (spreadEntries h payload) = some (.str m) ∧
        m.data.all isJSWhitespace = true)
    (herr : lookup "error" (spreadEntries h payload) = some (.str s)) :
    deriveAlertData h payload processName =
      setProp "error" .null (setProp "message" (.str s)
        (setProp "process" (.str processName) (spreadEntries h payload))) ∧
    lookup "process" (deriveAlertData h payload processName) = some (.str processName) ∧
    lookup "message" (deriveAlertData h payload processName) = some (.str s) ∧
    lookup "error" (deriveAlertData h payload processName) = some .null ∧
    ∀ k, k ≠ "process" → k ≠ "message" → k ≠ "error" →
      lookup k (deriveAlertData h payload processName) = lookup k (spreadEntries h payload) := by
  have hneeds : needsMessage
      (setProp "process" (.str processName) (spreadEntries h payload)) = true := by
    apply needsMessage_of_lookup
    rw [lookup_setProp_ne "message" "process" _ _ (by decide)]
    exact hmsg
  have herr' : recordGet (setProp "process" (.str processName) (spreadEntries h payload))
      "error" = .str s := by
    simp only [recordGet]
    rw [lookup_setProp_ne "error" "process" _ _ (by decide), herr]
    rfl
  have heq : deriveAlertData h payload processName =
      setProp "error" .null (setProp "message" (.str s)
        (setProp "process" (.str processName) (spreadEntries h payload))) := by
    simp [deriveAlertData, hneeds, herr', extractMessage_string]
  refine ⟨heq, ?_, ?_, ?_, ?_⟩
  · rw [heq, lookup_setProp_ne "process" "error" _ _ (by decide),
      lookup_setProp_ne "process" "message" _ _ (by decide), lookup_setProp_self]
  · rw [heq, lookup_setProp_ne "message" "error" _ _ (by decide), lookup_setProp_self]
  · rw [heq, lookup_setProp_self]
  · intro k h1 h2 h3
    rw [heq, lookup_setProp_ne k "error" _ _ (Ne.symm h3),
      lookup_setProp_ne k "message" _ _ (Ne.symm h2),
      lookup_setProp_ne k "process" _ _ (Ne.symm h1)]

/-- Witness for C14: `({process: 'p', error: 'oops'}, 'p')` yields
`{process: 'p', error: null, message: 'oops'}`. -/
theorem deriveAlertData_string_error_witness :
    lookup "message" (spreadEntries oopsHeap 0) = none ∧
    lookup "error" (spreadEntries oopsHeap 0) = some (.str "oops") ∧
    deriveAlertData oopsHeap 0 "p"
      = [("process", .str "p"), ("error", .null), ("message", .str "oops")] :=
  ⟨by decide, by decide,
   (deriveAlertData_string_error oopsHeap 0 "p" "oops" (Or.inl (by decide)) (by decide)).1⟩

/-! ## Lines of a stack -/

theorem splitLines_ne_nil (cs : List Char) : splitLines cs ≠ [] := by
  induction cs with
  | nil => simp [splitLines]
  | cons c cs ih =>
    simp only [splitLines]
    cases hs : splitLines cs with
    | nil => exact absurd hs ih
    | cons l ls =>
      by_cases hc : c = '\n' <;> simp [hc]

theorem splitLines_no_newline (cs : List Char) : ∀ l ∈ splitLines cs, '\n' ∉ l := by
  induction cs with
  | nil => simp [splitLines]
  | cons c cs ih =>
    intro l hl
    simp only [splitLines] at hl
    cases hs : splitLines cs with
    | nil => exact absurd hs (splitLines_ne_nil cs)
    | cons l0 ls =>
      rw [hs] at hl ih
      by_cases hc : c = '\n'
      · simp only [hc, if_true, List.mem_cons] at hl
        rcases hl with h1 | h1 | h1
        · rw [h1]; simp
        · rw [h1]; exact ih l0 (List.mem_cons_self _ _)
        · exact ih l (List.mem_cons_of_mem _ h1)
      · simp only [hc, if_false, List.mem_cons] at hl
        rcases hl with h1 | h1
        · rw [h1]
          intro hmem
          rcases List.mem_cons.mp hmem with h2 | h2
          · exact hc h2.symm
          · exact ih l0 (List.mem_cons_self _ _) h2
        · exact ih l (List.mem_cons_of_mem _ h1)

theorem splitLines_append_newline (a b : List Char) (ha : '\n' ∉ a) :
    splitLines (a ++ '\n' :: b) = a :: splitLines b := by
  induction a with
  | nil =>
    simp only [List.nil_append, splitLines]
    cases hs : splitLines b with
    | nil => exact absurd hs (splitLines_ne_nil b)
    | cons l ls => simp
  | cons c a ih =>
    have hc : c ≠ '\n' := fun h => ha (by rw [h]; exact List.mem_cons_self _ _)
    have ha' : '\n' ∉ a := fun h => ha (List.mem_cons_of_mem _ h)
    have hstep : splitLines (c :: (a ++ '\n' :: b)) = (c :: a) :: splitLines b := by
      simp only [splitLines, ih ha', hc, if_false]
    exact hstep

theorem splitLines_of_no_newline (a : List Char) (ha : '\n' ∉ a) : splitLines a = [a] := by
  induction a with
  | nil => rfl
  | cons c a ih =>
    have hc : c ≠ '\n' := fun h => ha (by rw [h]; exact List.mem_cons_self _ _)
    have ha' : '\n' ∉ a := fun h => ha (List.mem_cons_of_mem _ h)
    simp only [splitLines, ih ha', hc, if_false]

theorem splitLines_joinLines (ls : List String) (hls : ∀ l ∈ ls, '\n' ∉ l.data)
    (hne : ls ≠ []) : splitLines (joinLines ls).data = ls.map String.data := by
  induction ls with
  | nil => exact absurd rfl hne
  | cons l rest ih =>
    cases rest with
    | nil =>
      simp only [joinLines, List.map_cons, List.map_nil]
      exact splitLines_of_no_newline _ (hls l (List.mem_cons_self _ _))
    | cons l2 rest2 =>
      have hrest := ih (fun x hx => hls x (List.mem_cons_of_mem _ hx)) (by simp)
      simp only [joinLines, String.data_append, List.append_assoc, List.map_cons] at hrest ⊢
      rw [List.singleton_append,
        splitLines_append_newline _ _ (hls l (List.mem_cons_self _ _)), hrest]

/-! ## What trimming leaves -/

theorem mem_of_mem_dropTrailing (l : List Char) : ∀ c ∈ dropTrailing l, c ∈ l := by
  induction l with
  | nil => simp [dropTrailing]
  | cons x xs ih =>
    intro c hc
    simp only [dropTrailing] at hc
    cases hd : dropTrailing xs with
    | nil =>
      rw [hd] at hc
      simp only at hc
      split at hc
      · simp at hc
      · simp only [List.mem_singleton] at hc
        rw [hc]; exact List.mem_cons_self _ _
    | cons y ys =>
      rw [hd] at hc ih
      simp only [List.mem_cons] at hc
      rcases hc with h1 | h1 | h1
      · rw [h1]; exact List.mem_cons_self _ _
      · exact List.mem_cons_of_mem _ (ih c (by rw [h1]; exact List.mem_cons_self _ _))
      · exact List.mem_cons_of_mem _ (ih c (List.mem_cons_of_mem _ h1))

theorem mem_of_mem_jsTrim (s : String) : ∀ c ∈ (jsTrim s).data, c ∈ s.data := by
  intro c hc
  exact (List.dropWhile_suffix isJSWhitespace).subset (mem_of_mem_dropTrailing _ c hc)

theorem dropTrailing_head (l : List Char) (hne : dropTrailing l ≠ []) :
    (dropTrailing l).head? = l.head? := by
  cases l with
  | nil => simp [dropTrailing] at hne
  | cons x xs =>
    simp only [dropTrailing] at hne ⊢
    cases hd : dropTrailing xs with
    | nil =>
      rw [hd] at hne
      simp only at hne ⊢
      split
      · rename_i hx; simp [hx] at hne
      · rfl
    | cons y ys => rfl

theorem dropTrailing_getLast (l : List Char) :
    ∀ c, (dropTrailing l).getLast? = some c → isJSWhitespace c = false := by
  induction l with
  | nil => simp [dropTrailing]
  | cons x xs ih =>
    intro c hc
    simp only [dropTrailing] at hc
    cases hd : dropTrailing xs with
    | nil =>
      rw [hd] at hc
      simp only at hc
      split at hc
      · simp at hc
      · rename_i hx
        simp only [List.getLast?_singleton, Option.some.injEq] at hc
        rw [← hc]; simpa using hx
    | cons y ys =>
      rw [hd] at hc ih
      simp only at hc
      rw [List.getLast?_cons_cons] at hc
      exact ih c hc

theorem dropWhile_head (l : List Char) :
    ∀ c, (l.dropWhile isJSWhitespace).head? = some c → isJSWhitespace c = false := by
  induction l with
  | nil => simp
  | cons x xs ih =>
    intro c hc
    by_cases hx : isJSWhitespace x = true
    · simp only [List.dropWhile, hx] at hc
      exact ih c hc
    · simp only [List.dropWhile, hx, List.head?_cons, Option.some.injEq] at hc
      rw [← hc]; simpa using hx

theorem noOuterWhitespace_jsTrim (s : String) : noOuterWhitespace (jsTrim s) = true := by
  unfold noOuterWhitespace
  simp only [Bool.and_eq_true]
  constructor
  · cases hh : (jsTrim s).data.head? with
    | none => rfl
    | some c =>
      have hne : dropTrailing (s.data.dropWhile isJSWhitespace) ≠ [] := by
        intro h0
        simp [jsTrim, h0] at hh
      have := dropTrailing_head _ hne
      simp only [jsTrim] at hh
      rw [this] at hh
      simp [dropWhile_head _ c hh]
  · cases hh : (jsTrim s).data.getLast? with
    | none => rfl
    | some c =>
      simp only [jsTrim] at hh
      simp [dropTrailing_getLast _ c hh]

/-! ## The truncated stack -/

theorem truncateStack_eq (f : Nat → String) (stack : Val) (hs : truthy stack = true) :
    truncateStack f stack 5 = joinLines ((trimmedLines (jsString f stack)).take 5) := by
  simp only [truncateStack, hs, Bool.not_true, Bool.false_eq_true, if_false]
  show (if (trimmedLines (jsString f stack)).length ≠ 0
    then joinLines ((trimmedLines (jsString f stack)).take 5) else "") = _
  split
  · rfl
  · rename_i hl
    have : trimmedLines (jsString f stack) = [] := by
      apply List.length_eq_zero.mp
      simpa using hl
    rw [this]
    rfl

theorem trimmedLines_eq (text : String) :
    trimmedLines text = ((stackLines text).filter nonBlank).map jsTrim := by
  unfold trimmedLines stackLines
  rw [List.filter_map, List.filter_map, List.map_map]
  congr 1
  apply List.filter_congr
  intro l _
  simp only [Function.comp, nonBlank]
  by_cases hb : (String.mk l).data.all isJSWhitespace = true
  · have := (jsTrim_eq_empty_iff ⟨l⟩).mpr hb
    simp [hb, this]
  · have : jsTrim ⟨l⟩ ≠ "" := fun hc => hb ((jsTrim_eq_empty_iff ⟨l⟩).mp hc)
    simp [hb, this]

theorem mem_trimmedLines (text : String) (l : String) (hl : l ∈ trimmedLines text) :
    l ≠ "" ∧ nonBlank l = true ∧ noOuterWhitespace l = true ∧ '\n' ∉ l.data := by
  unfold trimmedLines at hl
  simp only [List.mem_filter, List.mem_map, decide_eq_true_eq] at hl
  obtain ⟨⟨x, hx, hxl⟩, hne⟩ := hl
  have hno := noOuterWhitespace_jsTrim ⟨x⟩
  rw [hxl] at hno
  refine ⟨hne, ?_, hno, ?_⟩
  · have hdata : l.data ≠ [] := by
      intro h0
      apply hne
      cases l
      simp_all
    unfold noOuterWhitespace at hno
    simp only [Bool.and_eq_true] at hno
    unfold nonBlank
    cases hd : l.data with
    | nil => exact absurd hd hdata
    | cons c cs =>
      have h1 := hno.1
      rw [hd] at h1
      simp only [List.head?_cons, Bool.not_eq_true'] at h1
      simp [h1]
  · intro hmem
    rw [← hxl] at hmem
    exact splitLines_no_newline _ x hx (mem_of_mem_jsTrim ⟨x⟩ _ hmem)

theorem lineCount_joinLines_le (ls : List String) (hls : ∀ l ∈ ls, '\n' ∉ l.data) :
    lineCount (joinLines (ls.take 5)) ≤ 5 := by
  unfold lineCount
  by_cases hne : ls.take 5 = []
  · rw [hne]
    decide
  · rw [splitLines_joinLines _ (fun l hl => hls l (List.mem_of_mem_take hl)) hne,
      List.length_map]
    exact List.length_take_le 5 ls

theorem lineCount_truncateStack (f : Nat → String) (stack : Val) :
    lineCount (truncateStack f stack 5) ≤ 5 := by
  by_cases hs : truthy stack = true
  · rw [truncateStack_eq f stack hs]
    exact lineCount_joinLines_le _ fun l hl => (mem_trimmedLines _ l hl).2.2.2
  · simp only [truncateStack, hs, Bool.not_false, if_true]
    decide

/-- C16: for a stack string, `truncateStack` returns what the specification
describes: the first five (at most) of the lines that are not blank, each
trimmed, in their order, joined by line feeds.  There are at most five such
lines, none is empty or blank, none begins or ends with white space, and when
there is one they are exactly the lines of the result; the result is the empty
string when no line is kept (all lines blank, the empty stack) and when the
stack is absent. -/
theorem truncateStack_spec (f : Nat → String) (stack : String) :
    truncateStack f (.str stack) 5 = specTruncateStack stack ∧
    (specStackLines stack).length ≤ 5 ∧
    (∀ l ∈ specStackLines stack,
      l ≠ "" ∧ nonBlank l = true ∧ noOuterWhitespace l = true ∧ '\n' ∉ l.data) ∧
    (specStackLines stack ≠ [] →
      stackLines (truncateStack f (.str stack) 5) = specStackLines stack) ∧
    lineCount (truncateStack f (.str stack) 5) ≤ 5 ∧
    ((∀ l ∈ stackLines stack, nonBlank l = false) → truncateStack f (.str stack) 5 = "") ∧
    truncateStack f (.str "") 5 = "" ∧
    truncateStack f .undefined 5 = "" ∧ truncateStack f .null 5 = "" := by
  have hspec : specStackLines stack = (trimmedLines stack).take 5 := by
    rw [trimmedLines_eq, ← List.map_take]
    rfl
  have hmem : ∀ l ∈ specStackLines stack,
      l ≠ "" ∧ nonBlank l = true ∧ noOuterWhitespace l = true ∧ '\n' ∉ l.data := by
    intro l hl
    rw [hspec] at hl
    exact mem_trimmedLines stack l (List.mem_of_mem_take hl)
  have hempty : ∀ g : Nat → String, truncateStack g (.str "") 5 = "" := fun g => rfl
  have heq : truncateStack f (.str stack) 5 = specTruncateStack stack := by
    by_cases hs : truthy (.str stack) = true
    · rw [truncateStack_eq f _ hs]
      unfold specTruncateStack
      rw [hspec]
      rfl
    · have hst : stack = "" := by simpa [truthy] using hs
      rw [hst]
      rfl
  refine ⟨heq, ?_, hmem, ?_, lineCount_truncateStack f _, ?_, hempty f, rfl, rfl⟩
  · rw [hspec]
    exact List.length_take_le 5 _
  · intro hne
    rw [heq]
    unfold specTruncateStack stackLines
    rw [splitLines_joinLines _ (fun l hl => (hmem l hl).2.2.2) hne, List.map_map]
    have hid : (String.mk ∘ String.data) = id := funext fun s => rfl
    rw [hid, List.map_id]
  · intro hall
    rw [heq]
    unfold specTruncateStack specStackLines
    have : (stackLines stack).filter nonBlank = [] := by
      rw [List.filter_eq_nil_iff]
      intro l hl
      simp [hall l hl]
    rw [this]
    rfl

/-- Witness for C16: of seven lines, one blank, the first five non-blank ones are
kept, trimmed; a stack of blank lines gives the empty string. -/
theorem truncateStack_spec_witness :
    truncateStack (fun _ => "") (.str " a \n\n  b\nc  \n d\n e\n f") 5 = "a\nb\nc\nd\ne" ∧
    specStackLines " a \n\n  b\nc  \n d\n e\n f" ≠ [] ∧
    stackLines (truncateStack (fun _ => "") (.str " a \n\n  b\nc  \n d\n e\n f") 5)
      = ["a", "b", "c", "d", "e"] ∧
    (∀ l ∈ stackLines " \n\t\n", nonBlank l = false) ∧
    truncateStack (fun _ => "") (.str " \n\t\n") 5 = "" :=
  ⟨(truncateStack_spec (fun _ => "") " a \n\n  b\nc  \n d\n e\n f").1,
   by decide,
   (truncateStack_spec (fun _ => "") " a \n\n  b\nc  \n d\n e\n f").2.2.2.1 (by decide),
   by decide,
   (truncateStack_spec (fun _ => "") " \n\t\n").2.2.2.2.2.1 (by decide)⟩

/-- C15: for an `Error` instance without an own `source`, `type` or `data`
property, `toAlert` returns the resolved default source, the given type, and the
data `{name: e.name, message: normalizeMessage(e), stack: truncateStack(e.stack)}`,
whose stack has at most five lines; the heap is left as it was. -/
theorem toAlert_error_summary (env : Env) (h : Heap) (a : Nat) (defaultType : Val)
    (herr : isError h (.ref a) = true)
    (hsource : (h.obj a).hasOwn "source" = false)
    (htype : (h.obj a).hasOwn "type" = false)
    (hdata : (h.obj a).hasOwn "data" = false) :
    toAlert env h (.ref a) defaultType =
      (some ⟨resolveSource env, defaultType,
        .obj [("name", .leaf (getProp h (.ref a) "name")),
              ("message", .leaf (normalizeMessage h (.ref a))),
              ("stack", .leaf (.str
                (truncateStack env.objectToString (getProp h (.ref a) "stack") 5)))]⟩, h) ∧
    lineCount (truncateStack env.objectToString (getProp h (.ref a) "stack") 5) ≤ 5 := by
  refine ⟨?_, lineCount_truncateStack _ _⟩
  simp [toAlert, truthy, isNumberZero, looksLikeAlert, hsource, htype, hdata, herr,
    buildErrorData, typeOf]

/-- Witness for C15: `new Error('boom')` with the type `err.type` yields the name
`Error`, the message `boom` and the first five non-blank lines of the stack. -/
theorem toAlert_error_summary_witness :
    isError boomHeap (.ref 0) = true ∧
    (boomHeap.obj 0).hasOwn "source" = false ∧ (boomHeap.obj 0).hasOwn "type" = false ∧
    (boomHeap.obj 0).hasOwn "data" = false ∧
    toAlert plainEnv boomHeap (.ref 0) (.str "err.type") =
      (some ⟨.str "ffc-doc-alerting", .str "err.type",
        .obj [("name", .leaf (.str "Error")), ("message", .leaf (.str "boom")),
              ("stack", .leaf (.str "Error: boom\nat a (a.js:1:1)\nat b\nat c\nat d"))]⟩,
       boomHeap) :=
  ⟨by decide, by decide, by decide, by decide,
   (toAlert_error_summary plainEnv boomHeap 0 (.str "err.type")
      (by decide) (by decide) (by decide) (by decide)).1⟩

/-! ## The input after the call -/

/-- C17 (the code differs): for the pre-built alert `{source: "svc", data: {foo:
"bar"}}` the call `toAlert(input, 't')` writes `message` into the input's own
`data` record: before the call `input.data.message` is undefined, after it the
record is `{foo: "bar", message: "An error occurred"}`, so the heap has changed. -/
theorem toAlert_mutates_input_data :
    getProp prebuiltHeap (.ref 1) "message" = .undefined ∧
    (toAlert plainEnv prebuiltHeap (.ref 0) (.str "t")).2 =
      [record [("source", .str "svc"), ("data", .ref 1)],
       record [("foo", .str "bar"), ("message", .str "An error occurred")]] ∧
    getProp (toAlert plainEnv prebuiltHeap (.ref 0) (.str "t")).2 (.ref 1) "message"
      = .str "An error occurred" ∧
    (toAlert plainEnv prebuiltHeap (.ref 0) (.str "t")).2 ≠ prebuiltHeap := by
  refine ⟨rfl, rfl, rfl, ?_⟩
  decide

/-! ## The sensitive-key pattern -/

theorem canon_eq_iff (x c : Char) : canon x = canon c ↔ asciiLower x = asciiLower c := by
  unfold canon asciiLower
  simp only
  split <;> split <;> split <;> split <;> omega

theorem matchHere_lit (w : List Char) :
    ∀ t : List Char,
      matchHere (w.map .chr) t = (w.map asciiLower).isPrefixOf (t.map asciiLower) := by
  induction w with
  | nil => intro t; simp [matchHere]
  | cons c cs ih =>
    intro t
    cases t with
    | nil => simp [matchHere, List.isPrefixOf]
    | cons x xs =>
      simp only [List.map_cons, matchHere, List.isPrefixOf, ih xs]
      congr 1
      rw [Bool.eq_iff_iff]
      simp only [beq_iff_eq]
      rw [canon_eq_iff]
      exact eq_comm

theorem suffixes_eq_tails (l : List Char) : suffixes l = l.tails := by
  induction l with
  | nil => rfl
  | cons c cs ih => simp [suffixes, ih]

theorem matchHere_chr (c : Char) (rest : List Atom) (t : List Char)
    (hm : matchHere (.chr c :: rest) t = true) :
    ∃ x xs, t = x :: xs ∧ matchHere rest xs = true := by
  cases t with
  | nil => simp [matchHere] at hm
  | cons x xs =>
    simp only [matchHere, Bool.and_eq_true] at hm
    exact ⟨x, xs, rfl, hm.2⟩

theorem matchHere_optOneOf (cs : List Char) (rest : List Atom) (t : List Char)
    (hm : matchHere (.optOneOf cs :: rest) t = true) :
    (∃ x xs, t = x :: xs ∧ matchHere rest xs = true) ∨ matchHere rest t = true := by
  cases t with
  | nil =>
    simp only [matchHere] at hm
    exact Or.inr hm
  | cons x xs =>
    simp only [matchHere, Bool.or_eq_true, Bool.and_eq_true] at hm
    rcases hm with h1 | h1
    · exact Or.inl ⟨x, xs, rfl, h1.2⟩
    · exact Or.inr h1

theorem matchHere_lit_append (w : List Char) (rest : List Atom) :
    ∀ t : List Char, matchHere (w.map .chr ++ rest) t = true →
      matchHere (w.map .chr) t = true := by
  induction w with
  | nil => intro t _; simp [matchHere]
  | cons c cs ih =>
    intro t hm
    cases t with
    | nil => simp [matchHere] at hm
    | cons x xs =>
      simp only [List.map_cons, List.cons_append, matchHere, Bool.and_eq_true] at hm ⊢
      exact ⟨hm.1, ih xs hm.2⟩

/-- An alternative of the pattern that matches at a position yields one of the six
words matching at that position or further right. -/
theorem six_of_alternative (alt : List Atom) (halt : alt ∈ SENSITIVE_KEY_PATTERN)
    (t : List Char) (hm : matchHere alt t = true) :
    ∃ t' w, t' <:+ t ∧ w ∈ specSensitiveWords ∧ matchHere (lit w) t' = true := by
  simp only [SENSITIVE_KEY_PATTERN, List.mem_cons, List.mem_singleton, List.not_mem_nil,
    or_false] at halt
  rcases halt with h | h | h | h | h | h | h | h
  · refine ⟨t, "pass", List.suffix_refl t, by simp [specSensitiveWords], ?_⟩
    rw [h] at hm
    exact matchHere_lit_append "pass".data (lit "word") t hm
  · exact ⟨t, "pass", List.suffix_refl t, by simp [specSensitiveWords], h ▸ hm⟩
  · exact ⟨t, "secret", List.suffix_refl t, by simp [specSensitiveWords], h ▸ hm⟩
  · exact ⟨t, "token", List.suffix_refl t, by simp [specSensitiveWords], h ▸ hm⟩
  · exact ⟨t, "key", List.suffix_refl t, by simp [specSensitiveWords], h ▸ hm⟩
  · exact ⟨t, "credential", List.suffix_refl t, by simp [specSensitiveWords], h ▸ hm⟩
  · exact ⟨t, "auth", List.suffix_refl t, by simp [specSensitiveWords], h ▸ hm⟩
  · rw [h] at hm
    obtain ⟨x1, t1, ht1, hm1⟩ := matchHere_chr 'a' _ t hm
    obtain ⟨x2, t2, ht2, hm2⟩ := matchHere_chr 'p' _ t1 hm1
    obtain ⟨x3, t3, ht3, hm3⟩ := matchHere_chr 'i' _ t2 hm2
    have hs3 : t3 <:+ t := by
      rw [ht1, ht2, ht3]
      exact ⟨[x1, x2, x3], rfl⟩
    rcases matchHere_optOneOf _ _ t3 hm3 with ⟨x4, t4, ht4, hm4⟩ | hm4
    · refine ⟨t4, "key", ?_, by simp [specSensitiveWords], hm4⟩
      exact List.IsSuffix.trans ⟨[x4], by rw [ht4]; rfl⟩ hs3
    · exact ⟨t3, "key", hs3, by simp [specSensitiveWords], hm4⟩

theorem word_mem_pattern (w : String) (hw : w ∈ specSensitiveWords) :
    lit w ∈ SENSITIVE_KEY_PATTERN := by
  simp only [specSensitiveWords, List.mem_cons, List.mem_singleton, List.not_mem_nil,
    or_false] at hw
  rcases hw with h | h | h | h | h | h <;> rw [h] <;> simp [SENSITIVE_KEY_PATTERN]

theorem regexTest_iff_specSensitive (key : String) :
    regexTest SENSITIVE_KEY_PATTERN key = true ↔ specSensitive key = true := by
  simp only [regexTest, specSensitive, containsIgnoreCase, List.any_eq_true, suffixes_eq_tails,
    List.mem_tails]
  constructor
  · rintro ⟨t, ht, alt, halt, hm⟩
    obtain ⟨t', w, ht', hw, hm'⟩ := six_of_alternative alt halt t hm
    refine ⟨w, hw, t', List.IsSuffix.trans ht' ht, ?_⟩
    rw [← matchHere_lit]
    exact hm'
  · rintro ⟨w, hw, t, ht, hm⟩
    refine ⟨t, ht, lit w, word_mem_pattern w hw, ?_⟩
    unfold lit
    rw [matchHere_lit]
    exact hm

/-- C19: `isSensitiveKey` is the six-substring test: a key is sensitive exactly
when it contains, ASCII-case-insensitively and anywhere, one of `pass`, `secret`,
`token`, `key`, `credential`, `auth` (the alternatives `password` and
`api[_-]?key` add nothing).  So `monkey`, `author` and `passenger` are sensitive,
and the empty key is not. -/
theorem isSensitiveKey_eq_specSensitive (key : String) :
    isSensitiveKey (some key) = specSensitive key ∧
    isSensitiveKey (some "monkey") = true ∧ isSensitiveKey (some "author") = true ∧
    isSensitiveKey (some "passenger") = true ∧ isSensitiveKey (some "") = false ∧
    isSensitiveKey (some "Auth-Token") = true ∧ isSensitiveKey (some "name") = false := by
  refine ⟨?_, by decide, by decide, by decide, by decide, by decide, by decide⟩
  rw [Bool.eq_iff_iff]
  simp only [isSensitiveKey, Bool.and_eq_true, decide_eq_true_eq]
  rw [regexTest_iff_specSensitive]
  constructor
  · exact fun hk => hk.2
  · intro hs
    refine ⟨?_, hs⟩
    intro hempty
    rw [hempty] at hs
    revert hs
    decide

/-! ## The normal form of sanitized values -/

theorem normal_redactedTree : Normal redactedTree := .leaf _ rfl rfl (by decide)

theorem normal_circularTree : Normal circularTree := .leaf _ rfl rfl (by decide)

theorem dense_of_normal (t : Tree) (hn : Normal t) : Dense t := by
  induction hn with
  | leaf v _ hv _ => exact .leaf v hv
  | arr items hne _ _ ih => exact .arr items [] hne ih (fun k t hmem => by simp at hmem)
  | obj props hne _ _ _ ih => exact .obj props hne ih

theorem keys_setProp {α : Type} (k : String) (v : α) (l : List (String × α)) :
    (setProp k v l).map Prod.fst =
      if k ∈ l.map Prod.fst then l.map Prod.fst else l.map Prod.fst ++ [k] := by
  induction l with
  | nil => simp [setProp]
  | cons p rest ih =>
    obtain ⟨k', v'⟩ := p
    by_cases hk : k' = k
    · subst hk
      simp [setProp]
    · have hk' : ¬ k = k' := fun h => hk h.symm
      simp only [setProp, hk, if_false, List.map_cons, ih, List.mem_cons, hk', false_or]
      split <;> simp

theorem nodup_keys_setProp {α : Type} (k : String) (v : α) (l : List (String × α))
    (hl : (l.map Prod.fst).Nodup) : ((setProp k v l).map Prod.fst).Nodup := by
  rw [keys_setProp]
  split
  · exact hl
  · rename_i hk
    rw [List.nodup_append]
    refine ⟨hl, List.nodup_singleton k, ?_⟩
    intro x hx hx'
    simp only [List.mem_singleton] at hx'
    exact hk (hx' ▸ hx)

theorem setProp_ne_nil {α : Type} (k : String) (v : α) (l : List (String × α)) :
    setProp k v l ≠ [] := by
  cases l with
  | nil => simp [setProp]
  | cons p rest =>
    obtain ⟨k', v'⟩ := p
    simp only [setProp]
    split <;> simp

/-- What the fields collected by `sanitizeObject` satisfy. -/
theorem forEachEntry_normal (rec : Sanitizer)
    (hrec : ∀ v k s t s', rec v k s = some (some t, s') →
      Normal t ∧ (isSensitiveKey k = true → t = redactedTree)) :
    ∀ es acc s props s', forEachEntry rec es acc s = some (props, s') →
      (acc.map Prod.fst).Nodup →
      (∀ k t, (k, t) ∈ acc →
        (isSensitiveKey (some k) = true → t = redactedTree) ∧ Normal t) →
      (props.map Prod.fst).Nodup ∧
      ∀ k t, (k, t) ∈ props →
        (isSensitiveKey (some k) = true → t = redactedTree) ∧ Normal t := by
  intro es
  induction es with
  | nil =>
    intro acc s props s' hres hnd hacc
    simp only [forEachEntry, Option.some.injEq, Prod.mk.injEq] at hres
    rw [← hres.1]
    exact ⟨hnd, hacc⟩
  | cons e rest ih =>
    obtain ⟨key, value⟩ := e
    intro acc s props s' hres hnd hacc
    cases hrv : rec value (some key) s with
    | none => simp [forEachEntry, hrv] at hres
    | some q =>
      obtain ⟨r, s1⟩ := q
      cases r with
      | none =>
        simp only [forEachEntry, hrv] at hres
        exact ih _ _ _ _ hres hnd hacc
      | some t0 =>
        simp only [forEachEntry, hrv] at hres
        have h0 := hrec _ _ _ _ _ hrv
        refine ih _ _ _ _ hres (nodup_keys_setProp key t0 acc hnd) ?_
        intro k t hmem
        rcases mem_setProp key t0 acc (k, t) hmem with heq | hold
        · simp only [Prod.mk.injEq] at heq
          rw [heq.1, heq.2]
          exact ⟨h0.2, h0.1⟩
        · exact hacc k t hold

theorem mapItems_normal (rec : Sanitizer) (key : Option String)
    (hrec : ∀ v k s t s', rec v k s = some (some t, s') →
      Normal t ∧ (isSensitiveKey k = true → t = redactedTree)) :
    ∀ items s mapped s', mapItems rec key items s = some (mapped, s') →
      ∀ t, some t ∈ mapped → Normal t := by
  intro items
  induction items with
  | nil =>
    intro s mapped s' hres t ht
    simp only [mapItems, Option.some.injEq, Prod.mk.injEq] at hres
    rw [← hres.1] at ht
    simp at ht
  | cons item rest ih =>
    intro s mapped s' hres t ht
    cases hrv : rec item key s with
    | none => simp [mapItems, hrv] at hres
    | some q =>
      obtain ⟨r, s1⟩ := q
      cases hrest : mapItems rec key rest s1 with
      | none => simp [mapItems, hrv, hrest] at hres
      | some q2 =>
        obtain ⟨rs, s2⟩ := q2
        simp only [mapItems, hrv, hrest, Option.some.injEq, Prod.mk.injEq] at hres
        rw [← hres.1] at ht
        rcases List.mem_cons.mp ht with h1 | h1
        · rw [← h1] at hrv
          exact (hrec _ _ _ _ _ hrv).1
        · exact ih _ _ _ hrest t h1

theorem keepItem_of_mem_filterItems (mapped : List (Option Tree)) (t : Tree)
    (ht : t ∈ filterItems mapped) : keepItem (some t) = true := by
  induction mapped with
  | nil => simp [filterItems] at ht
  | cons r rest ih =>
    cases r with
    | none =>
      simp only [filterItems] at ht
      exact ih ht
    | some t0 =>
      simp only [filterItems] at ht
      split at ht
      · rename_i hk
        rcases List.mem_cons.mp ht with h1 | h1
        · rw [h1]; exact hk
        · exact ih h1
      · exact ih ht

theorem sanitizeValue_normal (h : Heap) :
    ∀ fuel v k s t s', sanitizeValue fuel h v k s = some (some t, s') →
      Normal t ∧ (isSensitiveKey k = true → t = redactedTree) := by
  intro fuel
  induction fuel with
  | zero => intro v k s t s' hres; simp [sanitizeValue] at hres
  | succ fuel ih =>
    intro v k s t s' hres
    by_cases hk : isSensitiveKey k = true
    · rw [sanitizeValue_of_sensitive fuel h v k s hk] at hres
      simp only [Option.some.injEq, Prod.mk.injEq] at hres
      rw [← hres.1]
      exact ⟨normal_redactedTree, fun _ => rfl⟩
    · have hk' : isSensitiveKey k = false := by simpa using hk
      refine ⟨?_, fun hc => absurd hc hk⟩
      cases v with
      | ref a =>
        by_cases hs : a ∈ s
        · rw [sanitizeValue_ref_seen fuel h a k s hk' hs] at hres
          simp only [Option.some.injEq, Prod.mk.injEq] at hres
          rw [← hres.1]
          exact normal_circularTree
        · rw [sanitizeValue_ref_fresh fuel h a k s hk' hs] at hres
          split at hres
          · rw [sanitizeArray_fresh _ h a k s hs] at hres
            cases hm : mapItems (sanitizeValue fuel h) k (h.elems a) (a :: s) with
            | none => simp [hm] at hres
            | some q =>
              obtain ⟨mapped, s1⟩ := q
              simp only [hm, Option.some.injEq, Prod.mk.injEq] at hres
              obtain ⟨hr, _⟩ := hres
              split at hr
              · rename_i hlen
                simp only [Option.some.injEq] at hr
                rw [← hr]
                refine .arr _ (fun h0 => hlen (by rw [h0]; rfl)) (fun t0 ht0 => ?_)
                  (fun t0 ht0 => keepItem_of_mem_filterItems _ _ ht0)
                exact mapItems_normal _ k ih _ _ _ _ hm t0 (mem_filterItems _ _ ht0)
              · simp at hr
          · rw [sanitizeObject_fresh _ h a s hs] at hres
            cases hm : forEachEntry (sanitizeValue fuel h) (h.obj a).own [] (a :: s) with
            | none => simp [hm] at hres
            | some q =>
              obtain ⟨props, s1⟩ := q
              simp only [hm, Option.some.injEq, Prod.mk.injEq] at hres
              obtain ⟨hr, _⟩ := hres
              split at hr
              · rename_i hlen
                simp only [Option.some.injEq] at hr
                rw [← hr]
                have hp := forEachEntry_normal _ ih _ _ _ _ _ hm (by simp)
                  (fun k0 t0 hmem => by simp at hmem)
                exact .obj _ (fun h0 => hlen (by rw [h0]; rfl)) hp.1
                  (fun k0 t0 hmem => (hp.2 k0 t0 hmem).1)
                  (fun k0 t0 hmem => (hp.2 k0 t0 hmem).2)
              · simp at hr
      | undefined => simp [sanitizeValue, hk, isObject, isNullish] at hres
      | null => simp [sanitizeValue, hk, isObject, isNullish] at hres
      | bool b =>
        simp [sanitizeValue, hk, isObject, isNullish, isTooLongString, isPrimitive] at hres
        rw [← hres.1]
        exact .leaf _ rfl rfl rfl
      | num n =>
        simp [sanitizeValue, hk, isObject, isNullish, isTooLongString, isPrimitive] at hres
        rw [← hres.1]
        exact .leaf _ rfl rfl rfl
      | symbol d =>
        simp [sanitizeValue, hk, isObject, isNullish, isTooLongString, isPrimitive] at hres
        rw [← hres.1]
        exact .leaf _ rfl rfl rfl
      | str x =>
        simp only [sanitizeValue, hk, isObject, isNullish, isPrimitive, Bool.false_and,
          Bool.false_eq_true, if_false] at hres
        split at hres
        · simp only [Option.some.injEq, Prod.mk.injEq] at hres
          rw [← hres.1]
          exact normal_redactedTree
        · rename_i hlong
          simp only [Option.some.injEq, Prod.mk.injEq] at hres
          rw [← hres.1]
          exact .leaf _ rfl rfl (by simpa using hlong)

theorem sanitize_normal (h : Heap) (v : Val) (t : Tree) (hres : sanitize h v = some t) :
    Normal t := by
  unfold sanitize at hres
  cases hm : sanitizeValue (h.length + 1) h v none [] with
  | none => simp [hm] at hres
  | some q =>
    obtain ⟨r, s1⟩ := q
    simp only [hm] at hres
    rw [hres] at hm
    exact (sanitizeValue_normal h _ _ _ _ _ _ hm).1

/-- C18: a defined result of `sanitizeValue` contains, at no depth, an empty
mapping, an empty sequence, or a null or undefined field or element; in
`sanitizeObject` a field whose sanitized value is undefined leaves the record
under construction as it is. -/
theorem sanitizeValue_dense (fuel : Nat) (h : Heap) (v : Val) (key : Option String)
    (seen : Seen) (t : Tree) (seen' : Seen)
    (hres : sanitizeValue fuel h v key seen = some (some t, seen')) :
    Dense t ∧
    ∀ (k : String) (value : Val) (rest : List (String × Val))
      (sanitizedObject : List (String × Tree)) (s s1 : Seen),
      sanitizeValue fuel h value (some k) s = some (none, s1) →
      forEachEntry (sanitizeValue fuel h) ((k, value) :: rest) sanitizedObject s =
        forEachEntry (sanitizeValue fuel h) rest sanitizedObject s1 := by
  refine ⟨dense_of_normal t (sanitizeValue_normal h fuel v key seen t seen' hres).1, ?_⟩
  intro k value rest acc s s1 hnone
  simp only [forEachEntry, hnone]

/-- Witness for C18: `{a: null, b: [''], c: {}, d: {x: 1}}` yields `{d: {x: 1}}`,
which is dense; `{a: null}` and `{a: {}}` yield undefined. -/
theorem sanitizeValue_dense_witness :
    sanitizeValue 3 sparseHeap (.ref 0) none []
      = some (some (.obj [("d", .obj [("x", .leaf (.num (.int 1)))])]), [3, 2, 1, 0]) ∧
    Dense (.obj [("d", .obj [("x", .leaf (.num (.int 1)))])]) ∧
    sanitize sparseHeap (.ref 4) = none ∧
    sanitize sparseHeap (.ref 5) = none :=
  ⟨rfl,
   (sanitizeValue_dense 3 sparseHeap (.ref 0) none []
      (.obj [("d", .obj [("x", .leaf (.num (.int 1)))])]) [3, 2, 1, 0] rfl).1,
   rfl, rfl⟩

/-! ## Sanitizing a sanitized value again -/

theorem lookup_none_of_not_mem_keys {α : Type} (k : String) (l : List (String × α))
    (hk : k ∉ l.map Prod.fst) : lookup k l = none := by
  induction l with
  | nil => rfl
  | cons p rest ih =>
    obtain ⟨k', v'⟩ := p
    simp only [List.map_cons, List.mem_cons, not_or] at hk
    simp only [lookup, Ne.symm hk.1, if_false]
    exact ih hk.2

theorem filterItems_map_some (items : List Tree)
    (hkeep : ∀ t, t ∈ items → keepItem (some t) = true) :
    filterItems (items.map some) = items := by
  induction items with
  | nil => rfl
  | cons t rest ih =>
    simp only [List.map_cons, filterItems, hkeep t (List.mem_cons_self _ _), if_true]
    rw [ih fun x hx => hkeep x (List.mem_cons_of_mem _ hx)]

theorem resanitize_entries (h' : Heap) (fuel : Nat)
    (ih : ∀ v' t as, readBack fuel h' v' = some (t, as) → as.Nodup → Normal t →
      ∀ key seen, isSensitiveKey key = false → (∀ x, x ∈ as → x ∉ seen) →
        ∃ seen', sanitizeValue fuel h' v' key seen = some (some t, seen') ∧
          ∀ x, x ∈ seen' → x ∈ seen ∨ x ∈ as) :
    ∀ es props as0, readEntries (readBack fuel h') es = some (props, as0) → as0.Nodup →
      (props.map Prod.fst).Nodup →
      (∀ k t, (k, t) ∈ props → isSensitiveKey (some k) = true → t = redactedTree) →
      (∀ k t, (k, t) ∈ props → Normal t) →
      ∀ acc seen, (∀ x, x ∈ as0 → x ∉ seen) →
        (∀ k, k ∈ props.map Prod.fst → k ∉ acc.map Prod.fst) →
        ∃ seen', forEachEntry (sanitizeValue fuel h') es acc seen = some (acc ++ props, seen') ∧
          ∀ x, x ∈ seen' → x ∈ seen ∨ x ∈ as0 := by
  intro es
  induction es with
  | nil =>
    intro props as0 hread _ _ _ _ acc seen _ _
    simp only [readEntries, Option.some.injEq, Prod.mk.injEq] at hread
    rw [← hread.1]
    exact ⟨seen, by simp [forEachEntry], fun x hx => Or.inl hx⟩
  | cons e rest ihl =>
    obtain ⟨k, cv⟩ := e
    intro props as0 hread hnd hkeys hsens hnorm acc seen hdisj hacc
    cases hr : readBack fuel h' cv with
    | none => simp [readEntries, hr] at hread
    | some p =>
      obtain ⟨ct, cas⟩ := p
      cases hrest : readEntries (readBack fuel h') rest with
      | none => simp [readEntries, hr, hrest] at hread
      | some q =>
        obtain ⟨props', bs⟩ := q
        simp only [readEntries, hr, hrest, Option.some.injEq, Prod.mk.injEq] at hread
        obtain ⟨hprops, has0⟩ := hread
        subst hprops
        subst has0
        rw [List.nodup_append] at hnd
        obtain ⟨hcas, hbs, hcb⟩ := hnd
        simp only [List.map_cons, List.nodup_cons] at hkeys
        obtain ⟨hknew, hkeys'⟩ := hkeys
        have hkacc : k ∉ acc.map Prod.fst := hacc k (by simp)
        have hset : ∀ t : Tree, setProp k t acc = acc ++ [(k, t)] := fun t =>
          setProp_of_lookup_none k t acc (lookup_none_of_not_mem_keys k acc hkacc)
        have hacc' : ∀ k', k' ∈ props'.map Prod.fst →
            k' ∉ (acc ++ [(k, ct)]).map Prod.fst := by
          intro k' hk' hmem
          simp only [List.map_append, List.map_cons, List.map_nil, List.mem_append,
            List.mem_singleton] at hmem
          rcases hmem with h1 | h1
          · exact hacc k' (by simp [hk']) h1
          · exact hknew (h1 ▸ hk')
        have hsens' : ∀ k' t, (k', t) ∈ props' → isSensitiveKey (some k') = true →
            t = redactedTree := fun k' t hm => hsens k' t (List.mem_cons_of_mem _ hm)
        have hnorm' : ∀ k' t, (k', t) ∈ props' → Normal t :=
          fun k' t hm => hnorm k' t (List.mem_cons_of_mem _ hm)
        by_cases hk : isSensitiveKey (some k) = true
        · have hct := hsens k ct (List.mem_cons_self _ _) hk
          cases fuel with
          | zero => simp [readBack] at hr
          | succ f =>
            have hs := sanitizeValue_of_sensitive f h' cv (some k) seen hk
            obtain ⟨seen', hfe, hsub⟩ := ihl props' bs hrest hbs hkeys' hsens' hnorm'
              (acc ++ [(k, ct)]) seen (fun x hx => hdisj x (List.mem_append_right _ hx)) hacc'
            refine ⟨seen', ?_, fun x hx => ?_⟩
            · simp only [forEachEntry, hs, hset]
              rw [← hct, hfe]
              simp
            · rcases hsub x hx with h1 | h1
              · exact Or.inl h1
              · exact Or.inr (List.mem_append_right _ h1)
        · have hk' : isSensitiveKey (some k) = false := by simpa using hk
          obtain ⟨seen1, hs, hsub1⟩ := ih cv ct cas hr hcas
            (hnorm k ct (List.mem_cons_self _ _)) (some k) seen hk'
            (fun x hx => hdisj x (List.mem_append_left _ hx))
          have hdisj1 : ∀ x, x ∈ bs → x ∉ seen1 := by
            intro x hx hx1
            rcases hsub1 x hx1 with h1 | h1
            · exact hdisj x (List.mem_append_right _ hx) h1
            · exact hcb h1 hx
          obtain ⟨seen', hfe, hsub⟩ := ihl props' bs hrest hbs hkeys' hsens' hnorm'
            (acc ++ [(k, ct)]) seen1 hdisj1 hacc'
          refine ⟨seen', ?_, fun x hx => ?_⟩
          · simp only [forEachEntry, hs, hset]
            rw [hfe]
            simp
          · rcases hsub x hx with h1 | h1
            · rcases hsub1 x h1 with h2 | h2
              · exact Or.inl h2
              · exact Or.inr (List.mem_append_left _ h2)
            · exact Or.inr (List.mem_append_right _ h1)

theorem resanitize_items (h' : Heap) (fuel : Nat)
    (ih : ∀ v' t as, readBack fuel h' v' = some (t, as) → as.Nodup → Normal t →
      ∀ key seen, isSensitiveKey key = false → (∀ x, x ∈ as → x ∉ seen) →
        ∃ seen', sanitizeValue fuel h' v' key seen = some (some t, seen') ∧
          ∀ x, x ∈ seen' → x ∈ seen ∨ x ∈ as)
    (key : Option String) (hkey : isSensitiveKey key = false) :
    ∀ elems items as1, readItems (readBack fuel h') elems = some (items, as1) → as1.Nodup →
      (∀ t, t ∈ items → Normal t) →
      ∀ seen, (∀ x, x ∈ as1 → x ∉ seen) →
        ∃ seen', mapItems (sanitizeValue fuel h') key elems seen
            = some (items.map some, seen') ∧
          ∀ x, x ∈ seen' → x ∈ seen ∨ x ∈ as1 := by
  intro elems
  induction elems with
  | nil =>
    intro items as1 hread _ _ seen _
    simp only [readItems, Option.some.injEq, Prod.mk.injEq] at hread
    rw [← hread.1]
    exact ⟨seen, by simp [mapItems], fun x hx => Or.inl hx⟩
  | cons cv rest ihl =>
    intro items as1 hread hnd hnorm seen hdisj
    cases hr : readBack fuel h' cv with
    | none => simp [readItems, hr] at hread
    | some p =>
      obtain ⟨ct, cas⟩ := p
      cases hrest : readItems (readBack fuel h') rest with
      | none => simp [readItems, hr, hrest] at hread
      | some q =>
        obtain ⟨items', bs⟩ := q
        simp only [readItems, hr, hrest, Option.some.injEq, Prod.mk.injEq] at hread
        obtain ⟨hitems, has1⟩ := hread
        subst hitems
        subst has1
        rw [List.nodup_append] at hnd
        obtain ⟨hcas, hbs, hcb⟩ := hnd
        obtain ⟨seen1, hs, hsub1⟩ := ih cv ct cas hr hcas
          (hnorm ct (List.mem_cons_self _ _)) key seen hkey
          (fun x hx => hdisj x (List.mem_append_left _ hx))
        have hdisj1 : ∀ x, x ∈ bs → x ∉ seen1 := by
          intro x hx hx1
          rcases hsub1 x hx1 with h1 | h1
          · exact hdisj x (List.mem_append_right _ hx) h1
          · exact hcb h1 hx
        obtain ⟨seen', hfe, hsub⟩ := ihl items' bs hrest hbs
          (fun t ht => hnorm t (List.mem_cons_of_mem _ ht)) seen1 hdisj1
        refine ⟨seen', ?_, fun x hx => ?_⟩
        · simp only [mapItems, hs, hfe, List.map_cons]
        · rcases hsub x hx with h1 | h1
          · rcases hsub1 x h1 with h2 | h2
            · exact Or.inl h2
            · exact Or.inr (List.mem_append_left _ h2)
          · exact Or.inr (List.mem_append_right _ h1)

theorem resanitize (h' : Heap) :
    ∀ fuel v' t as, readBack fuel h' v' = some (t, as) → as.Nodup → Normal t →
      ∀ key seen, isSensitiveKey key = false → (∀ x, x ∈ as → x ∉ seen) →
        ∃ seen', sanitizeValue fuel h' v' key seen = some (some t, seen') ∧
          ∀ x, x ∈ seen' → x ∈ seen ∨ x ∈ as := by
  intro fuel
  induction fuel with
  | zero => intro v' t as hread; simp [readBack] at hread
  | succ fuel ih =>
    intro v' t as hread hnd hnorm key seen hkey hdisj
    have hleaf : ∀ v : Val, isObject v = false → readBack (fuel + 1) h' v = some (t, as) →
        ∃ seen', sanitizeValue (fuel + 1) h' v key seen = some (some t, seen') ∧
          ∀ x, x ∈ seen' → x ∈ seen ∨ x ∈ as := by
      intro v hv hrd
      have hrd' : some (Tree.leaf v, ([] : List Nat)) = some (t, as) := by
        rw [← hrd]
        cases v <;> first | rfl | simp [isObject] at hv
      simp only [Option.some.injEq, Prod.mk.injEq] at hrd'
      obtain ⟨ht, _⟩ := hrd'
      subst ht
      refine ⟨seen, ?_, fun x hx => Or.inl hx⟩
      cases hnorm with
      | leaf _ _ hnull hlong =>
        cases v with
        | ref a => simp [isObject] at hv
        | undefined => simp [isNullish] at hnull
        | null => simp [isNullish] at hnull
        | bool b =>
          simp [sanitizeValue, hkey, isObject, isNullish, isTooLongString, isPrimitive]
        | num n =>
          simp [sanitizeValue, hkey, isObject, isNullish, isTooLongString, isPrimitive]
        | symbol d =>
          simp [sanitizeValue, hkey, isObject, isNullish, isTooLongString, isPrimitive]
        | str s =>
          simp [sanitizeValue, hkey, isObject, isNullish, hlong, isPrimitive]
    cases v' with
    | ref a =>
      simp only [readBack] at hread
      cases hcls : (h'.obj a).cls with
      | plain =>
        rw [hcls] at hread
        simp only at hread
        cases hre : readEntries (readBack fuel h') (h'.obj a).own with
        | none => simp [hre] at hread
        | some p =>
          obtain ⟨props, as0⟩ := p
          simp only [hre, Option.some.injEq, Prod.mk.injEq] at hread
          obtain ⟨ht, has⟩ := hread
          subst ht
          subst has
          cases hnorm with
          | obj _ hne hkeys hsens hn =>
            have ha : a ∉ seen := hdisj a (List.mem_cons_self _ _)
            rw [List.nodup_cons] at hnd
            obtain ⟨seen', hfe, hsub⟩ := resanitize_entries h' fuel ih _ props as0 hre hnd.2
              hkeys hsens hn [] (a :: seen)
              (fun x hx hmem => by
                rcases List.mem_cons.mp hmem with h1 | h1
                · exact hnd.1 (h1 ▸ hx)
                · exact hdisj x (List.mem_cons_of_mem _ hx) h1)
              (fun k _ hmem => by simp at hmem)
            refine ⟨seen', ?_, fun x hx => ?_⟩
            · have harr : ¬ (isArray h' (.ref a) = true) := by simp [isArray, hcls]
              rw [sanitizeValue_ref_fresh fuel h' a key seen hkey ha, if_neg harr,
                sanitizeObject_fresh _ h' a seen ha, hfe]
              have hlen : props.length ≠ 0 := fun h0 => hne (List.length_eq_zero.mp h0)
              simp [hlen]
            · rcases hsub x hx with h1 | h1
              · rcases List.mem_cons.mp h1 with h2 | h2
                · exact Or.inr (h2 ▸ List.mem_cons_self _ _)
                · exact Or.inl h2
              · exact Or.inr (List.mem_cons_of_mem _ h1)
      | array elems =>
        rw [hcls] at hread
        simp only at hread
        cases hri : readItems (readBack fuel h') elems with
        | none => simp [hri] at hread
        | some p =>
          obtain ⟨items, as1⟩ := p
          cases hre : readEntries (readBack fuel h') (h'.obj a).own with
          | none => simp [hri, hre] at hread
          | some q =>
            obtain ⟨props, bs⟩ := q
            simp only [hri, hre, Option.some.injEq, Prod.mk.injEq] at hread
            obtain ⟨ht, has⟩ := hread
            subst ht
            subst has
            cases hnorm with
            | arr _ hne hn hkeep =>
              have ha : a ∉ seen := hdisj a (List.mem_cons_self _ _)
              rw [List.nodup_cons, List.nodup_append] at hnd
              obtain ⟨hanew, has1, _, _⟩ := hnd
              obtain ⟨seen', hfe, hsub⟩ := resanitize_items h' fuel ih key hkey elems items as1
                hri has1 hn (a :: seen)
                (fun x hx hmem => by
                  rcases List.mem_cons.mp hmem with h1 | h1
                  · exact hanew (h1 ▸ List.mem_append_left _ hx)
                  · exact hdisj x (List.mem_cons_of_mem _ (List.mem_append_left _ hx)) h1)
              refine ⟨seen', ?_, fun x hx => ?_⟩
              · have harr : isArray h' (.ref a) = true := by simp [isArray, hcls]
                have helems : h'.elems a = elems := by simp [Heap.elems, hcls]
                rw [sanitizeValue_ref_fresh fuel h' a key seen hkey ha, if_pos harr,
                  sanitizeArray_fresh _ h' a key seen ha, helems, hfe]
                have hlen : items.length ≠ 0 := fun h0 => hne (List.length_eq_zero.mp h0)
                simp [filterItems_map_some items hkeep, hlen]
              · rcases hsub x hx with h1 | h1
                · rcases List.mem_cons.mp h1 with h2 | h2
                  · exact Or.inr (h2 ▸ List.mem_cons_self _ _)
                  · exact Or.inl h2
                · exact Or.inr (List.mem_cons_of_mem _ (List.mem_append_left _ h1))
      | error =>
        rw [hcls] at hread
        simp at hread
    | undefined => exact hleaf _ rfl hread
    | null => exact hleaf _ rfl hread
    | bool b => exact hleaf _ rfl hread
    | num n => exact hleaf _ rfl hread
    | str s => exact hleaf _ rfl hread
    | symbol d => exact hleaf _ rfl hread

theorem sanitize_of_sanitizeValue (h : Heap) (v : Val) (fuel : Nat) (r : Option Tree)
    (seen' : Seen) (hres : sanitizeValue fuel h v none [] = some (r, seen')) :
    sanitize h v = r := by
  unfold sanitize
  have hsome := sanitizeValue_isSome h (h.length + 1) v none []
    (by have := unvisited_le h []; omega)
  cases hm : sanitizeValue (h.length + 1) h v none [] with
  | none => simp [hm] at hsome
  | some q =>
    obtain ⟨r0, s0⟩ := q
    have h1 := sanitizeValue_fuel_add h _ v none [] _ hm fuel
    have h2 := sanitizeValue_fuel_add h _ v none [] _ hres (h.length + 1)
    rw [Nat.add_comm] at h2
    rw [h1] at h2
    simp only [Option.some.injEq, Prod.mk.injEq] at h2
    exact h2.1

/-- C20: `sanitizeValue` is idempotent.  When `sanitizeValue(v)` (no key, fresh
visited set) returns the value `t`, then sanitizing `t` again returns `t`: for
every heap value `v'` that unfolds to `t` as a tree, every composite of it a
record or array of its own (no address met twice, which is how the freshly built
result lies in memory), `sanitizeValue(v')` is `t`. -/
theorem sanitize_idempotent (h : Heap) (v : Val) (t : Tree) (h' : Heap) (v' : Val)
    (fuel : Nat) (as : List Nat)
    (hfirst : sanitize h v = some t)
    (hcopy : readBack fuel h' v' = some (t, as))
    (htree : as.Nodup) :
    sanitize h' v' = some t := by
  obtain ⟨seen', hres, _⟩ := resanitize h' fuel v' t as hcopy htree (sanitize_normal h v t hfirst)
    none [] rfl (fun x _ hx => by simp at hx)
  exact sanitize_of_sanitizeValue h' v' fuel (some t) seen' hres

/-- Witness for C20: `{a: x, b: x}` with `x = {n: 1}` sanitizes to
`{a: {n: 1}, b: '[Circular]'}`; that result, as a heap of its own, sanitizes to
itself. -/
theorem sanitize_idempotent_witness :
    sanitize sharedHeap (.ref 0)
      = some (.obj [("a", .obj [("n", .leaf (.num (.int 1)))]),
                    ("b", .leaf (.str "[Circular]"))]) ∧
    readBack 3 sharedResultHeap (.ref 0)
      = some (.obj [("a", .obj [("n", .leaf (.num (.int 1)))]),
                    ("b", .leaf (.str "[Circular]"))], [0, 1]) ∧
    [0, 1].Nodup ∧
    sanitize sharedResultHeap (.ref 0)
      = some (.obj [("a", .obj [("n", .leaf (.num (.int 1)))]),
                    ("b", .leaf (.str "[Circular]"))]) :=
  ⟨rfl, rfl, by decide,
   sanitize_idempotent sharedHeap (.ref 0) _ sharedResultHeap (.ref 0) 3 [0, 1] rfl rfl
     (by decide)⟩

end FfcAlerting
